import Mathlib

/-!
# Equivalent polynomials on cut simplices

A shallow embedding of `proteus/equivalent_polynomials.h` (the `Simplex`
engine, its regularized counterpart and the dispatcher) together with the
properties proved about it.

Conventions of the embedding.

* `double` values are exact rationals (`ℚ`): every comparison and every
  arithmetic operation of the source is carried out without rounding.
* A C array is a function `Nat → α`; a store `a[i] = v` is `setAt a i v`.
* A `for (i = 0; i < n; i++)` loop is `forLoop n body`, the body receiving the
  loop index and the variables the loop writes.
* A failing `assert` aborts the program: functions that contain one return an
  `Option`, `none` standing for the abort.
* The template parameters `nSpace`, `nP`, `nQ` are explicit arguments.
-/

namespace equivalent_polynomials

/-! ## Loops and arrays -/

/-- The loop `for (unsigned int i = 0; i < n; i++) body(i)` run on the state `s`. -/
def forLoop {σ : Type} (n : Nat) (body : Nat → σ → σ) (s : σ) : σ :=
  match n with
  | 0 => s
  | k + 1 => body k (forLoop k body s)

/-- The loop `for (unsigned int i = 0; i < n; i++) body(i)` whose body may stop at a
failing `assert`. -/
def forLoopM {σ : Type} (n : Nat) (body : Nat → σ → Option σ) (s : σ) : Option σ :=
  match n with
  | 0 => some s
  | k + 1 => (forLoopM k body s).bind (body k)

/-- The array store `a[i] = v`. -/
def setAt {α : Type} (a : Nat → α) (i : Nat) (v : α) : Nat → α :=
  fun j => if j = i then v else a j

/-! ## Numeric kernels that live outside `equivalent_polynomials.h` -/

/-- Modelled from the spec: `det<nSpace>` of `equivalent_polynomials_utils.h` (not among the
sources), the "small-matrix determinant" of an `nSpace×nSpace` matrix stored row-major,
for `nSpace` 1, 2 and 3. -/
def det (nSpace : Nat) (A : Nat → ℚ) : ℚ :=
  match nSpace with
  | 1 => A 0
  | 2 => A 0 * A 3 - A 1 * A 2
  | 3 => A 0 * (A 4 * A 8 - A 5 * A 7) - A 1 * (A 3 * A 8 - A 5 * A 6)
          + A 2 * (A 3 * A 7 - A 4 * A 6)
  | _ => 0

/-- Modelled from the spec: `inv<nSpace>` of `equivalent_polynomials_utils.h` (not among the
sources), the "small-matrix inverse": it writes the inverse of the row-major matrix `A`
into the first `nSpace*nSpace` entries of `out`. -/
def inv (nSpace : Nat) (A : Nat → ℚ) (out : Nat → ℚ) : Nat → ℚ :=
  let d := det nSpace A
  match nSpace with
  | 1 => setAt out 0 (1 / d)
  | 2 => setAt (setAt (setAt (setAt out 0 (A 3 / d)) 1 (-A 1 / d)) 2 (-A 2 / d)) 3 (A 0 / d)
  | 3 =>
    let o0 := setAt out 0 ((A 4 * A 8 - A 5 * A 7) / d)
    let o1 := setAt o0 1 ((A 2 * A 7 - A 1 * A 8) / d)
    let o2 := setAt o1 2 ((A 1 * A 5 - A 2 * A 4) / d)
    let o3 := setAt o2 3 ((A 5 * A 6 - A 3 * A 8) / d)
    let o4 := setAt o3 4 ((A 0 * A 8 - A 2 * A 6) / d)
    let o5 := setAt o4 5 ((A 2 * A 3 - A 0 * A 5) / d)
    let o6 := setAt o5 6 ((A 3 * A 7 - A 4 * A 6) / d)
    let o7 := setAt o6 7 ((A 1 * A 6 - A 0 * A 7) / d)
    setAt o7 8 ((A 0 * A 4 - A 1 * A 3) / d)
  | _ => out

/-- Modelled from the spec: the remaining kernels of `equivalent_polynomials_utils.h` and
`equivalent_polynomials_coefficients.h` (not among the sources), known only through their
input/output contracts: the precomputed inverse moment matrix, the moment right-hand
sides for a cut `X_0`, the interface normal estimated from the cut points, and the
per-dimension polynomial evaluation, which returns the values written to
`_H[q]`, `_ImH[q]`, `_D[q]`. -/
structure Kernels where
  /-- `_set_Ainv<nSpace,nP>(Ainv)`. -/
  _set_Ainv : Nat → Nat → Nat → ℚ
  /-- `_calculate_b<nSpace,nP>(X_0, b_H, b_ImH, b_dH)`. -/
  _calculate_b : Nat → Nat → (Nat → ℚ) → (Nat → ℚ) × (Nat → ℚ) × (Nat → ℚ)
  /-- `_calculate_normal<nSpace>(phys_nodes_cut, level_set_normal)`. -/
  _calculate_normal : Nat → (Nat → ℚ) → Nat → ℚ
  /-- `_calculate_polynomial_1D<nP>(xi, C_H, C_ImH, C_D, _H[q], _ImH[q], _D[q])`. -/
  _calculate_polynomial_1D :
    Nat → (Nat → ℚ) → (Nat → ℚ) → (Nat → ℚ) → (Nat → ℚ) → ℚ × ℚ × ℚ
  /-- `_calculate_polynomial_2D<nP>(xi, C_H, C_ImH, C_D, _H[q], _ImH[q], _D[q])`. -/
  _calculate_polynomial_2D :
    Nat → (Nat → ℚ) → (Nat → ℚ) → (Nat → ℚ) → (Nat → ℚ) → ℚ × ℚ × ℚ
  /-- `_calculate_polynomial_3D<nP>(xi, C_H, C_ImH, C_D, _H[q], _ImH[q], _D[q])`. -/
  _calculate_polynomial_3D :
    Nat → (Nat → ℚ) → (Nat → ℚ) → (Nat → ℚ) → (Nat → ℚ) → ℚ × ℚ × ℚ

/-! ## The `Simplex` engine: data -/

/-- `Simplex::nDOF`, the integer expression of the class, with C++ truncating division. -/
def nDOF (nSpace nP : Int) : Int :=
  Int.tdiv (Int.tdiv (nSpace - 1) 2 * (nSpace - 2) * (nP + 1) * (nP + 2) * (nP + 3)) 6
    + Int.tdiv ((nSpace - 1) * (3 - nSpace) * (nP + 1) * (nP + 2)) 2
    + (2 - nSpace) * Int.tdiv (3 - nSpace) 2 * (nP + 1)

/-- The member variables of `Simplex<nSpace,nP,nQ>`. -/
structure Simplex where
  inside_out : Bool
  phi_dof_corrected : Nat → ℚ
  _H_q : ℚ
  _ImH_q : ℚ
  _D_q : ℚ
  root_node : Nat
  permutation : Nat → Nat
  phi : Nat → ℚ
  nodes : Nat → ℚ
  Jac : Nat → ℚ
  inv_Jac : Nat → ℚ
  level_set_normal : Nat → ℚ
  X_0 : Nat → ℚ
  phys_nodes_cut : Nat → ℚ
  Ainv : Nat → ℚ
  C_H : Nat → ℚ
  C_ImH : Nat → ℚ
  C_D : Nat → ℚ
  _H : Nat → ℚ
  _ImH : Nat → ℚ
  _D : Nat → ℚ

/-- An object whose members are all zero, `inside_out` false. -/
def Simplex.zero : Simplex where
  inside_out := false
  phi_dof_corrected := fun _ => 0
  _H_q := 0
  _ImH_q := 0
  _D_q := 0
  root_node := 0
  permutation := fun _ => 0
  phi := fun _ => 0
  nodes := fun _ => 0
  Jac := fun _ => 0
  inv_Jac := fun _ => 0
  level_set_normal := fun _ => 0
  X_0 := fun _ => 0
  phys_nodes_cut := fun _ => 0
  Ainv := fun _ => 0
  C_H := fun _ => 0
  C_ImH := fun _ => 0
  C_D := fun _ => 0
  _H := fun _ => 0
  _ImH := fun _ => 0
  _D := fun _ => 0

/-- `Simplex::set_quad(q)`; `assert(q < nQ)` aborts (`q >= 0` holds of every unsigned). -/
def set_quad (nQ : Nat) (s : Simplex) (q : Nat) : Option Simplex :=
  if ¬ q < nQ then none
  else
    let s1 := { s with _D_q := s._D q }
    if s1.inside_out then some { s1 with _H_q := s1._ImH q, _ImH_q := s1._H q }
    else some { s1 with _H_q := s1._H q, _ImH_q := s1._ImH q }

/-- `Simplex::H(eps, phi)`. -/
def Simplex.H (s : Simplex) (_eps _phi : ℚ) : ℚ := s._H_q

/-- `Simplex::ImH(eps, phi)`. -/
def Simplex.ImH (s : Simplex) (_eps _phi : ℚ) : ℚ := s._ImH_q

/-- `Simplex::D(eps, phi)`. -/
def Simplex.D (s : Simplex) (_eps _phi : ℚ) : ℚ := s._D_q

/-! ## `_calculate_permutation` -/

/-- The locals `p_i, pcount, n_i, ncount, z_i, zcount` of `_calculate_permutation`. The
three indices are not initialised in the source; they start at 0 here and are read only
after the loop has written them. -/
structure SignCount where
  p_i : Nat
  pcount : Nat
  n_i : Nat
  ncount : Nat
  z_i : Nat
  zcount : Nat

/-- Body of the sign-counting loop (lines 148-165). -/
def countBody (phi_dof : Nat → ℚ) (i : Nat) (c : SignCount) : SignCount :=
  if phi_dof i > 0 then { c with p_i := i, pcount := c.pcount + 1 }
  else if phi_dof i < 0 then { c with n_i := i, ncount := c.ncount + 1 }
  else { c with z_i := i, zcount := c.zcount + 1 }

/-- The sign-counting loop of `_calculate_permutation` (lines 145-165). -/
def signCount (nSpace : Nat) (phi_dof : Nat → ℚ) : SignCount :=
  forLoop (nSpace + 1) (countBody phi_dof) ⟨0, 0, 0, 0, 0, 0⟩

/-- How the case analysis of `_calculate_permutation` (lines 166-204) leaves: by a
`return`, by a failing `assert`, or by falling through to the canonicalisation. -/
inductive Flow where
  | ret (icase : Int) (s : Simplex)
  | abort
  | fall (s : Simplex)

/-- Lines 145-204 of `_calculate_permutation`: reset `root_node` and `inside_out`, count the
signs, and either return a trivial case or choose the root. -/
def classify (nSpace : Nat) (s : Simplex) (phi_dof : Nat → ℚ) : Flow :=
  let nN := nSpace + 1
  let s := { s with root_node := 0, inside_out := false }
  let c := signCount nSpace phi_dof
  if c.pcount = nN then Flow.ret 1 s
  else if c.ncount = nN then Flow.ret (-1) s
  else if c.pcount = 1 then
    if c.zcount = nN - 1 then Flow.ret 1 s
    else if nSpace > 1 then Flow.fall { s with root_node := c.p_i, inside_out := true }
    else Flow.fall { s with root_node := c.n_i }
  else if c.ncount = 1 then Flow.fall { s with root_node := c.n_i }
  else
    if ¬ c.zcount < nN - 1 then Flow.abort
    else if c.pcount ≠ 0 then Flow.ret 1 s
    else if c.ncount ≠ 0 then Flow.ret (-1) s
    else Flow.abort

/-- Lines 209-221 (and again 228-238): copy the permuted nodal values and coordinates into
`phi` and `nodes`, and build `Jac` from the permuted coordinates. -/
def loadPermuted (nSpace : Nat) (s : Simplex) (phi_dof phi_nodes : Nat → ℚ) : Simplex :=
  let nN := nSpace + 1
  let pn := forLoop nN (fun i (st : (Nat → ℚ) × (Nat → ℚ)) =>
      (setAt st.1 i (phi_dof (s.permutation i)),
       forLoop 3 (fun I nd => setAt nd (i * 3 + I) (phi_nodes (s.permutation i * 3 + I))) st.2))
    (s.phi, s.nodes)
  let s := { s with phi := pn.1, nodes := pn.2 }
  let J := forLoop (nN - 1) (fun i J =>
      forLoop nSpace (fun I J =>
        setAt J (I * nSpace + i) (s.nodes ((1 + i) * 3 + I) - s.nodes I)) J) s.Jac
  { s with Jac := J }

/-- Lines 205-245 of `_calculate_permutation`: the rotation starting at the root, the
orientation fix-up and the inverse Jacobian. -/
def canonicalize (nSpace : Nat) (s : Simplex) (phi_dof phi_nodes : Nat → ℚ) :
    Option (Int × Simplex) :=
  let nN := nSpace + 1
  let p0 := forLoop nN (fun i p => setAt p i ((s.root_node + i) % nN)) s.permutation
  let s := { s with permutation := p0 }
  let s := loadPermuted nSpace s phi_dof phi_nodes
  let det_Jac := det nSpace s.Jac
  if det_Jac < 0 then
    let tmp := s.permutation (nN - 1)
    let p1 := setAt s.permutation (nN - 1) (s.permutation (nN - 2))
    let s := { s with permutation := setAt p1 (nN - 2) tmp }
    let s := loadPermuted nSpace s phi_dof phi_nodes
    let det_Jac := det nSpace s.Jac
    if ¬ det_Jac > 0 then none
    else
      let s := if nSpace = 1 then { s with inside_out := true } else s
      some (0, { s with inv_Jac := inv nSpace s.Jac s.inv_Jac })
  else
    some (0, { s with inv_Jac := inv nSpace s.Jac s.inv_Jac })

/-- `Simplex::_calculate_permutation(phi_dof, phi_nodes)`: the returned `icase` together
with the new state, or `none` when an `assert` fails. -/
def _calculate_permutation (nSpace : Nat) (s : Simplex) (phi_dof phi_nodes : Nat → ℚ) :
    Option (Int × Simplex) :=
  match classify nSpace s phi_dof with
  | Flow.ret icase s => some (icase, s)
  | Flow.abort => none
  | Flow.fall s => canonicalize nSpace s phi_dof phi_nodes

/-! ## The cut pipeline -/

/-- `Simplex::_calculate_cuts()`: the crossing parameter and the physical cut point on
every canonical edge; `none` when one of its three `assert`s fails. -/
def _calculate_cuts (nSpace : Nat) (s : Simplex) : Option Simplex :=
  let nN := nSpace + 1
  let r := forLoopM (nN - 1) (fun i (st : (Nat → ℚ) × (Nat → ℚ)) =>
      if s.phi (i + 1) * s.phi 0 < 0 then
        let X := setAt st.1 i
          (1 / 2 - 1 / 2 * (s.phi (i + 1) + s.phi 0) / (s.phi (i + 1) - s.phi 0))
        if ¬ X i ≤ 1 then none
        else if ¬ X i ≥ 0 then none
        else some (X, forLoop 3 (fun I pc =>
          setAt pc (i * 3 + I) ((1 - X i) * s.nodes I + X i * s.nodes ((1 + i) * 3 + I))) st.2)
      else
        if ¬ s.phi (i + 1) = 0 then none
        else
          let X := setAt st.1 i 1
          some (X, forLoop 3 (fun I pc =>
            setAt pc (i * 3 + I) (s.nodes ((1 + i) * 3 + I))) st.2))
    (s.X_0, s.phys_nodes_cut)
  r.map (fun st => { s with X_0 := st.1, phys_nodes_cut := st.2 })

/-- `Simplex::_calculate_C()`: the coefficient vectors `C = Ainv * b`. -/
def _calculate_C (K : Kernels) (nSpace nP : Nat) (s : Simplex) : Simplex :=
  let nD := (nDOF nSpace nP).toNat
  let b := K._calculate_b nSpace nP s.X_0
  let b_H := b.1
  let b_ImH := b.2.1
  let b_dH := b.2.2
  let Jt_dphi_dx := forLoop nSpace (fun I (Jt : Nat → ℚ) =>
      forLoop nSpace (fun J Jt =>
        setAt Jt I (Jt I + s.Jac (J * nSpace + I) * s.level_set_normal J)) (setAt Jt I 0))
    (fun _ => 0)
  let C := forLoop nD (fun i (c : (Nat → ℚ) × (Nat → ℚ) × (Nat → ℚ)) =>
      forLoop nD (fun j (c : (Nat → ℚ) × (Nat → ℚ) × (Nat → ℚ)) =>
        (setAt c.1 i (c.1 i + s.Ainv (i * nD + j) * b_H j),
         setAt c.2.1 i (c.2.1 i + s.Ainv (i * nD + j) * b_ImH j),
         forLoop nSpace (fun I cD =>
           if |Jt_dphi_dx I| > 0 then
             setAt cD i (cD i - s.Ainv (i * nD + j) * b_dH (j * nSpace + I) / Jt_dphi_dx I)
           else cD) c.2.2))
        (setAt c.1 i 0, setAt c.2.1 i 0, setAt c.2.2 i 0))
    (s.C_H, s.C_ImH, s.C_D)
  { s with C_H := C.1, C_ImH := C.2.1, C_D := C.2.2 }

/-- `Simplex::_correct_phi(phi_dof, phi_nodes)`: the projection of every vertex onto the
interface normal, its sign forced to agree with the nodal value. -/
def _correct_phi (nSpace : Nat) (s : Simplex) (phi_dof phi_nodes : Nat → ℚ) : Simplex :=
  let nN := nSpace + 1
  let one_by_nNm1 : ℚ := 1 / ((nN : ℚ) - 1)
  let cut_barycenter := forLoop (nN - 1) (fun i (cb : Nat → ℚ) =>
      forLoop nSpace (fun I cb =>
        setAt cb I (cb I + s.phys_nodes_cut (i * 3 + I) * one_by_nNm1)) cb)
    (fun _ => 0)
  let pc := forLoop nN (fun i (pc : Nat → ℚ) =>
      let pc := forLoop nSpace (fun I pc =>
          setAt pc i (pc i + s.level_set_normal I * (phi_nodes (i * 3 + I) - cut_barycenter I)))
        (setAt pc i 0)
      if pc i * phi_dof i < 0 then setAt pc i (pc i * (-1)) else pc)
    s.phi_dof_corrected
  { s with phi_dof_corrected := pc }

/-- Lines 331-365 of `calculate`: evaluate the polynomials at every quadrature point, mapped
to the canonical reference simplex. -/
def evalQuadrature (K : Kernels) (nSpace nP nQ : Nat) (s : Simplex)
    (phi_nodes xi_r : Nat → ℚ) : Simplex :=
  let nN := nSpace + 1
  let Jac_0 := forLoop (nN - 1) (fun i (J : Nat → ℚ) =>
      forLoop nSpace (fun I J =>
        setAt J (I * nSpace + i) (phi_nodes ((1 + i) * 3 + I) - phi_nodes I)) J)
    (fun _ => 0)
  let out := forLoop nQ (fun q (o : (Nat → ℚ) × (Nat → ℚ) × (Nat → ℚ)) =>
      let x := forLoop nSpace (fun I (x : Nat → ℚ) =>
          forLoop nSpace (fun J x =>
            setAt x I (x I + Jac_0 (I * nSpace + J) * xi_r (q * 3 + J))) (setAt x I (phi_nodes I)))
        (fun _ => 0)
      let xi := forLoop nSpace (fun I (xi : Nat → ℚ) =>
          forLoop nSpace (fun J xi =>
            setAt xi I (xi I + s.inv_Jac (I * nSpace + J) * (x J - s.nodes J))) (setAt xi I 0))
        (fun _ => 0)
      if nSpace = 1 then
        let v := K._calculate_polynomial_1D nP xi s.C_H s.C_ImH s.C_D
        (setAt o.1 q v.1, setAt o.2.1 q v.2.1, setAt o.2.2 q v.2.2)
      else if nSpace = 2 then
        let v := K._calculate_polynomial_2D nP xi s.C_H s.C_ImH s.C_D
        (setAt o.1 q v.1, setAt o.2.1 q v.2.1, setAt o.2.2 q v.2.2)
      else if nSpace = 3 then
        let v := K._calculate_polynomial_3D nP xi s.C_H s.C_ImH s.C_D
        (setAt o.1 q v.1, setAt o.2.1 q v.2.1, setAt o.2.2 q v.2.2)
      else o)
    (s._H, s._ImH, s._D)
  { s with _H := out.1, _ImH := out.2.1, _D := out.2.2 }

/-- `Simplex::calculate(phi_dof, phi_nodes, xi_r)`; `none` when an `assert` fails on the way. -/
def calculate (K : Kernels) (nSpace nP nQ : Nat) (s : Simplex)
    (phi_dof phi_nodes xi_r : Nat → ℚ) : Option Simplex :=
  let nN := nSpace + 1
  let pc := forLoop nN (fun i pc => setAt pc i (phi_dof i)) s.phi_dof_corrected
  let s := { s with phi_dof_corrected := pc }
  match _calculate_permutation nSpace s phi_dof phi_nodes with
  | none => none
  | some (icase, s) =>
    if icase = 1 then
      let o := forLoop nQ (fun q (o : (Nat → ℚ) × (Nat → ℚ) × (Nat → ℚ)) =>
          (setAt o.1 q 1, setAt o.2.1 q 0, setAt o.2.2 q 0)) (s._H, s._ImH, s._D)
      some { s with _H := o.1, _ImH := o.2.1, _D := o.2.2 }
    else if icase = -1 then
      let o := forLoop nQ (fun q (o : (Nat → ℚ) × (Nat → ℚ) × (Nat → ℚ)) =>
          (setAt o.1 q 0, setAt o.2.1 q 1, setAt o.2.2 q 0)) (s._H, s._ImH, s._D)
      some { s with _H := o.1, _ImH := o.2.1, _D := o.2.2 }
    else
      match _calculate_cuts nSpace s with
      | none => none
      | some s =>
        let s := { s with level_set_normal := K._calculate_normal nSpace s.phys_nodes_cut }
        let s := _calculate_C K nSpace nP s
        let s := _correct_phi nSpace s phi_dof phi_nodes
        let s := evalQuadrature K nSpace nP nQ s phi_nodes xi_r
        set_quad nQ s 0

/-! ## Specification vocabulary and concrete inputs -/

/-- Number of indices below `n` that satisfy `P`. -/
def countUpTo (P : Nat → Prop) [DecidablePred P] : Nat → Nat
  | 0 => 0
  | n + 1 => countUpTo P n + (if P n then 1 else 0)

/-- The array holding the entries of `l`, zero beyond its end. -/
def arr (l : List ℚ) : Nat → ℚ := fun i => l.getD i 0

/-- Kernels that return zero everywhere, for concrete runs. -/
def Kernels.zero : Kernels where
  _set_Ainv := fun _ _ _ => 0
  _calculate_b := fun _ _ _ => (fun _ => 0, fun _ => 0, fun _ => 0)
  _calculate_normal := fun _ _ _ => 0
  _calculate_polynomial_1D := fun _ _ _ _ _ => (0, 0, 0)
  _calculate_polynomial_2D := fun _ _ _ _ _ => (0, 0, 0)
  _calculate_polynomial_3D := fun _ _ _ _ _ => (0, 0, 0)

/-- Whether the case analysis fell through to the canonicalisation, i.e. the sign
pattern is treated as a cut. -/
def Flow.isFall : Flow → Bool
  | Flow.fall _ => true
  | _ => false

/-- Exactly one index below `n` satisfies `P`. -/
def ExactlyOne (n : Nat) (P : Nat → Prop) : Prop :=
  ∃ k, k < n ∧ P k ∧ ∀ j, j < n → P j → j = k

/-- The `nN` vertices, read in the first `nSpace` coordinates, are affinely independent:
the only weights of sum zero that combine them to the zero vector are all zero. -/
def AffinelyIndependent (nSpace : Nat) (phi_nodes : Nat → ℚ) : Prop :=
  ∀ w : Nat → ℚ, (∑ i in Finset.range (nSpace + 1), w i = 0) →
    (∀ I, I < nSpace → ∑ i in Finset.range (nSpace + 1), w i * phi_nodes (i * 3 + I) = 0) →
    ∀ i, i < nSpace + 1 → w i = 0

/-- The Jacobian of the affine map onto the vertices taken in the order `p`: entry
`I*nSpace + i` is coordinate `I` of vertex `p (i+1)` minus that of vertex `p 0`. -/
def jacOf (nSpace : Nat) (phi_nodes : Nat → ℚ) (p : Nat → Nat) : Nat → ℚ :=
  fun k => phi_nodes (p (1 + k % nSpace) * 3 + k / nSpace) - phi_nodes (p 0 * 3 + k / nSpace)

/-- The rotation written by lines 205-208 over the previous contents `p`. -/
def rotation (nSpace root : Nat) (p : Nat → Nat) : Nat → Nat :=
  fun j => if j < nSpace + 1 then (root + j) % (nSpace + 1) else p j

/-- The exchange of the last two entries done by lines 225-227. -/
def swapLast (nSpace : Nat) (p : Nat → Nat) : Nat → Nat :=
  setAt (setAt p (nSpace + 1 - 1) (p (nSpace + 1 - 2))) (nSpace + 1 - 2) (p (nSpace + 1 - 1))

/-- The state after the rotation has been loaded (lines 205-221). -/
def rotated (nSpace : Nat) (s : Simplex) (phi_dof phi_nodes : Nat → ℚ) : Simplex :=
  loadPermuted nSpace { s with permutation := rotation nSpace s.root_node s.permutation }
    phi_dof phi_nodes

/-- The state after the last two entries have been exchanged and loaded (lines 225-238). -/
def exchanged (nSpace : Nat) (s : Simplex) (phi_dof phi_nodes : Nat → ℚ) : Simplex :=
  loadPermuted nSpace
    { rotated nSpace s phi_dof phi_nodes with
      permutation := swapLast nSpace (rotated nSpace s phi_dof phi_nodes).permutation }
    phi_dof phi_nodes

/-! ## The regularized engine -/

/-- `Regularized::H(eps, phi)`. The library function `sin` and the constant `M_PI` are the
parameters `sin` and `pi`; the arithmetic is that of an ordered field `F` (the rationals for
runs, the reals with `Real.sin` and `Real.pi` for analysis). -/
def Regularized.H {F : Type} [LinearOrderedField F] (sin : F → F) (pi eps phi : F) : F :=
  if phi > eps then 1
  else if phi < -eps then 0
  else if phi = 0 then 1 / 2
  else 1 / 2 * (1 + phi / eps + sin (pi * phi / eps) / pi)

/-- `Regularized::ImH(eps, phi)`. -/
def Regularized.ImH {F : Type} [LinearOrderedField F] (sin : F → F) (pi eps phi : F) : F :=
  1 - Regularized.H sin pi eps phi

/-- `Regularized::D(eps, phi)`, with `cos` and `M_PI` as the parameters `cos` and `pi`. -/
def Regularized.D {F : Type} [LinearOrderedField F] (cos : F → F) (pi eps phi : F) : F :=
  if phi > eps then 0
  else if phi < -eps then 0
  else 1 / 2 * (1 + cos (pi * phi / eps)) / eps

/-- The crossing parameter of line 255, `0.5 - 0.5*(b + a)/(b - a)`, for the end values
`a = phi[0]` and `b = phi[i+1]`. -/
def crossing {F : Type} [LinearOrderedField F] (a b : F) : F :=
  1 / 2 - 1 / 2 * (b + a) / (b - a)

/-- Body of the loop of `_calculate_cuts` (lines 251-272) for the edge `i`, acting on
`X_0` and `phys_nodes_cut`. -/
def cutsBody (s : Simplex) (i : Nat) (st : (Nat → ℚ) × (Nat → ℚ)) :
    Option ((Nat → ℚ) × (Nat → ℚ)) :=
  if s.phi (i + 1) * s.phi 0 < 0 then
    let X := setAt st.1 i
      (1 / 2 - 1 / 2 * (s.phi (i + 1) + s.phi 0) / (s.phi (i + 1) - s.phi 0))
    if ¬ X i ≤ 1 then none
    else if ¬ X i ≥ 0 then none
    else some (X, forLoop 3 (fun I pc =>
      setAt pc (i * 3 + I) ((1 - X i) * s.nodes I + X i * s.nodes ((1 + i) * 3 + I))) st.2)
  else
    if ¬ s.phi (i + 1) = 0 then none
    else
      let X := setAt st.1 i 1
      some (X, forLoop 3 (fun I pc =>
        setAt pc (i * 3 + I) (s.nodes ((1 + i) * 3 + I))) st.2)

/-- In one dimension, no vertex whose nodal value is exactly zero has a smaller coordinate
than a vertex whose nodal value is strictly negative. -/
def NoZeroBeforeNegative (nSpace : Nat) (phi_dof phi_nodes : Nat → ℚ) : Prop :=
  nSpace = 1 → ∀ i j, i < 2 → j < 2 → phi_dof i = 0 → phi_dof j < 0 →
    ¬ phi_nodes (i * 3) < phi_nodes (j * 3)

/-- The permutation left by lines 205-245 for the root `root`: the rotation, its last two
entries exchanged when the rotated Jacobian has negative determinant. -/
def finalPermutation (nSpace root : Nat) (phi_nodes : Nat → ℚ) (p : Nat → Nat) : Nat → Nat :=
  if det nSpace (jacOf nSpace phi_nodes (rotation nSpace root p)) < 0
  then swapLast nSpace (rotation nSpace root p)
  else rotation nSpace root p

/-- The barycentre of the cut points computed by lines 278-284 of `_correct_phi`. -/
def cutBarycenter (nSpace : Nat) (s : Simplex) : Nat → ℚ :=
  forLoop (nSpace + 1 - 1) (fun i (cb : Nat → ℚ) =>
      forLoop nSpace (fun I cb =>
        setAt cb I (cb I + s.phys_nodes_cut (i * 3 + I) * (1 / (((nSpace + 1 : Nat) : ℚ) - 1)))) cb)
    (fun _ => 0)

/-- Body of the vertex loop of `_correct_phi` (lines 285-297) for the vertex `i`. -/
def correctBody (nSpace : Nat) (s : Simplex) (phi_dof phi_nodes : Nat → ℚ) (i : Nat)
    (pc : Nat → ℚ) : Nat → ℚ :=
  let pc := forLoop nSpace (fun I pc =>
      setAt pc i (pc i + s.level_set_normal I * (phi_nodes (i * 3 + I) - cutBarycenter nSpace s I)))
    (setAt pc i 0)
  if pc i * phi_dof i < 0 then setAt pc i (pc i * (-1)) else pc

/-- The Jacobian `Jac_0` of the un-permuted vertices built by lines 332-335 of `calculate`. -/
def Jac_0 (nSpace : Nat) (phi_nodes : Nat → ℚ) : Nat → ℚ :=
  forLoop (nSpace + 1 - 1) (fun i (J : Nat → ℚ) =>
      forLoop nSpace (fun I J =>
        setAt J (I * nSpace + i) (phi_nodes ((1 + i) * 3 + I) - phi_nodes I)) J)
    (fun _ => 0)

/-- The physical point `x` of lines 342-349 of `calculate` for the quadrature point `q`. -/
def physPoint (nSpace : Nat) (phi_nodes xi_r : Nat → ℚ) (q : Nat) : Nat → ℚ :=
  forLoop nSpace (fun I (x : Nat → ℚ) =>
      forLoop nSpace (fun J x =>
        setAt x I (x I + Jac_0 nSpace phi_nodes (I * nSpace + J) * xi_r (q * 3 + J)))
        (setAt x I (phi_nodes I)))
    (fun _ => 0)

/-- The canonical coordinate `xi` of lines 351-358 of `calculate` for the quadrature point
`q`, the argument handed to `_calculate_polynomial_1D/2D/3D`. -/
def xiOf (nSpace : Nat) (s : Simplex) (phi_nodes xi_r : Nat → ℚ) (q : Nat) : Nat → ℚ :=
  forLoop nSpace (fun I (xi : Nat → ℚ) =>
      forLoop nSpace (fun J xi =>
        setAt xi I (xi I + s.inv_Jac (I * nSpace + J)
          * (physPoint nSpace phi_nodes xi_r q J - s.nodes J))) (setAt xi I 0))
    (fun _ => 0)

/-- Body of the quadrature loop of `calculate` (lines 336-365) for the point `q`, acting on
`_H`, `_ImH`, `_D`. -/
def quadratureBody (K : Kernels) (nSpace nP : Nat) (s : Simplex) (phi_nodes xi_r : Nat → ℚ)
    (q : Nat) (o : (Nat → ℚ) × (Nat → ℚ) × (Nat → ℚ)) : (Nat → ℚ) × (Nat → ℚ) × (Nat → ℚ) :=
  if nSpace = 1 then
    let v := K._calculate_polynomial_1D nP (xiOf nSpace s phi_nodes xi_r q) s.C_H s.C_ImH s.C_D
    (setAt o.1 q v.1, setAt o.2.1 q v.2.1, setAt o.2.2 q v.2.2)
  else if nSpace = 2 then
    let v := K._calculate_polynomial_2D nP (xiOf nSpace s phi_nodes xi_r q) s.C_H s.C_ImH s.C_D
    (setAt o.1 q v.1, setAt o.2.1 q v.2.1, setAt o.2.2 q v.2.2)
  else if nSpace = 3 then
    let v := K._calculate_polynomial_3D nP (xiOf nSpace s phi_nodes xi_r q) s.C_H s.C_ImH s.C_D
    (setAt o.1 q v.1, setAt o.2.1 q v.2.1, setAt o.2.2 q v.2.2)
  else o

/-! ## The dispatcher -/

/-- The members of `GeneralizedFunctions_mix<nSpace,nP,nQ>`: the exact engine and the flag
`useExact` (the member `regularized` holds no data). -/
structure GeneralizedFunctions_mix where
  exact : Simplex
  useExact : Bool

/-- `GeneralizedFunctions_mix::calculate`: always the exact engine. -/
def GeneralizedFunctions_mix.calculate (K : Kernels) (nSpace nP nQ : Nat)
    (g : GeneralizedFunctions_mix) (phi_dof phi_nodes xi_r : Nat → ℚ) :
    Option GeneralizedFunctions_mix :=
  (equivalent_polynomials.calculate K nSpace nP nQ g.exact phi_dof phi_nodes xi_r).map
    (fun e => { g with exact := e })

/-- `GeneralizedFunctions_mix::set_quad(q)`. -/
def GeneralizedFunctions_mix.set_quad (nQ : Nat) (g : GeneralizedFunctions_mix) (q : Nat) :
    Option GeneralizedFunctions_mix :=
  if g.useExact then
    (equivalent_polynomials.set_quad nQ g.exact q).map (fun e => { g with exact := e })
  else some g

/-- `GeneralizedFunctions_mix::H(eps, phi)`. -/
def GeneralizedFunctions_mix.H (sin : ℚ → ℚ) (pi : ℚ) (g : GeneralizedFunctions_mix)
    (eps phi : ℚ) : ℚ :=
  if g.useExact then g.exact.H eps phi else Regularized.H sin pi eps phi

/-- `GeneralizedFunctions_mix::ImH(eps, phi)`. -/
def GeneralizedFunctions_mix.ImH (sin : ℚ → ℚ) (pi : ℚ) (g : GeneralizedFunctions_mix)
    (eps phi : ℚ) : ℚ :=
  if g.useExact then g.exact.ImH eps phi else Regularized.ImH sin pi eps phi

/-- `GeneralizedFunctions_mix::D(eps, phi)`. -/
def GeneralizedFunctions_mix.D (cos : ℚ → ℚ) (pi : ℚ) (g : GeneralizedFunctions_mix)
    (eps phi : ℚ) : ℚ :=
  if g.useExact then g.exact.D eps phi else Regularized.D cos pi eps phi

/-- The constructor `Simplex::Simplex`, run on the uninitialised object `s`: the checks of
`nDOF` followed by `_set_Ainv<nSpace,nP>(Ainv)`; `none` when an `assert` fails. -/
def Simplex.construct (K : Kernels) (nSpace nP : Int) (s : Simplex) : Option Simplex :=
  if nSpace = 1 then
    if ¬ nDOF nSpace nP = nP + 1 then none
    else some { s with Ainv := K._set_Ainv nSpace.toNat nP.toNat }
  else if nSpace = 2 then
    if ¬ nDOF nSpace nP = Int.tdiv ((nP + 1) * (nP + 2)) 2 then none
    else some { s with Ainv := K._set_Ainv nSpace.toNat nP.toNat }
  else if nSpace = 3 then
    if ¬ nDOF nSpace nP = Int.tdiv ((nP + 1) * (nP + 2) * (nP + 3)) 6 then none
    else some { s with Ainv := K._set_Ainv nSpace.toNat nP.toNat }
  else none

/-! ## The analytic box of `MeshAdaptPUMI/createAnalyticGeometry.cpp` -/

/-- The file-scope variables `boxLength`, `boxWidth`, `boxHeight`. -/
structure Box where
  boxLength : ℚ
  boxWidth : ℚ
  boxHeight : ℚ

/-- An entity map `void f(double const p[2], double x[3], void*)`: from the parameters `p`
to the point `x`. -/
abbrev EntityMap : Type := Box → ℚ × ℚ → ℚ × ℚ × ℚ

/-- A reparameterisation `void f(double const from[2], double to[2], void*)`. -/
abbrev ParametricFunction : Type := ℚ × ℚ → ℚ × ℚ

def vert0 : EntityMap := fun _ _ => (0, 0, 0)
def vert1 : EntityMap := fun b _ => (b.boxLength, 0, 0)
def vert2 : EntityMap := fun b _ => (b.boxLength, b.boxWidth, 0)
def vert3 : EntityMap := fun b _ => (0, b.boxWidth, 0)
def vert4 : EntityMap := fun b _ => (0, 0, b.boxHeight)
def vert5 : EntityMap := fun b _ => (b.boxLength, 0, b.boxHeight)
def vert6 : EntityMap := fun b _ => (b.boxLength, b.boxWidth, b.boxHeight)
def vert7 : EntityMap := fun b _ => (0, b.boxWidth, b.boxHeight)

def edge0 : EntityMap := fun b p => (b.boxLength * p.1, 0, 0)
def edge1 : EntityMap := fun b p => (b.boxLength, b.boxWidth * p.1, 0)
def edge2 : EntityMap := fun b p => (b.boxLength * p.1, b.boxWidth, 0)
def edge3 : EntityMap := fun b p => (0, b.boxWidth * p.1, 0)
def edge4 : EntityMap := fun b p => (b.boxLength * p.1, 0, b.boxHeight)
def edge5 : EntityMap := fun b p => (b.boxLength, b.boxWidth * p.1, b.boxHeight)
def edge6 : EntityMap := fun b p => (b.boxLength * p.1, b.boxWidth, b.boxHeight)
def edge7 : EntityMap := fun b p => (0, b.boxWidth * p.1, b.boxHeight)
def edge8 : EntityMap := fun b p => (0, 0, b.boxHeight * p.1)
def edge9 : EntityMap := fun b p => (b.boxLength, 0, b.boxHeight * p.1)
def edge10 : EntityMap := fun b p => (b.boxLength, b.boxWidth, b.boxHeight * p.1)
def edge11 : EntityMap := fun b p => (0, b.boxWidth, b.boxHeight * p.1)

def face0 : EntityMap := fun b p => (b.boxLength * p.1, 0, b.boxHeight * p.2)
def face1 : EntityMap := fun b p => (b.boxLength, b.boxWidth * p.1, b.boxHeight * p.2)
def face2 : EntityMap := fun b p => (b.boxLength * p.1, b.boxWidth, b.boxHeight * p.2)
def face3 : EntityMap := fun b p => (0, b.boxWidth * p.1, b.boxHeight * p.2)
def face4 : EntityMap := fun b p => (b.boxLength * p.1, b.boxWidth * p.2, 0)
def face5 : EntityMap := fun b p => (b.boxLength * p.1, b.boxWidth * p.2, b.boxHeight)

def reparamVert_zero : ParametricFunction := fun _ => (0, 0)
def reparamVert_one : ParametricFunction := fun _ => (1, 0)
def reparamREdge_0 : ParametricFunction := fun p => (p.1, 0)
def reparamREdge_1 : ParametricFunction := fun p => (0, p.1)
def reparamREdge_2 : ParametricFunction := fun p => (p.1, 1)
def reparamREdge_3 : ParametricFunction := fun p => (1, p.1)

namespace makeBox3D

/-- `vertexMap` of `Enclosure::makeBox3D`. -/
def vertexMap : List Int := [58, 56, 54, 60, 5, 10, 15, 2]

/-- `vertexPoints` of `Enclosure::makeBox3D`. -/
def vertexPoints : List EntityMap := [vert0, vert1, vert2, vert3, vert4, vert5, vert6, vert7]

/-- `edgeMap` of `Enclosure::makeBox3D`. -/
def edgeMap : List Int := [50, 48, 46, 52, 11, 16, 20, 6, 73, 72, 71, 74]

/-- `edgeEntities` of `Enclosure::makeBox3D`. -/
def edgeEntities : List EntityMap :=
  [edge0, edge1, edge2, edge3, edge4, edge5, edge6, edge7, edge8, edge9, edge10, edge11]

/-- `faceEntities` of `Enclosure::makeBox3D`. -/
def faceEntities : List EntityMap := [face0, face1, face2, face3, face4, face5]

/-- `faceMap` of `Enclosure::makeBox3D`. -/
def faceMap : List Int := [5, 4, 3, 2, 1, 6]

/-- `edgeLoop` of `Enclosure::makeBox3D`: the edge tags of every face. -/
def edgeLoop : List (List Int) :=
  [[50, 72, 11, 73], [72, 48, 71, 16], [46, 74, 20, 71], [52, 73, 6, 74], [50, 52, 46, 48],
   [11, 16, 20, 6]]

/-- `edgeReparamLoop` of `Enclosure::makeBox3D`. -/
def edgeReparamLoop : List (List Nat) :=
  [[0, 3, 2, 1], [1, 0, 3, 2], [0, 1, 2, 3], [0, 1, 2, 3], [0, 1, 2, 3], [0, 3, 2, 1]]

/-- `edgeFaceFunction` of `Enclosure::makeBox3D`. -/
def edgeFaceFunction : List ParametricFunction :=
  [reparamREdge_0, reparamREdge_1, reparamREdge_2, reparamREdge_3]

/-- The twelve blocks that attach the end vertices to the edges (lines 430-500): the index
of the edge in `g_edge`, then for `edgeUse0` and `edgeUse0_1` the index into `vertexMap`
and the reparameterisation registered for it. -/
def edgeVertexUses : List (Nat × (Nat × ParametricFunction) × (Nat × ParametricFunction)) :=
  [(0, (0, reparamVert_zero), (1, reparamVert_one)),
   (1, (1, reparamVert_zero), (2, reparamVert_one)),
   (2, (2, reparamVert_one), (3, reparamVert_zero)),
   (3, (3, reparamVert_one), (0, reparamVert_zero)),
   (4, (4, reparamVert_zero), (5, reparamVert_one)),
   (5, (5, reparamVert_zero), (6, reparamVert_one)),
   (6, (6, reparamVert_one), (7, reparamVert_zero)),
   (7, (7, reparamVert_one), (4, reparamVert_zero)),
   (8, (0, reparamVert_zero), (4, reparamVert_one)),
   (9, (1, reparamVert_zero), (5, reparamVert_one)),
   (10, (2, reparamVert_zero), (6, reparamVert_one)),
   (11, (3, reparamVert_zero), (7, reparamVert_one))]

/-- The entity that `add_adj` attaches for a tag (`gmi_find(m, dim - 1, tag)`): the one
registered by the loop `gmi_add_analytic(model, dim, map[i], entities[i], ...)` under that
tag. -/
def find (map : List Int) (entities : List EntityMap) (tag : Int) : Option EntityMap :=
  entities[map.indexOf tag]?

/-- The first `n` iterations of the face-creation loop (lines 519-521), whose body is
`g_face[i] = gmi_add_analytic(model, 2, faceMap[i], faceEntities[i], faPer, faRan, 0)` with
the array `g_face` of `faceMap.size()` entries; an access outside an array is `none`. The
result lists the registered pairs of tag and entity map. -/
def faceLoopTo (n : Nat) : Option (List (Int × EntityMap)) :=
  forLoopM n (fun i (g_face : List (Int × EntityMap)) =>
    match faceMap[i]?, faceEntities[i]? with
    | some tag, some f => if i < faceMap.length then some (g_face ++ [(tag, f)]) else none
    | _, _ => none) []

/-- The face-creation loop as written: `for (int i = 0; i < edgeMap.size(); i++)`. -/
def faceLoop : Option (List (Int × EntityMap)) := faceLoopTo edgeMap.length

end makeBox3D

/-! ## History independence: vocabulary -/

/-- The arrays `a` and `b` hold the same values in their first `n` entries. -/
def AgreeBelow {α : Type} (n : Nat) (a b : Nat → α) : Prop := ∀ i, i < n → a i = b i

/-- The kernels read their array arguments inside the declared bounds only, those of the
members `phys_nodes_cut[(nN-1)*3]`, `X_0[nSpace]`, `C_H[nDOF]`, `C_ImH[nDOF]`, `C_D[nDOF]`:
arguments that agree inside the bounds give the same results. -/
def Kernels.Local (K : Kernels) (nSpace nP : Nat) : Prop :=
  (∀ a b, AgreeBelow (nSpace * 3) a b →
    K._calculate_normal nSpace a = K._calculate_normal nSpace b) ∧
  (∀ X Y, AgreeBelow nSpace X Y → K._calculate_b nSpace nP X = K._calculate_b nSpace nP Y) ∧
  (∀ xi C1 C2 C3 D1 D2 D3, AgreeBelow (nDOF nSpace nP).toNat C1 D1 →
    AgreeBelow (nDOF nSpace nP).toNat C2 D2 → AgreeBelow (nDOF nSpace nP).toNat C3 D3 →
    K._calculate_polynomial_1D nP xi C1 C2 C3 = K._calculate_polynomial_1D nP xi D1 D2 D3 ∧
    K._calculate_polynomial_2D nP xi C1 C2 C3 = K._calculate_polynomial_2D nP xi D1 D2 D3 ∧
    K._calculate_polynomial_3D nP xi C1 C2 C3 = K._calculate_polynomial_3D nP xi D1 D2 D3)

/-- The vector `Jt_dphi_dx` built by the first loop of `_calculate_C`. -/
def Jt_dphi_dx (nSpace : Nat) (s : Simplex) : Nat → ℚ :=
  forLoop nSpace (fun I (Jt : Nat → ℚ) =>
      forLoop nSpace (fun J Jt =>
        setAt Jt I (Jt I + s.Jac (J * nSpace + I) * s.level_set_normal J)) (setAt Jt I 0))
    (fun _ => 0)

/-- Body of the column loop of `_calculate_C` for the row `i` and the column `j`, acting on
`C_H`, `C_ImH`, `C_D`. -/
def coeffInner (nSpace nD : Nat) (Ainv b_H b_ImH b_dH Jt : Nat → ℚ) (i j : Nat)
    (c : (Nat → ℚ) × (Nat → ℚ) × (Nat → ℚ)) : (Nat → ℚ) × (Nat → ℚ) × (Nat → ℚ) :=
  (setAt c.1 i (c.1 i + Ainv (i * nD + j) * b_H j),
   setAt c.2.1 i (c.2.1 i + Ainv (i * nD + j) * b_ImH j),
   forLoop nSpace (fun I cD =>
     if |Jt I| > 0 then
       setAt cD i (cD i - Ainv (i * nD + j) * b_dH (j * nSpace + I) / Jt I)
     else cD) c.2.2)

/-- Body of the row loop of `_calculate_C` for the row `i`. -/
def coeffBody (nSpace nD : Nat) (Ainv b_H b_ImH b_dH Jt : Nat → ℚ) (i : Nat)
    (c : (Nat → ℚ) × (Nat → ℚ) × (Nat → ℚ)) : (Nat → ℚ) × (Nat → ℚ) × (Nat → ℚ) :=
  forLoop nD (coeffInner nSpace nD Ainv b_H b_ImH b_dH Jt i)
    (setAt c.1 i 0, setAt c.2.1 i 0, setAt c.2.2 i 0)

/-- An object as an earlier call may have left it: every member that `calculate` rewrites
holds a value foreign to the next call; `Ainv` is that of `Simplex.zero`. -/
def staleState : Simplex where
  inside_out := true
  phi_dof_corrected := fun _ => 7
  _H_q := 3
  _ImH_q := 4
  _D_q := 5
  root_node := 1
  permutation := fun _ => 9
  phi := fun _ => 2
  nodes := fun _ => 6
  Jac := fun _ => 8
  inv_Jac := fun _ => 1
  level_set_normal := fun _ => 3
  X_0 := fun _ => 4
  phys_nodes_cut := fun _ => 5
  Ainv := fun _ => 0
  C_H := fun _ => 1
  C_ImH := fun _ => 2
  C_D := fun _ => 3
  _H := fun _ => 4
  _ImH := fun _ => 5
  _D := fun _ => 6

/-! ## The two-dimensional box -/

def reparamEdge_0 : ParametricFunction := fun p => (p.1, 0)
def reparamEdge_1 : ParametricFunction := fun p => (0, 1 - p.1)
def reparamEdge_2 : ParametricFunction := fun p => (1 - p.1, 1)
def reparamEdge_3 : ParametricFunction := fun p => (1, p.1)

namespace makeBox2D

/-- `vertexMap` of `Enclosure::makeBox2D`. -/
def vertexMap : List Int := [58, 5, 10, 56]

/-- `vertexPoints` of `Enclosure::makeBox2D`. -/
def vertexPoints : List EntityMap := [vert0, vert1, vert2, vert3]

/-- `edgeMap` of `Enclosure::makeBox2D`. -/
def edgeMap : List Int := [1, 2, 3, 4]

/-- `edgeEntities` of `Enclosure::makeBox2D`. -/
def edgeEntities : List EntityMap := [edge0, edge1, edge2, edge3]

/-- `indexPairs` of `Enclosure::makeBox2D`: the indices into `vertexMap` of the vertices
attached to the edge `i`, the first with `reparamVert_zero`, the second with
`reparamVert_one`. -/
def indexPairs : List (Nat × Nat) := [(0, 1), (1, 2), (2, 3), (3, 0)]

/-- `edgeFaceFunction` of `Enclosure::makeBox2D`: entry `i` is registered for the edge
`edgeMap[i]` on the face `face4`. -/
def edgeFaceFunction : List ParametricFunction :=
  [reparamEdge_0, reparamEdge_3, reparamEdge_2, reparamEdge_1]

/-- The entity map of the edge that the loop over `edgeMap` attaches to the face in its
iteration `i`, `add_adj(model, b, edgeMap[i])`. -/
def edgeOf (i : Nat) : Option EntityMap :=
  (edgeMap[i]?).bind (makeBox3D.find edgeMap edgeEntities)

/-- The entity maps of the two vertices that the loop over `edgeMap` attaches to the edge in
its iteration `i`: `add_adj(model, b, vertexMap[indexPairs[i].first])` and
`add_adj(model, b, vertexMap[indexPairs[i].second])`. -/
def verticesOf (i : Nat) : Option (EntityMap × EntityMap) :=
  (indexPairs[i]?).bind (fun pr =>
    ((vertexMap[pr.1]?).bind (makeBox3D.find vertexMap vertexPoints)).bind (fun v0 =>
      ((vertexMap[pr.2]?).bind (makeBox3D.find vertexMap vertexPoints)).map (fun v1 =>
        (v0, v1))))

end makeBox2D

/-! ## Sign preservation: vocabulary -/

/-- Kernels for concrete runs in two dimensions: the interface normal is the perpendicular
of the segment between the two cut points, `(1, 0)` when the two points coincide; the other
kernels return zero. -/
def Kernels.perp : Kernels :=
  { Kernels.zero with
    _calculate_normal := fun _ P =>
      if P 3 = P 0 ∧ P 4 = P 1 then arr [1, 0] else arr [P 4 - P 1, P 0 - P 3] }

/-! # Proofs -/

/-! ## Counting lemmas -/

theorem countUpTo_le (P : Nat → Prop) [DecidablePred P] (n : Nat) : countUpTo P n ≤ n := by
  induction n with
  | zero => simp [countUpTo]
  | succ n ih => simp only [countUpTo]; split <;> omega

theorem countUpTo_mono (P : Nat → Prop) [DecidablePred P] {m n : Nat} (h : m ≤ n) :
    countUpTo P m ≤ countUpTo P n := by
  induction n with
  | zero => have : m = 0 := by omega
            subst this; exact le_refl _
  | succ n ih =>
    rcases Nat.eq_or_lt_of_le h with h1 | h1
    · subst h1; exact le_refl _
    · have := ih (by omega)
      simp only [countUpTo]; omega

theorem countUpTo_eq_self_iff (P : Nat → Prop) [DecidablePred P] (n : Nat) :
    countUpTo P n = n ↔ ∀ i, i < n → P i := by
  induction n with
  | zero => simp [countUpTo]
  | succ n ih =>
    have hle := countUpTo_le P n
    simp only [countUpTo]
    constructor
    · intro h i hi
      by_cases hP : P n
      · simp only [hP, if_true] at h
        have h2 : countUpTo P n = n := by omega
        rcases Nat.eq_or_lt_of_le (Nat.le_of_lt_succ hi) with h3 | h3
        · subst h3; exact hP
        · exact ih.mp h2 i h3
      · simp only [hP, if_false] at h; omega
    · intro h
      have h1 : countUpTo P n = n := ih.mpr (fun i hi => h i (by omega))
      have h2 : P n := h n (by omega)
      simp [h1, h2]

theorem countUpTo_pos_iff (P : Nat → Prop) [DecidablePred P] (n : Nat) :
    0 < countUpTo P n ↔ ∃ i, i < n ∧ P i := by
  induction n with
  | zero => simp [countUpTo]
  | succ n ih =>
    simp only [countUpTo]
    constructor
    · intro h
      by_cases hP : P n
      · exact ⟨n, by omega, hP⟩
      · simp only [hP, if_false] at h
        obtain ⟨i, hi, hPi⟩ := ih.mp (by omega)
        exact ⟨i, by omega, hPi⟩
    · rintro ⟨i, hi, hPi⟩
      rcases Nat.eq_or_lt_of_le (Nat.le_of_lt_succ hi) with h3 | h3
      · subst h3; simp [hPi]
      · have := ih.mpr ⟨i, h3, hPi⟩
        omega

theorem countUpTo_two_le (P : Nat → Prop) [DecidablePred P] {i j n : Nat}
    (hij : i < j) (hj : j < n) (hi : P i) (hPj : P j) : 2 ≤ countUpTo P n := by
  have h1 : countUpTo P (i + 1) = countUpTo P i + 1 := by simp [countUpTo, hi]
  have h2 : countUpTo P (j + 1) = countUpTo P j + 1 := by simp [countUpTo, hPj]
  have h3 : countUpTo P (i + 1) ≤ countUpTo P j := countUpTo_mono P (by omega)
  have h4 : countUpTo P (j + 1) ≤ countUpTo P n := countUpTo_mono P (by omega)
  omega

theorem countUpTo_eq_one_unique (P : Nat → Prop) [DecidablePred P] {n : Nat}
    (h : countUpTo P n = 1) {i j : Nat} (hi : i < n) (hj : j < n) (hPi : P i) (hPj : P j) :
    i = j := by
  rcases Nat.lt_trichotomy i j with h1 | h1 | h1
  · have := countUpTo_two_le P h1 hj hPi hPj; omega
  · exact h1
  · have := countUpTo_two_le P h1 hi hPj hPi; omega

theorem countUpTo_of_unique (P : Nat → Prop) [DecidablePred P] (k n : Nat)
    (h : ∀ j, j < n → (P j ↔ j = k)) : countUpTo P n = if k < n then 1 else 0 := by
  induction n with
  | zero => simp [countUpTo]
  | succ n ih =>
    have ih1 := ih (fun j hj => h j (by omega))
    simp only [countUpTo, ih1]
    have hn := h n (by omega)
    by_cases hk : n = k
    · have : P n := hn.mpr hk
      subst hk
      simp [this]
    · have : ¬ P n := fun hp => hk (hn.mp hp)
      simp only [this, if_false]
      by_cases hkn : k < n
      · simp [hkn, Nat.lt_succ_of_lt hkn]
      · have : ¬ k < n + 1 := by omega
        simp [hkn, this]

/-! ## The sign-counting loop -/

theorem countLoop_spec (phi : Nat → ℚ) (n : Nat) :
    (forLoop n (countBody phi) ⟨0, 0, 0, 0, 0, 0⟩).pcount = countUpTo (fun i => phi i > 0) n ∧
    (forLoop n (countBody phi) ⟨0, 0, 0, 0, 0, 0⟩).ncount = countUpTo (fun i => phi i < 0) n ∧
    (forLoop n (countBody phi) ⟨0, 0, 0, 0, 0, 0⟩).zcount = countUpTo (fun i => phi i = 0) n ∧
    (forLoop n (countBody phi) ⟨0, 0, 0, 0, 0, 0⟩).pcount
      + (forLoop n (countBody phi) ⟨0, 0, 0, 0, 0, 0⟩).ncount
      + (forLoop n (countBody phi) ⟨0, 0, 0, 0, 0, 0⟩).zcount = n ∧
    (0 < (forLoop n (countBody phi) ⟨0, 0, 0, 0, 0, 0⟩).pcount →
      (forLoop n (countBody phi) ⟨0, 0, 0, 0, 0, 0⟩).p_i < n ∧
      phi (forLoop n (countBody phi) ⟨0, 0, 0, 0, 0, 0⟩).p_i > 0) ∧
    (0 < (forLoop n (countBody phi) ⟨0, 0, 0, 0, 0, 0⟩).ncount →
      (forLoop n (countBody phi) ⟨0, 0, 0, 0, 0, 0⟩).n_i < n ∧
      phi (forLoop n (countBody phi) ⟨0, 0, 0, 0, 0, 0⟩).n_i < 0) := by
  induction n with
  | zero => simp [forLoop, countUpTo]
  | succ n ih =>
    obtain ⟨h1, h2, h3, h4, h5, h6⟩ := ih
    simp only [forLoop, countUpTo]
    generalize forLoop n (countBody phi) ⟨0, 0, 0, 0, 0, 0⟩ = c at h1 h2 h3 h4 h5 h6 ⊢
    unfold countBody
    by_cases hp : phi n > 0
    · have hn : ¬ phi n < 0 := not_lt.mpr (le_of_lt hp)
      have hz : ¬ phi n = 0 := ne_of_gt hp
      simp only [if_pos hp, if_neg hn, if_neg hz]
      refine ⟨by omega, by omega, by omega, by omega, fun _ => ⟨by omega, hp⟩, ?_⟩
      intro h; have := h6 h; exact ⟨by omega, this.2⟩
    · by_cases hn : phi n < 0
      · have hz : ¬ phi n = 0 := ne_of_lt hn
        simp only [if_neg hp, if_pos hn, if_neg hz]
        refine ⟨by omega, by omega, by omega, by omega, ?_, fun _ => ⟨by omega, hn⟩⟩
        intro h; have := h5 h; exact ⟨by omega, this.2⟩
      · have hz : phi n = 0 := le_antisymm (not_lt.mp hp) (not_lt.mp hn)
        simp only [if_neg hp, if_neg hn, if_pos hz]
        refine ⟨by omega, by omega, by omega, by omega, ?_, ?_⟩
        · intro h; have := h5 h; exact ⟨by omega, this.2⟩
        · intro h; have := h6 h; exact ⟨by omega, this.2⟩

theorem signCount_pcount (nSpace : Nat) (phi : Nat → ℚ) :
    (signCount nSpace phi).pcount = countUpTo (fun i => phi i > 0) (nSpace + 1) :=
  (countLoop_spec phi (nSpace + 1)).1

theorem signCount_ncount (nSpace : Nat) (phi : Nat → ℚ) :
    (signCount nSpace phi).ncount = countUpTo (fun i => phi i < 0) (nSpace + 1) :=
  (countLoop_spec phi (nSpace + 1)).2.1

theorem signCount_zcount (nSpace : Nat) (phi : Nat → ℚ) :
    (signCount nSpace phi).zcount = countUpTo (fun i => phi i = 0) (nSpace + 1) :=
  (countLoop_spec phi (nSpace + 1)).2.2.1

theorem signCount_total (nSpace : Nat) (phi : Nat → ℚ) :
    (signCount nSpace phi).pcount + (signCount nSpace phi).ncount
      + (signCount nSpace phi).zcount = nSpace + 1 :=
  (countLoop_spec phi (nSpace + 1)).2.2.2.1

theorem signCount_p_i (nSpace : Nat) (phi : Nat → ℚ) (h : 0 < (signCount nSpace phi).pcount) :
    (signCount nSpace phi).p_i < nSpace + 1 ∧ phi (signCount nSpace phi).p_i > 0 :=
  (countLoop_spec phi (nSpace + 1)).2.2.2.2.1 h

theorem signCount_n_i (nSpace : Nat) (phi : Nat → ℚ) (h : 0 < (signCount nSpace phi).ncount) :
    (signCount nSpace phi).n_i < nSpace + 1 ∧ phi (signCount nSpace phi).n_i < 0 :=
  (countLoop_spec phi (nSpace + 1)).2.2.2.2.2 h

/-- All nodal values positive: the count of positives is `nN`. -/
theorem signCount_all_pos (nSpace : Nat) (phi : Nat → ℚ) :
    (signCount nSpace phi).pcount = nSpace + 1 ↔ ∀ i, i < nSpace + 1 → phi i > 0 := by
  rw [signCount_pcount]; exact countUpTo_eq_self_iff _ _

theorem signCount_all_neg (nSpace : Nat) (phi : Nat → ℚ) :
    (signCount nSpace phi).ncount = nSpace + 1 ↔ ∀ i, i < nSpace + 1 → phi i < 0 := by
  rw [signCount_ncount]; exact countUpTo_eq_self_iff _ _

/-! ## Filling loops -/

theorem forLoop_fill (n : Nat) (a b c : ℚ) (o : (Nat → ℚ) × (Nat → ℚ) × (Nat → ℚ)) (q : Nat) :
    (forLoop n (fun q (o : (Nat → ℚ) × (Nat → ℚ) × (Nat → ℚ)) =>
        (setAt o.1 q a, setAt o.2.1 q b, setAt o.2.2 q c)) o).1 q = (if q < n then a else o.1 q) ∧
    (forLoop n (fun q (o : (Nat → ℚ) × (Nat → ℚ) × (Nat → ℚ)) =>
        (setAt o.1 q a, setAt o.2.1 q b, setAt o.2.2 q c)) o).2.1 q
      = (if q < n then b else o.2.1 q) ∧
    (forLoop n (fun q (o : (Nat → ℚ) × (Nat → ℚ) × (Nat → ℚ)) =>
        (setAt o.1 q a, setAt o.2.1 q b, setAt o.2.2 q c)) o).2.2 q
      = (if q < n then c else o.2.2 q) := by
  induction n with
  | zero => simp [forLoop]
  | succ n ih =>
    obtain ⟨h1, h2, h3⟩ := ih
    simp only [forLoop, setAt]
    by_cases hq : q = n
    · subst hq; simp
    · simp only [hq, if_false, h1, h2, h3]
      by_cases hlt : q < n
      · simp [hlt, Nat.lt_succ_of_lt hlt]
      · have : ¬ q < n + 1 := by omega
        simp [hlt, this]

/-! ## Trivial cases of `calculate` -/

theorem classify_all_pos (nSpace : Nat) (s : Simplex) (phi_dof : Nat → ℚ)
    (h : ∀ i, i < nSpace + 1 → phi_dof i > 0) :
    classify nSpace s phi_dof = Flow.ret 1 { s with root_node := 0, inside_out := false } := by
  have hp := (signCount_all_pos nSpace phi_dof).mpr h
  simp [classify, hp]

theorem classify_all_neg (nSpace : Nat) (s : Simplex) (phi_dof : Nat → ℚ)
    (h : ∀ i, i < nSpace + 1 → phi_dof i < 0) :
    classify nSpace s phi_dof = Flow.ret (-1) { s with root_node := 0, inside_out := false } := by
  have hn := (signCount_all_neg nSpace phi_dof).mpr h
  have htot := signCount_total nSpace phi_dof
  have hp : ¬ (signCount nSpace phi_dof).pcount = nSpace + 1 := by omega
  simp [classify, hn, hp]

/-- The array contents after a trivial `calculate`. -/
theorem calculate_of_ret (K : Kernels) (nSpace nP nQ : Nat) (s : Simplex)
    (phi_dof phi_nodes xi_r : Nat → ℚ) (icase : Int) (s1 : Simplex)
    (hc : classify nSpace
      { s with phi_dof_corrected :=
          forLoop (nSpace + 1) (fun i pc => setAt pc i (phi_dof i)) s.phi_dof_corrected }
      phi_dof = Flow.ret icase s1)
    (hi : icase = 1 ∨ icase = -1) :
    ∃ s2, calculate K nSpace nP nQ s phi_dof phi_nodes xi_r = some s2 ∧
      s2.inside_out = s1.inside_out ∧
      ∀ q, q < nQ → s2._H q = (if icase = 1 then 1 else 0) ∧
        s2._ImH q = (if icase = 1 then 0 else 1) ∧ s2._D q = 0 := by
  rcases hi with hi | hi
  · subst hi
    have hcalc : calculate K nSpace nP nQ s phi_dof phi_nodes xi_r = some
        { s1 with
          _H := (forLoop nQ (fun q (o : (Nat → ℚ) × (Nat → ℚ) × (Nat → ℚ)) =>
            (setAt o.1 q 1, setAt o.2.1 q 0, setAt o.2.2 q 0)) (s1._H, s1._ImH, s1._D)).1,
          _ImH := (forLoop nQ (fun q (o : (Nat → ℚ) × (Nat → ℚ) × (Nat → ℚ)) =>
            (setAt o.1 q 1, setAt o.2.1 q 0, setAt o.2.2 q 0)) (s1._H, s1._ImH, s1._D)).2.1,
          _D := (forLoop nQ (fun q (o : (Nat → ℚ) × (Nat → ℚ) × (Nat → ℚ)) =>
            (setAt o.1 q 1, setAt o.2.1 q 0, setAt o.2.2 q 0)) (s1._H, s1._ImH, s1._D)).2.2 } := by
      simp [calculate, _calculate_permutation, hc]
    refine ⟨_, hcalc, rfl, ?_⟩
    intro q hq
    have h := forLoop_fill nQ 1 0 0 (s1._H, s1._ImH, s1._D) q
    simp only [hq, if_true] at h
    exact ⟨by simpa using h.1, by simpa using h.2.1, by simpa using h.2.2⟩
  · subst hi
    have hcalc : calculate K nSpace nP nQ s phi_dof phi_nodes xi_r = some
        { s1 with
          _H := (forLoop nQ (fun q (o : (Nat → ℚ) × (Nat → ℚ) × (Nat → ℚ)) =>
            (setAt o.1 q 0, setAt o.2.1 q 1, setAt o.2.2 q 0)) (s1._H, s1._ImH, s1._D)).1,
          _ImH := (forLoop nQ (fun q (o : (Nat → ℚ) × (Nat → ℚ) × (Nat → ℚ)) =>
            (setAt o.1 q 0, setAt o.2.1 q 1, setAt o.2.2 q 0)) (s1._H, s1._ImH, s1._D)).2.1,
          _D := (forLoop nQ (fun q (o : (Nat → ℚ) × (Nat → ℚ) × (Nat → ℚ)) =>
            (setAt o.1 q 0, setAt o.2.1 q 1, setAt o.2.2 q 0)) (s1._H, s1._ImH, s1._D)).2.2 } := by
      simp [calculate, _calculate_permutation, hc]
    refine ⟨_, hcalc, rfl, ?_⟩
    intro q hq
    have h := forLoop_fill nQ 0 1 0 (s1._H, s1._ImH, s1._D) q
    simp only [hq, if_true] at h
    exact ⟨by simpa using h.1, by simpa using h.2.1, by simpa using h.2.2⟩

/-- C1: for every `nSpace` (in particular 1, 2, 3), every prior state, node coordinates and
quadrature points, `calculate` on all-positive nodal values ends with `_H[q] = 1`,
`_ImH[q] = 0`, `_D[q] = 0` for every `q < nQ`, and on all-negative nodal values with
`_H[q] = 0`, `_ImH[q] = 1`, `_D[q] = 0`. -/
theorem calculate_uniform_sign (K : Kernels) (nSpace nP nQ : Nat) (s : Simplex)
    (phi_dof phi_nodes xi_r : Nat → ℚ) :
    ((∀ i, i < nSpace + 1 → phi_dof i > 0) →
      ∃ s2, calculate K nSpace nP nQ s phi_dof phi_nodes xi_r = some s2 ∧
        ∀ q, q < nQ → s2._H q = 1 ∧ s2._ImH q = 0 ∧ s2._D q = 0) ∧
    ((∀ i, i < nSpace + 1 → phi_dof i < 0) →
      ∃ s2, calculate K nSpace nP nQ s phi_dof phi_nodes xi_r = some s2 ∧
        ∀ q, q < nQ → s2._H q = 0 ∧ s2._ImH q = 1 ∧ s2._D q = 0) := by
  constructor
  · intro h
    obtain ⟨s2, h1, _, h3⟩ := calculate_of_ret K nSpace nP nQ s phi_dof phi_nodes xi_r 1 _
      (classify_all_pos nSpace _ phi_dof h) (Or.inl rfl)
    exact ⟨s2, h1, fun q hq => by simpa using h3 q hq⟩
  · intro h
    obtain ⟨s2, h1, _, h3⟩ := calculate_of_ret K nSpace nP nQ s phi_dof phi_nodes xi_r (-1) _
      (classify_all_neg nSpace _ phi_dof h) (Or.inr rfl)
    exact ⟨s2, h1, fun q hq => by simpa using h3 q hq⟩

/-- C1, on a triangle with nodal values 1, 2, 3 and on one with -1, -2, -3. -/
theorem calculate_uniform_sign_witness :
    (∃ s2, calculate Kernels.zero 2 1 3 Simplex.zero (arr [1, 2, 3])
        (arr [0, 0, 0, 1, 0, 0, 0, 1, 0]) (arr []) = some s2 ∧
      ∀ q, q < 3 → s2._H q = 1 ∧ s2._ImH q = 0 ∧ s2._D q = 0) ∧
    (∃ s2, calculate Kernels.zero 2 1 3 Simplex.zero (arr [-1, -2, -3])
        (arr [0, 0, 0, 1, 0, 0, 0, 1, 0]) (arr []) = some s2 ∧
      ∀ q, q < 3 → s2._H q = 0 ∧ s2._ImH q = 1 ∧ s2._D q = 0) :=
  ⟨(calculate_uniform_sign Kernels.zero 2 1 3 Simplex.zero (arr [1, 2, 3])
      (arr [0, 0, 0, 1, 0, 0, 0, 1, 0]) (arr [])).1
      (by intro i hi; interval_cases i <;> decide),
   (calculate_uniform_sign Kernels.zero 2 1 3 Simplex.zero (arr [-1, -2, -3])
      (arr [0, 0, 0, 1, 0, 0, 0, 1, 0]) (arr [])).2
      (by intro i hi; interval_cases i <;> decide)⟩

theorem canonicalize_code (nSpace : Nat) (s : Simplex) (phi_dof phi_nodes : Nat → ℚ)
    (v : Int) (s1 : Simplex) (h : canonicalize nSpace s phi_dof phi_nodes = some (v, s1)) :
    v = 0 := by
  unfold canonicalize at h
  simp only [] at h
  split_ifs at h <;> simp at h <;> exact h.1.symm

/-- A trivial return of the case analysis does not depend on the prior state. -/
theorem classify_ret_state (nSpace : Nat) (s s0 : Simplex) (phi_dof : Nat → ℚ)
    (v : Int) (s1 : Simplex) (h : classify nSpace s0 phi_dof = Flow.ret v s1) :
    classify nSpace s phi_dof = Flow.ret v { s with root_node := 0, inside_out := false } := by
  unfold classify at h ⊢
  simp only [] at h ⊢
  split_ifs at h ⊢ <;> simp at h ⊢ <;> exact h.1

theorem classify_of_code (nSpace : Nat) (s : Simplex) (phi_dof phi_nodes : Nat → ℚ) (v : Int)
    (hv : v ≠ 0)
    (h : (_calculate_permutation nSpace s phi_dof phi_nodes).map Prod.fst = some v) :
    ∃ s1, classify nSpace s phi_dof = Flow.ret v s1 := by
  unfold _calculate_permutation at h
  cases hc : classify nSpace s phi_dof with
  | ret icase s1 =>
    rw [hc] at h
    simp at h
    exact ⟨s1, by rw [h]⟩
  | abort => rw [hc] at h; simp at h
  | fall s1 =>
    rw [hc] at h
    simp only [] at h
    cases hk : canonicalize nSpace s1 phi_dof phi_nodes with
    | none => rw [hk] at h; simp at h
    | some r =>
      rw [hk] at h
      simp at h
      have := canonicalize_code nSpace s1 phi_dof phi_nodes r.1 r.2 (by rw [hk])
      omega

/-- The state after `set_quad(q)` for `q < nQ`. -/
theorem set_quad_some (nQ : Nat) (s : Simplex) (q : Nat) (hq : q < nQ) :
    set_quad nQ s q = some { s with
      _D_q := s._D q,
      _H_q := if s.inside_out then s._ImH q else s._H q,
      _ImH_q := if s.inside_out then s._H q else s._ImH q } := by
  cases hio : s.inside_out <;> simp [set_quad, hq, hio]

/-- C4: whenever the classifier returns +1 or -1 on the nodal values (from whatever state),
`calculate` returns and the arrays it fills satisfy `_H[q] + _ImH[q] = 1` for every
`q < nQ`. -/
theorem calculate_trivial_sum (K : Kernels) (nSpace nP nQ : Nat) (s s0 : Simplex)
    (phi_dof phi_nodes xi_r : Nat → ℚ)
    (h : (_calculate_permutation nSpace s0 phi_dof phi_nodes).map Prod.fst = some 1 ∨
      (_calculate_permutation nSpace s0 phi_dof phi_nodes).map Prod.fst = some (-1)) :
    ∃ s2, calculate K nSpace nP nQ s phi_dof phi_nodes xi_r = some s2 ∧
      ∀ q, q < nQ → s2._H q + s2._ImH q = 1 := by
  rcases h with h | h
  · obtain ⟨s1, hc⟩ := classify_of_code nSpace s0 phi_dof phi_nodes 1 (by decide) h
    obtain ⟨s2, h1, _, h3⟩ := calculate_of_ret K nSpace nP nQ s phi_dof phi_nodes xi_r 1 _
      (classify_ret_state nSpace _ s0 phi_dof 1 s1 hc) (Or.inl rfl)
    refine ⟨s2, h1, fun q hq => ?_⟩
    obtain ⟨a, b, _⟩ := h3 q hq
    rw [a, b]; simp
  · obtain ⟨s1, hc⟩ := classify_of_code nSpace s0 phi_dof phi_nodes (-1) (by decide) h
    obtain ⟨s2, h1, _, h3⟩ := calculate_of_ret K nSpace nP nQ s phi_dof phi_nodes xi_r (-1) _
      (classify_ret_state nSpace _ s0 phi_dof (-1) s1 hc) (Or.inr rfl)
    refine ⟨s2, h1, fun q hq => ?_⟩
    obtain ⟨a, b, _⟩ := h3 q hq
    rw [a, b]; simp

/-- C4, on a triangle with nodal values 2, 0, 3, which the classifier sends to +1 through
its last branch. -/
theorem calculate_trivial_sum_witness :
    ∃ s2, calculate Kernels.zero 2 1 3 Simplex.zero (arr [2, 0, 3])
        (arr [0, 0, 0, 1, 0, 0, 0, 1, 0]) (arr []) = some s2 ∧
      ∀ q, q < 3 → s2._H q + s2._ImH q = 1 :=
  calculate_trivial_sum Kernels.zero 2 1 3 Simplex.zero Simplex.zero (arr [2, 0, 3])
    (arr [0, 0, 0, 1, 0, 0, 0, 1, 0]) (arr []) (Or.inl (by decide))

/-- C5: from every prior state (whatever its `inside_out`), for every `nSpace` and every
`q < nQ`: after `calculate` on all-positive nodal values followed by `set_quad(q)` the
accessors return `H = 1`, `ImH = 0`, `D = 0`, and on all-negative nodal values `H = 0`,
`ImH = 1`, `D = 0`; the flag `inside_out` is false after such a `calculate`. -/
theorem calculate_trivial_readout (K : Kernels) (nSpace nP nQ : Nat) (s : Simplex)
    (phi_dof phi_nodes xi_r : Nat → ℚ) (q : Nat) (hq : q < nQ) (eps phi : ℚ) :
    ((∀ i, i < nSpace + 1 → phi_dof i > 0) →
      ∃ s2 s3, calculate K nSpace nP nQ s phi_dof phi_nodes xi_r = some s2 ∧
        s2.inside_out = false ∧ set_quad nQ s2 q = some s3 ∧
        s3.H eps phi = 1 ∧ s3.ImH eps phi = 0 ∧ s3.D eps phi = 0) ∧
    ((∀ i, i < nSpace + 1 → phi_dof i < 0) →
      ∃ s2 s3, calculate K nSpace nP nQ s phi_dof phi_nodes xi_r = some s2 ∧
        s2.inside_out = false ∧ set_quad nQ s2 q = some s3 ∧
        s3.H eps phi = 0 ∧ s3.ImH eps phi = 1 ∧ s3.D eps phi = 0) := by
  constructor
  · intro h
    obtain ⟨s2, h1, h2, h3⟩ := calculate_of_ret K nSpace nP nQ s phi_dof phi_nodes xi_r 1 _
      (classify_all_pos nSpace _ phi_dof h) (Or.inl rfl)
    have hio : s2.inside_out = false := h2
    obtain ⟨a, b, c⟩ := h3 q hq
    refine ⟨s2, _, h1, hio, set_quad_some nQ s2 q hq, ?_, ?_, ?_⟩
    · simpa [Simplex.H, hio] using a
    · simpa [Simplex.ImH, hio] using b
    · simpa [Simplex.D] using c
  · intro h
    obtain ⟨s2, h1, h2, h3⟩ := calculate_of_ret K nSpace nP nQ s phi_dof phi_nodes xi_r (-1) _
      (classify_all_neg nSpace _ phi_dof h) (Or.inr rfl)
    have hio : s2.inside_out = false := h2
    obtain ⟨a, b, c⟩ := h3 q hq
    refine ⟨s2, _, h1, hio, set_quad_some nQ s2 q hq, ?_, ?_, ?_⟩
    · simpa [Simplex.H, hio] using a
    · simpa [Simplex.ImH, hio] using b
    · simpa [Simplex.D] using c

/-- C5, from a state left with `inside_out = true`, on a segment with nodal values 1, 2 and
on one with nodal values -1, -2, read out at `q = 1`. -/
theorem calculate_trivial_readout_witness :
    (∃ s2 s3, calculate Kernels.zero 1 1 2 { Simplex.zero with inside_out := true }
        (arr [1, 2]) (arr [0, 0, 0, 1, 0, 0]) (arr []) = some s2 ∧
        s2.inside_out = false ∧ set_quad 2 s2 1 = some s3 ∧
        s3.H 0 0 = 1 ∧ s3.ImH 0 0 = 0 ∧ s3.D 0 0 = 0) ∧
    (∃ s2 s3, calculate Kernels.zero 1 1 2 { Simplex.zero with inside_out := true }
        (arr [-1, -2]) (arr [0, 0, 0, 1, 0, 0]) (arr []) = some s2 ∧
        s2.inside_out = false ∧ set_quad 2 s2 1 = some s3 ∧
        s3.H 0 0 = 0 ∧ s3.ImH 0 0 = 1 ∧ s3.D 0 0 = 0) :=
  ⟨(calculate_trivial_readout Kernels.zero 1 1 2 { Simplex.zero with inside_out := true }
      (arr [1, 2]) (arr [0, 0, 0, 1, 0, 0]) (arr []) 1 (by decide) 0 0).1
      (by intro i hi; interval_cases i <;> decide),
   (calculate_trivial_readout Kernels.zero 1 1 2 { Simplex.zero with inside_out := true }
      (arr [-1, -2]) (arr [0, 0, 0, 1, 0, 0]) (arr []) 1 (by decide) 0 0).2
      (by intro i hi; interval_cases i <;> decide)⟩

/-- C6: for every state and every `q < nQ`, `set_quad(q)` returns; the active delta is
`_D[q]`; the active pair is `(_H[q], _ImH[q])` when `inside_out` is false and
`(_ImH[q], _H[q])` when it is true; the arrays `_H`, `_ImH`, `_D` and `inside_out` are
unchanged; and the accessors `H`, `ImH`, `D` return the active values for every `eps`
and `phi`. -/
theorem set_quad_spec (nQ : Nat) (s : Simplex) (q : Nat) (hq : q < nQ) :
    ∃ s1, set_quad nQ s q = some s1 ∧
      s1._D_q = s._D q ∧
      (s.inside_out = false → s1._H_q = s._H q ∧ s1._ImH_q = s._ImH q) ∧
      (s.inside_out = true → s1._H_q = s._ImH q ∧ s1._ImH_q = s._H q) ∧
      s1._H = s._H ∧ s1._ImH = s._ImH ∧ s1._D = s._D ∧ s1.inside_out = s.inside_out ∧
      ∀ eps phi, s1.H eps phi = s1._H_q ∧ s1.ImH eps phi = s1._ImH_q ∧
        s1.D eps phi = s1._D_q := by
  refine ⟨_, set_quad_some nQ s q hq, ?_⟩
  cases hio : s.inside_out <;> simp [Simplex.H, Simplex.ImH, Simplex.D]

/-- C6, on a state with `inside_out = true` and `_H[1] = 7`. -/
theorem set_quad_spec_witness :
    ∃ s1, set_quad 2 { Simplex.zero with inside_out := true, _H := arr [5, 7] } 1 = some s1 ∧
      s1._D_q = 0 ∧
      ((true : Bool) = false → s1._H_q = arr [5, 7] 1 ∧ s1._ImH_q = 0) ∧
      ((true : Bool) = true → s1._H_q = 0 ∧ s1._ImH_q = arr [5, 7] 1) ∧
      s1._H = arr [5, 7] ∧ s1._ImH = (fun _ => 0) ∧ s1._D = (fun _ => 0) ∧
      s1.inside_out = true ∧
      ∀ eps phi, s1.H eps phi = s1._H_q ∧ s1.ImH eps phi = s1._ImH_q ∧
        s1.D eps phi = s1._D_q :=
  set_quad_spec 2 { Simplex.zero with inside_out := true, _H := arr [5, 7] } 1 (by decide)

/-! ## The canonicalisation -/

theorem countUpTo_eq_one_iff (P : Nat → Prop) [DecidablePred P] (n : Nat) :
    countUpTo P n = 1 ↔ ExactlyOne n P := by
  constructor
  · intro h
    obtain ⟨k, hk, hPk⟩ := (countUpTo_pos_iff P n).mp (by omega)
    exact ⟨k, hk, hPk, fun j hj hPj => countUpTo_eq_one_unique P h hj hk hPj hPk⟩
  · rintro ⟨k, hk, hPk, hu⟩
    have := countUpTo_of_unique P k n (fun j hj => ⟨hu j hj, fun e => e ▸ hPk⟩)
    simpa [hk] using this

theorem forLoop_setAt {α : Type} (n : Nat) (f : Nat → α) (a : Nat → α) (j : Nat) :
    forLoop n (fun i p => setAt p i (f i)) a j = if j < n then f j else a j := by
  induction n with
  | zero => simp [forLoop]
  | succ n ih =>
    simp only [forLoop, setAt, ih]
    by_cases hq : j = n
    · subst hq; simp
    · simp only [hq, if_false]
      by_cases hlt : j < n
      · simp [hlt, Nat.lt_succ_of_lt hlt]
      · have : ¬ j < n + 1 := by omega
        simp [hlt, this]

theorem rotation_loop (nSpace root : Nat) (p : Nat → Nat) :
    forLoop (nSpace + 1) (fun i p => setAt p i ((root + i) % (nSpace + 1))) p
      = rotation nSpace root p := by
  funext j
  rw [forLoop_setAt]
  rfl

/-- The copy loop of lines 209-216. -/
theorem copy_loop (n : Nat) (phi_dof phi_nodes : Nat → ℚ) (p : Nat → Nat)
    (st : (Nat → ℚ) × (Nat → ℚ)) :
    (∀ i, i < n → (forLoop n (fun i (st : (Nat → ℚ) × (Nat → ℚ)) =>
        (setAt st.1 i (phi_dof (p i)),
         forLoop 3 (fun I nd => setAt nd (i * 3 + I) (phi_nodes (p i * 3 + I))) st.2)) st).1 i
        = phi_dof (p i)) ∧
    (∀ i I, i < n → I < 3 → (forLoop n (fun i (st : (Nat → ℚ) × (Nat → ℚ)) =>
        (setAt st.1 i (phi_dof (p i)),
         forLoop 3 (fun I nd => setAt nd (i * 3 + I) (phi_nodes (p i * 3 + I))) st.2)) st).2
          (i * 3 + I) = phi_nodes (p i * 3 + I)) := by
  induction n with
  | zero => simp
  | succ n ih =>
    obtain ⟨h1, h2⟩ := ih
    constructor
    · intro i hi
      simp only [forLoop, setAt]
      by_cases hq : i = n
      · simp [hq]
      · simp only [hq, if_false]
        exact h1 i (by omega)
    · intro i I hi hI
      simp only [forLoop, setAt]
      by_cases hq : i = n
      · subst hq
        interval_cases I <;> simp
      · have hlt : i < n := by omega
        have e0 : ¬ i * 3 + I = n * 3 + 0 := by omega
        have e1 : ¬ i * 3 + I = n * 3 + 1 := by omega
        have e2 : ¬ i * 3 + I = n * 3 + 2 := by omega
        simp only [e0, e1, e2, if_false]
        exact h2 i I hlt hI

theorem jac_loop (nSpace : Nat) (hn : nSpace = 1 ∨ nSpace = 2 ∨ nSpace = 3)
    (nd J0 : Nat → ℚ) (i I : Nat) (hi : i < nSpace) (hI : I < nSpace) :
    forLoop nSpace (fun i J => forLoop nSpace (fun I J =>
        setAt J (I * nSpace + i) (nd ((1 + i) * 3 + I) - nd I)) J) J0 (I * nSpace + i)
      = nd ((1 + i) * 3 + I) - nd I := by
  rcases hn with h | h | h <;> subst h <;> interval_cases i <;> interval_cases I <;>
    simp [forLoop, setAt]

theorem loadPermuted_frame (nSpace : Nat) (s : Simplex) (phi_dof phi_nodes : Nat → ℚ) :
    (loadPermuted nSpace s phi_dof phi_nodes).permutation = s.permutation ∧
    (loadPermuted nSpace s phi_dof phi_nodes).root_node = s.root_node ∧
    (loadPermuted nSpace s phi_dof phi_nodes).inside_out = s.inside_out :=
  ⟨rfl, rfl, rfl⟩

theorem loadPermuted_phi (nSpace : Nat) (s : Simplex) (phi_dof phi_nodes : Nat → ℚ)
    (i : Nat) (hi : i < nSpace + 1) :
    (loadPermuted nSpace s phi_dof phi_nodes).phi i = phi_dof (s.permutation i) :=
  (copy_loop (nSpace + 1) phi_dof phi_nodes s.permutation (s.phi, s.nodes)).1 i hi

theorem loadPermuted_nodes (nSpace : Nat) (s : Simplex) (phi_dof phi_nodes : Nat → ℚ)
    (i I : Nat) (hi : i < nSpace + 1) (hI : I < 3) :
    (loadPermuted nSpace s phi_dof phi_nodes).nodes (i * 3 + I)
      = phi_nodes (s.permutation i * 3 + I) :=
  (copy_loop (nSpace + 1) phi_dof phi_nodes s.permutation (s.phi, s.nodes)).2 i I hi hI

theorem loadPermuted_Jac (nSpace : Nat) (hn : nSpace = 1 ∨ nSpace = 2 ∨ nSpace = 3)
    (s : Simplex) (phi_dof phi_nodes : Nat → ℚ) (i I : Nat) (hi : i < nSpace) (hI : I < nSpace) :
    (loadPermuted nSpace s phi_dof phi_nodes).Jac (I * nSpace + i)
      = phi_nodes (s.permutation (i + 1) * 3 + I) - phi_nodes (s.permutation 0 * 3 + I) := by
  have hI3 : I < 3 := by omega
  have h1 := loadPermuted_nodes nSpace s phi_dof phi_nodes (1 + i) I (by omega) hI3
  have h2 := loadPermuted_nodes nSpace s phi_dof phi_nodes 0 I (by omega) hI3
  rw [Nat.add_comm i 1, ← h1, ← h2]
  simp only [Nat.zero_mul, Nat.zero_add]
  exact jac_loop nSpace hn _ _ i I hi hI

theorem det_congr (nSpace : Nat) (A B : Nat → ℚ) (h : ∀ k, k < nSpace * nSpace → A k = B k) :
    det nSpace A = det nSpace B := by
  unfold det
  split
  · rw [h 0 (by omega)]
  · rw [h 0 (by omega), h 1 (by omega), h 2 (by omega), h 3 (by omega)]
  · rw [h 0 (by omega), h 1 (by omega), h 2 (by omega), h 3 (by omega), h 4 (by omega),
      h 5 (by omega), h 6 (by omega), h 7 (by omega), h 8 (by omega)]
  · rfl

theorem loadPermuted_Jac_eq (nSpace : Nat) (hn : nSpace = 1 ∨ nSpace = 2 ∨ nSpace = 3)
    (s : Simplex) (phi_dof phi_nodes : Nat → ℚ) (k : Nat) (hk : k < nSpace * nSpace) :
    (loadPermuted nSpace s phi_dof phi_nodes).Jac k = jacOf nSpace phi_nodes s.permutation k := by
  have hpos : 0 < nSpace := by omega
  have h := loadPermuted_Jac nSpace hn s phi_dof phi_nodes (k % nSpace) (k / nSpace)
    (Nat.mod_lt _ hpos) (Nat.div_lt_of_lt_mul hk)
  rw [Nat.div_add_mod' k nSpace] at h
  rw [h, jacOf, Nat.add_comm 1 (k % nSpace)]

theorem det_loadPermuted (nSpace : Nat) (hn : nSpace = 1 ∨ nSpace = 2 ∨ nSpace = 3)
    (s : Simplex) (phi_dof phi_nodes : Nat → ℚ) :
    det nSpace (loadPermuted nSpace s phi_dof phi_nodes).Jac
      = det nSpace (jacOf nSpace phi_nodes s.permutation) :=
  det_congr nSpace _ _ (loadPermuted_Jac_eq nSpace hn s phi_dof phi_nodes)

theorem det_jacOf_swapLast (nSpace : Nat) (hn : nSpace = 1 ∨ nSpace = 2 ∨ nSpace = 3)
    (phi_nodes : Nat → ℚ) (p : Nat → Nat) :
    det nSpace (jacOf nSpace phi_nodes (swapLast nSpace p))
      = - det nSpace (jacOf nSpace phi_nodes p) := by
  rcases hn with h | h | h <;> subst h <;> simp [det, jacOf, swapLast, setAt]
  ring

theorem canonicalize_eq (nSpace : Nat) (s : Simplex) (phi_dof phi_nodes : Nat → ℚ) :
    canonicalize nSpace s phi_dof phi_nodes =
      if det nSpace (rotated nSpace s phi_dof phi_nodes).Jac < 0 then
        if ¬ det nSpace (exchanged nSpace s phi_dof phi_nodes).Jac > 0 then none
        else if nSpace = 1 then
          some (0, { exchanged nSpace s phi_dof phi_nodes with
            inside_out := true,
            inv_Jac := inv nSpace (exchanged nSpace s phi_dof phi_nodes).Jac
              (exchanged nSpace s phi_dof phi_nodes).inv_Jac })
        else
          some (0, { exchanged nSpace s phi_dof phi_nodes with
            inv_Jac := inv nSpace (exchanged nSpace s phi_dof phi_nodes).Jac
              (exchanged nSpace s phi_dof phi_nodes).inv_Jac })
      else
        some (0, { rotated nSpace s phi_dof phi_nodes with
          inv_Jac := inv nSpace (rotated nSpace s phi_dof phi_nodes).Jac
            (rotated nSpace s phi_dof phi_nodes).inv_Jac }) := by
  unfold canonicalize
  simp only [rotation_loop]
  by_cases h1 : nSpace = 1 <;> simp only [h1, if_true, if_false] <;> rfl

theorem rotated_permutation (nSpace : Nat) (s : Simplex) (phi_dof phi_nodes : Nat → ℚ) :
    (rotated nSpace s phi_dof phi_nodes).permutation
      = rotation nSpace s.root_node s.permutation := rfl

theorem exchanged_permutation (nSpace : Nat) (s : Simplex) (phi_dof phi_nodes : Nat → ℚ) :
    (exchanged nSpace s phi_dof phi_nodes).permutation
      = swapLast nSpace (rotation nSpace s.root_node s.permutation) := rfl

theorem det_rotated (nSpace : Nat) (hn : nSpace = 1 ∨ nSpace = 2 ∨ nSpace = 3)
    (s : Simplex) (phi_dof phi_nodes : Nat → ℚ) :
    det nSpace (rotated nSpace s phi_dof phi_nodes).Jac
      = det nSpace (jacOf nSpace phi_nodes (rotation nSpace s.root_node s.permutation)) :=
  det_loadPermuted nSpace hn _ phi_dof phi_nodes

theorem det_exchanged (nSpace : Nat) (hn : nSpace = 1 ∨ nSpace = 2 ∨ nSpace = 3)
    (s : Simplex) (phi_dof phi_nodes : Nat → ℚ) :
    det nSpace (exchanged nSpace s phi_dof phi_nodes).Jac
      = - det nSpace (jacOf nSpace phi_nodes (rotation nSpace s.root_node s.permutation)) := by
  rw [← det_jacOf_swapLast nSpace hn]
  exact det_loadPermuted nSpace hn _ phi_dof phi_nodes

/-- What lines 205-245 compute, for `nSpace` 1, 2 or 3: they always return 0; the final
permutation is the rotation by the root, its last two entries exchanged exactly when the
rotated Jacobian has negative determinant. -/
theorem canonicalize_spec (nSpace : Nat) (hn : nSpace = 1 ∨ nSpace = 2 ∨ nSpace = 3)
    (s : Simplex) (phi_dof phi_nodes : Nat → ℚ) :
    ∃ s1, canonicalize nSpace s phi_dof phi_nodes = some (0, s1) ∧
      s1.root_node = s.root_node ∧
      s1.permutation
        = (if det nSpace (jacOf nSpace phi_nodes (rotation nSpace s.root_node s.permutation)) < 0
            then swapLast nSpace (rotation nSpace s.root_node s.permutation)
            else rotation nSpace s.root_node s.permutation) ∧
      s1.inside_out
        = (if det nSpace (jacOf nSpace phi_nodes (rotation nSpace s.root_node s.permutation)) < 0
              ∧ nSpace = 1
            then true else s.inside_out) ∧
      (∀ i, i < nSpace + 1 → s1.phi i = phi_dof (s1.permutation i)) ∧
      (∀ i I, i < nSpace + 1 → I < 3 →
        s1.nodes (i * 3 + I) = phi_nodes (s1.permutation i * 3 + I)) ∧
      (∀ i I, i < nSpace → I < nSpace → s1.Jac (I * nSpace + i)
        = phi_nodes (s1.permutation (i + 1) * 3 + I) - phi_nodes (s1.permutation 0 * 3 + I)) ∧
      det nSpace s1.Jac = det nSpace (jacOf nSpace phi_nodes s1.permutation) ∧
      0 ≤ det nSpace s1.Jac := by
  rw [canonicalize_eq]
  have hdA := det_rotated nSpace hn s phi_dof phi_nodes
  have hdB := det_exchanged nSpace hn s phi_dof phi_nodes
  by_cases hneg : det nSpace (jacOf nSpace phi_nodes
      (rotation nSpace s.root_node s.permutation)) < 0
  · have hA : det nSpace (rotated nSpace s phi_dof phi_nodes).Jac < 0 := by rw [hdA]; exact hneg
    have hB : det nSpace (exchanged nSpace s phi_dof phi_nodes).Jac > 0 := by
      rw [hdB]; linarith
    rw [if_pos hA, if_neg (not_not.mpr hB), if_pos hneg]
    by_cases h1 : nSpace = 1
    · rw [if_pos h1, if_pos ⟨hneg, h1⟩]
      refine ⟨_, rfl, rfl, rfl, rfl, ?_, ?_, ?_, ?_, le_of_lt hB⟩
      · intro i hi; exact loadPermuted_phi nSpace _ phi_dof phi_nodes i hi
      · intro i I hi hI; exact loadPermuted_nodes nSpace _ phi_dof phi_nodes i I hi hI
      · intro i I hi hI; exact loadPermuted_Jac nSpace hn _ phi_dof phi_nodes i I hi hI
      · exact det_loadPermuted nSpace hn _ phi_dof phi_nodes
    · rw [if_neg h1, if_neg (fun h => h1 h.2)]
      refine ⟨_, rfl, rfl, rfl, rfl, ?_, ?_, ?_, ?_, le_of_lt hB⟩
      · intro i hi; exact loadPermuted_phi nSpace _ phi_dof phi_nodes i hi
      · intro i I hi hI; exact loadPermuted_nodes nSpace _ phi_dof phi_nodes i I hi hI
      · intro i I hi hI; exact loadPermuted_Jac nSpace hn _ phi_dof phi_nodes i I hi hI
      · exact det_loadPermuted nSpace hn _ phi_dof phi_nodes
  · have hA : ¬ det nSpace (rotated nSpace s phi_dof phi_nodes).Jac < 0 := by
      rw [hdA]; exact hneg
    rw [if_neg hA, if_neg hneg, if_neg (fun h => hneg h.1)]
    refine ⟨_, rfl, rfl, rfl, rfl, ?_, ?_, ?_, ?_, ?_⟩
    · intro i hi; exact loadPermuted_phi nSpace _ phi_dof phi_nodes i hi
    · intro i I hi hI; exact loadPermuted_nodes nSpace _ phi_dof phi_nodes i I hi hI
    · intro i I hi hI; exact loadPermuted_Jac nSpace hn _ phi_dof phi_nodes i I hi hI
    · exact det_loadPermuted nSpace hn _ phi_dof phi_nodes
    · show 0 ≤ det nSpace (rotated nSpace s phi_dof phi_nodes).Jac
      rw [hdA]; exact not_lt.mp hneg

/-! ## The case analysis -/

/-- When the case analysis falls through, which branch chose the root. -/
theorem classify_fall (nSpace : Nat) (s s0 : Simplex) (phi_dof : Nat → ℚ)
    (h : classify nSpace s phi_dof = Flow.fall s0) :
    (signCount nSpace phi_dof).pcount ≠ nSpace + 1 ∧
    (signCount nSpace phi_dof).ncount ≠ nSpace + 1 ∧
    s0.permutation = s.permutation ∧
    (((signCount nSpace phi_dof).pcount = 1 ∧ (signCount nSpace phi_dof).zcount ≠ nSpace ∧
        1 < nSpace ∧ s0.root_node = (signCount nSpace phi_dof).p_i ∧ s0.inside_out = true) ∨
     ((signCount nSpace phi_dof).pcount = 1 ∧ (signCount nSpace phi_dof).zcount ≠ nSpace ∧
        ¬ 1 < nSpace ∧ s0.root_node = (signCount nSpace phi_dof).n_i ∧ s0.inside_out = false) ∨
     ((signCount nSpace phi_dof).pcount ≠ 1 ∧ (signCount nSpace phi_dof).ncount = 1 ∧
        s0.root_node = (signCount nSpace phi_dof).n_i ∧ s0.inside_out = false)) := by
  unfold classify at h
  simp only [] at h
  split_ifs at h with h1 h2 h3 h4 h5 h6 h7 h8 h9 <;> simp at h <;> subst h <;>
    simp_all

/-- The sign patterns on which the case analysis falls through. -/
theorem classify_isFall_iff (nSpace : Nat) (s : Simplex) (phi_dof : Nat → ℚ) :
    (classify nSpace s phi_dof).isFall = true ↔
      (signCount nSpace phi_dof).pcount ≠ nSpace + 1 ∧
      (signCount nSpace phi_dof).ncount ≠ nSpace + 1 ∧
      (((signCount nSpace phi_dof).pcount = 1 ∧ (signCount nSpace phi_dof).zcount ≠ nSpace) ∨
       ((signCount nSpace phi_dof).pcount ≠ 1 ∧ (signCount nSpace phi_dof).ncount = 1)) := by
  unfold classify
  simp only []
  split_ifs with h1 h2 h3 h4 h5 h6 h7 h8 h9 <;> simp_all [Flow.isFall]

theorem isFall_iff_exists (f : Flow) : f.isFall = true ↔ ∃ s0, f = Flow.fall s0 := by
  cases f <;> simp [Flow.isFall]

/-- The root chosen on a cut is a vertex index. -/
theorem classify_root_lt (nSpace : Nat)
    (s s0 : Simplex) (phi_dof : Nat → ℚ) (h : classify nSpace s phi_dof = Flow.fall s0) :
    s0.root_node < nSpace + 1 := by
  obtain ⟨h1, h2, _, h3⟩ := classify_fall nSpace s s0 phi_dof h
  have htot := signCount_total nSpace phi_dof
  rcases h3 with ⟨a, _, _, d, _⟩ | ⟨a, b, c, d, _⟩ | ⟨_, b, d, _⟩
  · rw [d]; exact (signCount_p_i nSpace phi_dof (by omega)).1
  · rw [d]; exact (signCount_n_i nSpace phi_dof (by omega)).1
  · rw [d]; exact (signCount_n_i nSpace phi_dof (by omega)).1

/-- On a cut, for `nSpace` 1, 2 or 3, `_calculate_permutation` returns 0 with the state
described by `canonicalize_spec`, started from the state `s0` left by the case analysis. -/
theorem cut_spec (nSpace : Nat) (hn : nSpace = 1 ∨ nSpace = 2 ∨ nSpace = 3)
    (s : Simplex) (phi_dof phi_nodes : Nat → ℚ)
    (h : (classify nSpace s phi_dof).isFall = true) :
    ∃ s0 s1, classify nSpace s phi_dof = Flow.fall s0 ∧
      _calculate_permutation nSpace s phi_dof phi_nodes = some (0, s1) ∧
      s0.root_node < nSpace + 1 ∧
      s1.root_node = s0.root_node ∧
      s1.permutation
        = (if det nSpace (jacOf nSpace phi_nodes
              (rotation nSpace s0.root_node s0.permutation)) < 0
            then swapLast nSpace (rotation nSpace s0.root_node s0.permutation)
            else rotation nSpace s0.root_node s0.permutation) ∧
      s1.inside_out
        = (if det nSpace (jacOf nSpace phi_nodes
              (rotation nSpace s0.root_node s0.permutation)) < 0 ∧ nSpace = 1
            then true else s0.inside_out) ∧
      (∀ i, i < nSpace + 1 → s1.phi i = phi_dof (s1.permutation i)) ∧
      (∀ i I, i < nSpace + 1 → I < 3 →
        s1.nodes (i * 3 + I) = phi_nodes (s1.permutation i * 3 + I)) ∧
      (∀ i I, i < nSpace → I < nSpace → s1.Jac (I * nSpace + i)
        = phi_nodes (s1.permutation (i + 1) * 3 + I) - phi_nodes (s1.permutation 0 * 3 + I)) ∧
      det nSpace s1.Jac = det nSpace (jacOf nSpace phi_nodes s1.permutation) ∧
      0 ≤ det nSpace s1.Jac := by
  obtain ⟨s0, hs0⟩ := (isFall_iff_exists _).mp h
  obtain ⟨s1, hs1, hrest⟩ := canonicalize_spec nSpace hn s0 phi_dof phi_nodes
  refine ⟨s0, s1, hs0, ?_, classify_root_lt nSpace s s0 phi_dof hs0, hrest⟩
  simp only [_calculate_permutation, hs0, hs1]

/-! ## The permutation -/

theorem rotation_lt (nSpace root : Nat) (p : Nat → Nat) (i : Nat) (hi : i < nSpace + 1) :
    rotation nSpace root p i < nSpace + 1 := by
  simp only [rotation, hi, if_true]
  exact Nat.mod_lt _ (by omega)

theorem rotation_inj (nSpace root : Nat) (p : Nat → Nat) (i j : Nat)
    (hi : i < nSpace + 1) (hj : j < nSpace + 1)
    (h : rotation nSpace root p i = rotation nSpace root p j) : i = j := by
  simp only [rotation, hi, hj, if_true] at h
  have h1 : i % (nSpace + 1) = j % (nSpace + 1) := Nat.ModEq.add_left_cancel' root h
  rwa [Nat.mod_eq_of_lt hi, Nat.mod_eq_of_lt hj] at h1

theorem swapLast_apply (nSpace : Nat) (p : Nat → Nat) (i : Nat) :
    swapLast nSpace p i
      = if i = nSpace - 1 then p nSpace else if i = nSpace then p (nSpace - 1) else p i := by
  simp [swapLast, setAt]

theorem swapLast_lt (nSpace : Nat) (p : Nat → Nat)
    (hlt : ∀ i, i < nSpace + 1 → p i < nSpace + 1) (i : Nat) (hi : i < nSpace + 1) :
    swapLast nSpace p i < nSpace + 1 := by
  rw [swapLast_apply]
  split_ifs
  · exact hlt _ (by omega)
  · exact hlt _ (by omega)
  · exact hlt _ hi

theorem swapLast_inj (nSpace : Nat) (p : Nat → Nat)
    (hinj : ∀ i j, i < nSpace + 1 → j < nSpace + 1 → p i = p j → i = j) (i j : Nat)
    (hi : i < nSpace + 1) (hj : j < nSpace + 1)
    (h : swapLast nSpace p i = swapLast nSpace p j) : i = j := by
  rw [swapLast_apply, swapLast_apply] at h
  split_ifs at h with h1 h2 h3 h4 h5 h6 h7 h8
  · omega
  · have := hinj _ _ (by omega) (by omega) h; omega
  · have := hinj _ _ (by omega) (by omega) h; omega
  · have := hinj _ _ (by omega) (by omega) h; omega
  · omega
  · have := hinj _ _ (by omega) (by omega) h; omega
  · have := hinj _ _ (by omega) (by omega) h; omega
  · have := hinj _ _ (by omega) (by omega) h; omega
  · exact hinj _ _ hi hj h

/-- An injective map of `{0..n-1}` into itself reaches every index. -/
theorem surj_of_inj (n : Nat) (p : Nat → Nat) (hlt : ∀ i, i < n → p i < n)
    (hinj : ∀ i j, i < n → j < n → p i = p j → i = j) (k : Nat) (hk : k < n) :
    ∃ i, i < n ∧ p i = k := by
  have hf : Function.Injective (fun i : Fin n => (⟨p i.1, hlt i.1 i.2⟩ : Fin n)) := by
    intro a b hab
    have : p a.1 = p b.1 := by simpa using congrArg Fin.val hab
    exact Fin.ext (hinj _ _ a.2 b.2 this)
  obtain ⟨i, hi⟩ := (Finite.injective_iff_surjective.mp hf) ⟨k, hk⟩
  exact ⟨i.1, i.2, by simpa using congrArg Fin.val hi⟩

/-! ## Sign patterns and the outcome of the classifier -/

/-- C2 (as amended): for `nSpace` 1, 2 or 3 and nodal values with at least one strictly
positive and at least one strictly negative entry, the classifier returns the cut outcome 0
whenever exactly one vertex is strictly positive or exactly one is strictly negative; for
`nSpace` 1 and 2 this is every such input. -/
theorem mixed_signs_cut (nSpace : Nat) (hn : nSpace = 1 ∨ nSpace = 2 ∨ nSpace = 3)
    (s : Simplex) (phi_dof phi_nodes : Nat → ℚ)
    (hpos : ∃ i, i < nSpace + 1 ∧ phi_dof i > 0)
    (hneg : ∃ j, j < nSpace + 1 ∧ phi_dof j < 0)
    (hlone : nSpace = 3 → ExactlyOne (nSpace + 1) (fun i => phi_dof i > 0) ∨
      ExactlyOne (nSpace + 1) (fun i => phi_dof i < 0)) :
    ∃ s1, _calculate_permutation nSpace s phi_dof phi_nodes = some (0, s1) := by
  have hp : 0 < (signCount nSpace phi_dof).pcount := by
    rw [signCount_pcount]; exact (countUpTo_pos_iff _ _).mpr hpos
  have hm : 0 < (signCount nSpace phi_dof).ncount := by
    rw [signCount_ncount]; exact (countUpTo_pos_iff _ _).mpr hneg
  have htot := signCount_total nSpace phi_dof
  have hfall : (classify nSpace s phi_dof).isFall = true := by
    rw [classify_isFall_iff]
    refine ⟨by omega, by omega, ?_⟩
    by_cases h1 : (signCount nSpace phi_dof).pcount = 1
    · exact Or.inl ⟨h1, by omega⟩
    · refine Or.inr ⟨h1, ?_⟩
      rcases hn with h | h | h
      · omega
      · omega
      · rcases hlone h with h3 | h3
        · exact absurd (by rw [signCount_pcount]; exact (countUpTo_eq_one_iff _ _).mpr h3) h1
        · rw [signCount_ncount]; exact (countUpTo_eq_one_iff _ _).mpr h3
  obtain ⟨_, s1, _, h2, _⟩ := cut_spec nSpace hn s phi_dof phi_nodes hfall
  exact ⟨s1, h2⟩

/-- C2 (as amended), on a triangle with nodal values -1, 1, 0. -/
theorem mixed_signs_cut_witness :
    ∃ s1, _calculate_permutation 2 Simplex.zero (arr [-1, 1, 0])
      (arr [0, 0, 0, 1, 0, 0, 0, 1, 0]) = some (0, s1) :=
  mixed_signs_cut 2 (Or.inr (Or.inl rfl)) Simplex.zero (arr [-1, 1, 0])
    (arr [0, 0, 0, 1, 0, 0, 0, 1, 0]) ⟨1, by decide, by decide⟩ ⟨0, by decide, by decide⟩
    (fun h => absurd h (by decide))

/-- C2 as stated fails: a tetrahedron with nodal values 1, 1, -1, -1 has a strictly positive
and a strictly negative vertex, and the classifier returns +1, not 0. -/
theorem mixed_signs_two_two :
    (∃ i, i < 4 ∧ arr [1, 1, -1, -1] i > 0) ∧ (∃ j, j < 4 ∧ arr [1, 1, -1, -1] j < 0) ∧
    (_calculate_permutation 3 Simplex.zero (arr [1, 1, -1, -1])
      (arr [0, 0, 0, 1, 0, 0, 0, 1, 0, 0, 0, 1])).map Prod.fst = some 1 :=
  ⟨⟨0, by decide, by decide⟩, ⟨2, by decide, by decide⟩, by decide⟩

/-- C3 (as amended): for `nSpace` 1, 2 or 3 and nodal values whose only non-zero entry is at
vertex `k`: when that value is positive the classifier returns +1 and `calculate` fills
`_H = 1`, `_ImH = 0`, `_D = 0`; when it is negative the classifier returns the cut outcome 0
with `root_node = k`. -/
theorem lone_nonzero_vertex (K : Kernels) (nSpace : Nat)
    (hn : nSpace = 1 ∨ nSpace = 2 ∨ nSpace = 3) (nP nQ : Nat) (s : Simplex)
    (phi_dof phi_nodes xi_r : Nat → ℚ) (k : Nat) (hk : k < nSpace + 1)
    (hz : ∀ j, j < nSpace + 1 → j ≠ k → phi_dof j = 0) :
    (phi_dof k > 0 →
      (_calculate_permutation nSpace s phi_dof phi_nodes).map Prod.fst = some 1 ∧
      ∃ s2, calculate K nSpace nP nQ s phi_dof phi_nodes xi_r = some s2 ∧
        ∀ q, q < nQ → s2._H q = 1 ∧ s2._ImH q = 0 ∧ s2._D q = 0) ∧
    (phi_dof k < 0 →
      ∃ s1, _calculate_permutation nSpace s phi_dof phi_nodes = some (0, s1) ∧
        s1.root_node = k) := by
  have htot := signCount_total nSpace phi_dof
  constructor
  · intro hpos
    have hp : (signCount nSpace phi_dof).pcount = 1 := by
      rw [signCount_pcount]
      refine (countUpTo_eq_one_iff _ _).mpr ⟨k, hk, hpos, fun j hj hPj => ?_⟩
      by_contra hjk
      have := hz j hj hjk
      simp only [this] at hPj
      exact lt_irrefl _ hPj
    have hm : (signCount nSpace phi_dof).ncount = 0 := by
      by_contra hne
      obtain ⟨hlt, hneg⟩ := signCount_n_i nSpace phi_dof (by omega)
      by_cases hjk : (signCount nSpace phi_dof).n_i = k
      · rw [hjk] at hneg; linarith
      · rw [hz _ hlt hjk] at hneg; exact lt_irrefl _ hneg
    have hzc : (signCount nSpace phi_dof).zcount = nSpace := by omega
    have hcl : ∀ t : Simplex, classify nSpace t phi_dof
        = Flow.ret 1 { t with root_node := 0, inside_out := false } := by
      intro t
      have h1 : ¬ (1 : Nat) = nSpace + 1 := by omega
      have h2 : ¬ (0 : Nat) = nSpace + 1 := by omega
      simp [classify, hp, hm, hzc, h1, h2]
    refine ⟨by simp [_calculate_permutation, hcl s], ?_⟩
    obtain ⟨s2, h1, _, h3⟩ := calculate_of_ret K nSpace nP nQ s phi_dof phi_nodes xi_r 1 _
      (hcl _) (Or.inl rfl)
    exact ⟨s2, h1, fun q hq => by simpa using h3 q hq⟩
  · intro hneg
    have hm : (signCount nSpace phi_dof).ncount = 1 := by
      rw [signCount_ncount]
      refine (countUpTo_eq_one_iff _ _).mpr ⟨k, hk, hneg, fun j hj hPj => ?_⟩
      by_contra hjk
      have := hz j hj hjk
      simp only [this] at hPj
      exact lt_irrefl _ hPj
    have hp : (signCount nSpace phi_dof).pcount = 0 := by
      by_contra hne
      obtain ⟨hlt, hpos⟩ := signCount_p_i nSpace phi_dof (by omega)
      by_cases hjk : (signCount nSpace phi_dof).p_i = k
      · rw [hjk] at hpos; linarith
      · rw [hz _ hlt hjk] at hpos; exact lt_irrefl _ hpos
    have hfall : (classify nSpace s phi_dof).isFall = true := by
      rw [classify_isFall_iff]
      exact ⟨by omega, by omega, Or.inr ⟨by omega, hm⟩⟩
    obtain ⟨s0, s1, h1, h2, _, e2, _⟩ := cut_spec nSpace hn s phi_dof phi_nodes hfall
    refine ⟨s1, h2, ?_⟩
    rw [e2]
    obtain ⟨_, _, _, hb⟩ := classify_fall nSpace s s0 phi_dof h1
    have hni := signCount_n_i nSpace phi_dof (by omega)
    have hroot : s0.root_node = (signCount nSpace phi_dof).n_i := by
      rcases hb with ⟨a, _⟩ | ⟨a, _⟩ | ⟨_, _, d, _⟩
      · omega
      · omega
      · exact d
    rw [hroot]
    by_contra hjk
    have := hz _ hni.1 hjk
    rw [this] at hni
    exact lt_irrefl _ hni.2

/-- C3 (as amended), on a triangle with nodal values 0, 2, 0 and on one with 0, -2, 0. -/
theorem lone_nonzero_vertex_witness :
    ((_calculate_permutation 2 Simplex.zero (arr [0, 2, 0])
        (arr [0, 0, 0, 1, 0, 0, 0, 1, 0])).map Prod.fst = some 1 ∧
      ∃ s2, calculate Kernels.zero 2 1 3 Simplex.zero (arr [0, 2, 0])
          (arr [0, 0, 0, 1, 0, 0, 0, 1, 0]) (arr []) = some s2 ∧
        ∀ q, q < 3 → s2._H q = 1 ∧ s2._ImH q = 0 ∧ s2._D q = 0) ∧
    (∃ s1, _calculate_permutation 2 Simplex.zero (arr [0, -2, 0])
        (arr [0, 0, 0, 1, 0, 0, 0, 1, 0]) = some (0, s1) ∧ s1.root_node = 1) :=
  ⟨(lone_nonzero_vertex Kernels.zero 2 (Or.inr (Or.inl rfl)) 1 3 Simplex.zero (arr [0, 2, 0])
      (arr [0, 0, 0, 1, 0, 0, 0, 1, 0]) (arr []) 1 (by decide)
      (by intro j hj hjk; interval_cases j <;> first | decide | exact absurd rfl hjk)).1
      (by decide),
   (lone_nonzero_vertex Kernels.zero 2 (Or.inr (Or.inl rfl)) 1 3 Simplex.zero (arr [0, -2, 0])
      (arr [0, 0, 0, 1, 0, 0, 0, 1, 0]) (arr []) 1 (by decide)
      (by intro j hj hjk; interval_cases j <;> first | decide | exact absurd rfl hjk)).2
      (by decide)⟩

/-- C3 as stated fails: on a segment with nodal values -1, 0 the only non-zero vertex is
negative and every other vertex is zero, and the classifier returns 0 (cut), not -1. -/
theorem lone_negative_vertex_is_cut :
    arr [-1, 0] 0 < 0 ∧ arr [-1, 0] 1 = 0 ∧
    (_calculate_permutation 1 Simplex.zero (arr [-1, 0])
      (arr [0, 0, 0, 1, 0, 0])).map Prod.fst = some 0 :=
  ⟨by decide, by decide, by decide!⟩

/-- C8: for `nSpace` 1, 2 or 3 and every input classified as cut, `_calculate_permutation`
returns 0 and leaves in `permutation[0..nN-1]` a bijection of `{0..nN-1}` (values in range,
injective, onto), with `phi[i] = phi_dof[permutation[i]]` and
`nodes[3i+I] = phi_nodes[3*permutation[i]+I]` for every `i < nN` and `I < 3`. -/
theorem permutation_bijection (nSpace : Nat) (hn : nSpace = 1 ∨ nSpace = 2 ∨ nSpace = 3)
    (s : Simplex) (phi_dof phi_nodes : Nat → ℚ)
    (hcut : (classify nSpace s phi_dof).isFall = true) :
    ∃ s1, _calculate_permutation nSpace s phi_dof phi_nodes = some (0, s1) ∧
      (∀ i, i < nSpace + 1 → s1.permutation i < nSpace + 1) ∧
      (∀ i j, i < nSpace + 1 → j < nSpace + 1 → s1.permutation i = s1.permutation j → i = j) ∧
      (∀ k, k < nSpace + 1 → ∃ i, i < nSpace + 1 ∧ s1.permutation i = k) ∧
      (∀ i, i < nSpace + 1 → s1.phi i = phi_dof (s1.permutation i)) ∧
      (∀ i I, i < nSpace + 1 → I < 3 →
        s1.nodes (i * 3 + I) = phi_nodes (s1.permutation i * 3 + I)) := by
  obtain ⟨s0, s1, _, h2, _, _, hp, _, hphi, hnodes, _⟩ :=
    cut_spec nSpace hn s phi_dof phi_nodes hcut
  have hlt : ∀ i, i < nSpace + 1 → s1.permutation i < nSpace + 1 := by
    intro i hi
    rw [hp]
    split_ifs
    · exact swapLast_lt nSpace _ (rotation_lt nSpace _ _) i hi
    · exact rotation_lt nSpace _ _ i hi
  have hinj : ∀ i j, i < nSpace + 1 → j < nSpace + 1 →
      s1.permutation i = s1.permutation j → i = j := by
    intro i j hi hj
    rw [hp]
    split_ifs
    · exact swapLast_inj nSpace _ (rotation_inj nSpace _ _) i j hi hj
    · exact rotation_inj nSpace _ _ i j hi hj
  exact ⟨s1, h2, hlt, hinj, surj_of_inj _ _ hlt hinj, hphi, hnodes⟩

/-- C8, on the triangle (0,0), (0,1), (1,0) with nodal values 1, -1, 1, where the rotation
is followed by the exchange. -/
theorem permutation_bijection_witness :
    ∃ s1, _calculate_permutation 2 Simplex.zero (arr [1, -1, 1])
        (arr [0, 0, 0, 0, 1, 0, 1, 0, 0]) = some (0, s1) ∧
      (∀ i, i < 2 + 1 → s1.permutation i < 2 + 1) ∧
      (∀ i j, i < 2 + 1 → j < 2 + 1 → s1.permutation i = s1.permutation j → i = j) ∧
      (∀ k, k < 2 + 1 → ∃ i, i < 2 + 1 ∧ s1.permutation i = k) ∧
      (∀ i, i < 2 + 1 → s1.phi i = arr [1, -1, 1] (s1.permutation i)) ∧
      (∀ i I, i < 2 + 1 → I < 3 →
        s1.nodes (i * 3 + I) = arr [0, 0, 0, 0, 1, 0, 1, 0, 0] (s1.permutation i * 3 + I)) :=
  permutation_bijection 2 (Or.inr (Or.inl rfl)) Simplex.zero (arr [1, -1, 1])
    (arr [0, 0, 0, 0, 1, 0, 1, 0, 0]) (by decide)

/-- C9 (as amended): for every input classified as cut, `_calculate_permutation` returns 0
and, for `nSpace` 2 or 3, `permutation[0] = root_node`, also after the exchange; for
`nSpace = 1`, `permutation[0] = root_node` when the vertex after the root does not have a
smaller coordinate than the root, and otherwise the exchange puts the other vertex first,
`permutation[0] = (root_node + 1) % 2`, and raises `inside_out`. -/
theorem permutation_head (nSpace : Nat) (hn : nSpace = 1 ∨ nSpace = 2 ∨ nSpace = 3)
    (s : Simplex) (phi_dof phi_nodes : Nat → ℚ)
    (hcut : (classify nSpace s phi_dof).isFall = true) :
    ∃ s1, _calculate_permutation nSpace s phi_dof phi_nodes = some (0, s1) ∧
      s1.root_node < nSpace + 1 ∧
      (nSpace = 2 ∨ nSpace = 3 → s1.permutation 0 = s1.root_node) ∧
      (nSpace = 1 →
        (¬ phi_nodes ((s1.root_node + 1) % 2 * 3) < phi_nodes (s1.root_node * 3) →
          s1.permutation 0 = s1.root_node) ∧
        (phi_nodes ((s1.root_node + 1) % 2 * 3) < phi_nodes (s1.root_node * 3) →
          s1.permutation 0 = (s1.root_node + 1) % 2 ∧ s1.permutation 0 ≠ s1.root_node ∧
          s1.inside_out = true)) := by
  obtain ⟨s0, s1, _, h2, hr, hroot, hp, hio, _⟩ := cut_spec nSpace hn s phi_dof phi_nodes hcut
  refine ⟨s1, h2, by rw [hroot]; exact hr, ?_, ?_⟩
  · intro h23
    have h0 : rotation nSpace s0.root_node s0.permutation 0 = s0.root_node := by
      simp [rotation, Nat.mod_eq_of_lt hr]
    rw [hp, hroot]
    split_ifs
    · rw [swapLast_apply]
      have e1 : ¬ 0 = nSpace - 1 := by omega
      have e2 : ¬ 0 = nSpace := by omega
      rw [if_neg e1, if_neg e2, h0]
    · exact h0
  · intro h1
    subst h1
    have hd : det 1 (jacOf 1 phi_nodes (rotation 1 s0.root_node s0.permutation))
        = phi_nodes ((s0.root_node + 1) % 2 * 3) - phi_nodes (s0.root_node * 3) := by
      simp [det, jacOf, rotation, Nat.mod_eq_of_lt hr]
    rw [hd] at hp hio
    rw [hroot]
    constructor
    · intro hge
      have : ¬ phi_nodes ((s0.root_node + 1) % 2 * 3) - phi_nodes (s0.root_node * 3) < 0 := by
        intro h; exact hge (by linarith)
      rw [hp, if_neg this]
      simp [rotation, Nat.mod_eq_of_lt hr]
    · intro hlt
      have : phi_nodes ((s0.root_node + 1) % 2 * 3) - phi_nodes (s0.root_node * 3) < 0 := by
        linarith
      rw [hp, hio, if_pos this, if_pos ⟨this, rfl⟩]
      have e : swapLast 1 (rotation 1 s0.root_node s0.permutation) 0
          = (s0.root_node + 1) % 2 := by
        simp [swapLast_apply, rotation]
      refine ⟨e, ?_, rfl⟩
      rw [e]; omega

/-- C9 (as amended), on the segment from 1 to 0 with nodal values -1, 1: the root is
vertex 0 and the exchange puts vertex 1 first. -/
theorem permutation_head_witness :
    ∃ s1, _calculate_permutation 1 Simplex.zero (arr [-1, 1]) (arr [1, 0, 0, 0, 0, 0])
        = some (0, s1) ∧
      s1.root_node < 1 + 1 ∧
      (1 = 2 ∨ 1 = 3 → s1.permutation 0 = s1.root_node) ∧
      (1 = 1 →
        (¬ arr [1, 0, 0, 0, 0, 0] ((s1.root_node + 1) % 2 * 3)
            < arr [1, 0, 0, 0, 0, 0] (s1.root_node * 3) →
          s1.permutation 0 = s1.root_node) ∧
        (arr [1, 0, 0, 0, 0, 0] ((s1.root_node + 1) % 2 * 3)
            < arr [1, 0, 0, 0, 0, 0] (s1.root_node * 3) →
          s1.permutation 0 = (s1.root_node + 1) % 2 ∧ s1.permutation 0 ≠ s1.root_node ∧
          s1.inside_out = true)) :=
  permutation_head 1 (Or.inl rfl) Simplex.zero (arr [-1, 1]) (arr [1, 0, 0, 0, 0, 0])
    (by decide)

/-- C9 as stated fails: on the segment from 1 to 0 with nodal values -1, 1 the classifier
returns 0 with `root_node = 0`, and after the exchange `permutation[0] = 1`. -/
theorem permutation_head_not_root :
    (_calculate_permutation 1 Simplex.zero (arr [-1, 1]) (arr [1, 0, 0, 0, 0, 0])).map
      (fun r => (r.1, r.2.root_node, r.2.permutation 0)) = some (0, 0, 1) := by
  decide!

/-- C10 (as amended): for `nSpace` 1, 2 or 3 and every input classified as cut in which
vertex `k` is the only strictly negative one, `_calculate_permutation` returns 0 and
`root_node = k` when `nSpace = 1` or the number of strictly positive vertices is not
exactly one; when `nSpace` is 2 or 3 and vertex `p` is the only strictly positive one,
`root_node = p` instead. -/
theorem lone_negative_root (nSpace : Nat) (hn : nSpace = 1 ∨ nSpace = 2 ∨ nSpace = 3)
    (s : Simplex) (phi_dof phi_nodes : Nat → ℚ) (k : Nat)
    (hcut : (classify nSpace s phi_dof).isFall = true)
    (hk : k < nSpace + 1) (hkneg : phi_dof k < 0)
    (huniq : ∀ j, j < nSpace + 1 → phi_dof j < 0 → j = k) :
    ∃ s1, _calculate_permutation nSpace s phi_dof phi_nodes = some (0, s1) ∧
      (nSpace = 1 ∨ ¬ ExactlyOne (nSpace + 1) (fun i => phi_dof i > 0) → s1.root_node = k) ∧
      (∀ p, 1 < nSpace → p < nSpace + 1 → phi_dof p > 0 →
        (∀ j, j < nSpace + 1 → phi_dof j > 0 → j = p) → s1.root_node = p) := by
  obtain ⟨s0, s1, h1, h2, _, hroot, _⟩ := cut_spec nSpace hn s phi_dof phi_nodes hcut
  obtain ⟨_, _, _, hb⟩ := classify_fall nSpace s s0 phi_dof h1
  have hm : (signCount nSpace phi_dof).ncount = 1 := by
    rw [signCount_ncount]
    exact (countUpTo_eq_one_iff _ _).mpr ⟨k, hk, hkneg, huniq⟩
  have hni := signCount_n_i nSpace phi_dof (by omega)
  have hnik : (signCount nSpace phi_dof).n_i = k := huniq _ hni.1 hni.2
  refine ⟨s1, h2, ?_, ?_⟩
  · intro hc
    rw [hroot]
    rcases hb with ⟨a, _, c, _⟩ | ⟨_, _, _, d, _⟩ | ⟨_, _, d, _⟩
    · rcases hc with hc | hc
      · omega
      · exact absurd ((countUpTo_eq_one_iff _ _).mp (by rw [← signCount_pcount]; exact a)) hc
    · rw [d, hnik]
    · rw [d, hnik]
  · intro p hp1 hp hppos hpuniq
    have hpc : (signCount nSpace phi_dof).pcount = 1 := by
      rw [signCount_pcount]
      exact (countUpTo_eq_one_iff _ _).mpr ⟨p, hp, hppos, hpuniq⟩
    have hpi := signCount_p_i nSpace phi_dof (by omega)
    rw [hroot]
    rcases hb with ⟨_, _, _, d, _⟩ | ⟨_, _, c, _⟩ | ⟨a, _⟩
    · rw [d]; exact hpuniq _ hpi.1 hpi.2
    · exact absurd hp1 c
    · exact absurd hpc a

/-- C10 (as amended), on a triangle with nodal values 1, -1, 2: vertex 1 is the root. -/
theorem lone_negative_root_witness :
    ∃ s1, _calculate_permutation 2 Simplex.zero (arr [1, -1, 2])
        (arr [0, 0, 0, 1, 0, 0, 0, 1, 0]) = some (0, s1) ∧
      (2 = 1 ∨ ¬ ExactlyOne (2 + 1) (fun i => arr [1, -1, 2] i > 0) → s1.root_node = 1) ∧
      (∀ p, 1 < 2 → p < 2 + 1 → arr [1, -1, 2] p > 0 →
        (∀ j, j < 2 + 1 → arr [1, -1, 2] j > 0 → j = p) → s1.root_node = p) :=
  lone_negative_root 2 (Or.inr (Or.inl rfl)) Simplex.zero (arr [1, -1, 2])
    (arr [0, 0, 0, 1, 0, 0, 0, 1, 0]) 1 (by decide) (by decide) (by decide)
    (by intro j hj hneg; interval_cases j <;> first | rfl | exact absurd hneg (by decide))

/-- C10 as stated fails: on a triangle with nodal values -1, 1, 0 the classifier returns 0,
vertex 0 is the only strictly negative vertex, and `root_node = 1`. -/
theorem lone_negative_not_root :
    arr [-1, 1, 0] 0 < 0 ∧ ¬ arr [-1, 1, 0] 1 < 0 ∧ ¬ arr [-1, 1, 0] 2 < 0 ∧
    (_calculate_permutation 2 Simplex.zero (arr [-1, 1, 0])
      (arr [0, 0, 0, 1, 0, 0, 0, 1, 0])).map (fun r => (r.1, r.2.root_node)) = some (0, 1) :=
  ⟨by decide, by decide, by decide, by decide!⟩

/-! ## Orientation -/

theorem det_rotation (nSpace : Nat) (hn : nSpace = 1 ∨ nSpace = 2 ∨ nSpace = 3)
    (phi_nodes : Nat → ℚ) (root : Nat) (hr : root < nSpace + 1) (p : Nat → Nat) :
    det nSpace (jacOf nSpace phi_nodes (rotation nSpace root p))
        = det nSpace (jacOf nSpace phi_nodes id) ∨
    det nSpace (jacOf nSpace phi_nodes (rotation nSpace root p))
        = - det nSpace (jacOf nSpace phi_nodes id) := by
  rcases hn with h | h | h <;> subst h <;> interval_cases root <;>
    simp only [det, jacOf, rotation, id] <;> norm_num <;>
    first
      | (left; ring1)
      | (right; ring1)

theorem det_ne_zero_of_affinelyIndependent (nSpace : Nat)
    (hn : nSpace = 1 ∨ nSpace = 2 ∨ nSpace = 3) (phi_nodes : Nat → ℚ)
    (h : AffinelyIndependent nSpace phi_nodes) :
    det nSpace (jacOf nSpace phi_nodes id) ≠ 0 := by
  intro hdet
  rcases hn with h1 | h1 | h1 <;> subst h1
  · have hw := h (fun i => if i = 0 then -1 else if i = 1 then 1 else 0)
      (by simp [Finset.sum_range_succ])
      (by
        intro I hI
        interval_cases I
        simp [det, jacOf] at hdet
        simp [Finset.sum_range_succ]
        linarith)
    have := hw 1 (by omega)
    simp at this
  · let M : Matrix (Fin 2) (Fin 2) ℚ :=
      !![phi_nodes 3 - phi_nodes 0, phi_nodes 6 - phi_nodes 0;
         phi_nodes 4 - phi_nodes 1, phi_nodes 7 - phi_nodes 1]
    have hM : M.det = 0 := by
      rw [Matrix.det_fin_two]
      simp [det, jacOf] at hdet
      simp [M]
      linarith
    obtain ⟨v, hv, hMv⟩ := Matrix.exists_mulVec_eq_zero_iff.mpr hM
    have e0 := congrFun hMv 0
    have e1 := congrFun hMv 1
    simp [Matrix.mulVec, Matrix.dotProduct, Fin.sum_univ_two, M] at e0 e1
    have hw := h (fun i => if i = 0 then -(v 0 + v 1) else if i = 1 then v 0
        else if i = 2 then v 1 else 0)
      (by simp [Finset.sum_range_succ])
      (by
        intro I hI
        interval_cases I <;> simp [Finset.sum_range_succ] <;> linarith)
    have h1 := hw 1 (by omega)
    have h2 := hw 2 (by omega)
    simp at h1 h2
    apply hv
    funext i
    fin_cases i <;> simp [h1, h2]
  · let M : Matrix (Fin 3) (Fin 3) ℚ :=
      !![phi_nodes 3 - phi_nodes 0, phi_nodes 6 - phi_nodes 0, phi_nodes 9 - phi_nodes 0;
         phi_nodes 4 - phi_nodes 1, phi_nodes 7 - phi_nodes 1, phi_nodes 10 - phi_nodes 1;
         phi_nodes 5 - phi_nodes 2, phi_nodes 8 - phi_nodes 2, phi_nodes 11 - phi_nodes 2]
    have hM : M.det = 0 := by
      rw [Matrix.det_fin_three]
      simp [det, jacOf] at hdet
      simp [M]
      linarith
    obtain ⟨v, hv, hMv⟩ := Matrix.exists_mulVec_eq_zero_iff.mpr hM
    have e0 := congrFun hMv 0
    have e1 := congrFun hMv 1
    have e2 := congrFun hMv 2
    simp [Matrix.mulVec, Matrix.dotProduct, Fin.sum_univ_three, M] at e0 e1 e2
    have hw := h (fun i => if i = 0 then -(v 0 + v 1 + v 2) else if i = 1 then v 0
        else if i = 2 then v 1 else if i = 3 then v 2 else 0)
      (by simp [Finset.sum_range_succ]; ring)
      (by
        intro I hI
        interval_cases I <;> simp [Finset.sum_range_succ] <;> linarith)
    have h1 := hw 1 (by omega)
    have h2 := hw 2 (by omega)
    have h3 := hw 3 (by omega)
    simp at h1 h2 h3
    apply hv
    funext i
    fin_cases i <;> simp [h1, h2, h3]

/-- C7: for `nSpace` 1, 2 or 3, every input classified as cut and affinely independent
vertices, `_calculate_permutation` returns 0 (the assertion `det_Jac > 0` does not fail) and
the Jacobian it leaves has strictly positive determinant; its columns are permuted vertex
`i+1` minus permuted vertex 0; and exchanging the last two permuted indices negates the
determinant of such a Jacobian. -/
theorem jacobian_det_pos (nSpace : Nat) (hn : nSpace = 1 ∨ nSpace = 2 ∨ nSpace = 3)
    (s : Simplex) (phi_dof phi_nodes : Nat → ℚ)
    (hcut : (classify nSpace s phi_dof).isFall = true)
    (haff : AffinelyIndependent nSpace phi_nodes) :
    ∃ s1, _calculate_permutation nSpace s phi_dof phi_nodes = some (0, s1) ∧
      0 < det nSpace s1.Jac ∧
      (∀ i I, i < nSpace → I < nSpace → s1.Jac (I * nSpace + i)
        = phi_nodes (s1.permutation (i + 1) * 3 + I) - phi_nodes (s1.permutation 0 * 3 + I)) ∧
      (∀ p : Nat → Nat, det nSpace (jacOf nSpace phi_nodes (swapLast nSpace p))
        = - det nSpace (jacOf nSpace phi_nodes p)) := by
  obtain ⟨s0, s1, _, h2, hr, _, hp, _, _, _, hJ, hdet, h0⟩ :=
    cut_spec nSpace hn s phi_dof phi_nodes hcut
  refine ⟨s1, h2, ?_, hJ, det_jacOf_swapLast nSpace hn phi_nodes⟩
  have hid := det_ne_zero_of_affinelyIndependent nSpace hn phi_nodes haff
  have hrot : det nSpace (jacOf nSpace phi_nodes
      (rotation nSpace s0.root_node s0.permutation)) ≠ 0 := by
    rcases det_rotation nSpace hn phi_nodes s0.root_node hr s0.permutation with e | e
    · rw [e]; exact hid
    · rw [e]; exact neg_ne_zero.mpr hid
  have hne : det nSpace s1.Jac ≠ 0 := by
    rw [hdet, hp]
    split_ifs
    · rw [det_jacOf_swapLast nSpace hn]; exact neg_ne_zero.mpr hrot
    · exact hrot
  exact lt_of_le_of_ne h0 (Ne.symm hne)

/-- C7, on the triangle (0,0), (0,1), (1,0) with nodal values 1, -1, 1, whose rotation by
the root has a negative determinant. -/
theorem jacobian_det_pos_witness :
    ∃ s1, _calculate_permutation 2 Simplex.zero (arr [1, -1, 1])
        (arr [0, 0, 0, 0, 1, 0, 1, 0, 0]) = some (0, s1) ∧
      0 < det 2 s1.Jac ∧
      (∀ i I, i < 2 → I < 2 → s1.Jac (I * 2 + i)
        = arr [0, 0, 0, 0, 1, 0, 1, 0, 0] (s1.permutation (i + 1) * 3 + I)
          - arr [0, 0, 0, 0, 1, 0, 1, 0, 0] (s1.permutation 0 * 3 + I)) ∧
      (∀ p : Nat → Nat, det 2 (jacOf 2 (arr [0, 0, 0, 0, 1, 0, 1, 0, 0]) (swapLast 2 p))
        = - det 2 (jacOf 2 (arr [0, 0, 0, 0, 1, 0, 1, 0, 0]) p)) :=
  jacobian_det_pos 2 (Or.inr (Or.inl rfl)) Simplex.zero (arr [1, -1, 1])
    (arr [0, 0, 0, 0, 1, 0, 1, 0, 0]) (by decide)
    (by
      intro w h0 h1 i hi
      have a := h1 0 (by omega)
      have b := h1 1 (by omega)
      simp [Finset.sum_range_succ, arr] at a b h0
      interval_cases i <;> linarith)

/-! ## The root of a one-against-the-rest cut -/

/-- C11: for `nSpace` 2 or 3 and nodal values with exactly one strictly positive vertex `p`
and at least one strictly negative vertex, the case analysis chooses `root_node = p` and
raises `inside_out`, and `_calculate_permutation` returns 0 with `root_node = p` and
`inside_out` still true after the orientation fix-up; for `nSpace = 1` with one positive
and one negative vertex `k`, it returns 0 with `root_node = k`. -/
theorem lone_positive_root (nSpace : Nat) (s : Simplex) (phi_dof phi_nodes : Nat → ℚ) :
    (nSpace = 2 ∨ nSpace = 3 →
      ∀ p, p < nSpace + 1 → phi_dof p > 0 →
        (∀ j, j < nSpace + 1 → phi_dof j > 0 → j = p) →
        (∃ k, k < nSpace + 1 ∧ phi_dof k < 0) →
        ∃ s0 s1, classify nSpace s phi_dof = Flow.fall s0 ∧
          s0.root_node = p ∧ s0.inside_out = true ∧
          _calculate_permutation nSpace s phi_dof phi_nodes = some (0, s1) ∧
          s1.root_node = p ∧ s1.inside_out = true) ∧
    (nSpace = 1 →
      ∀ p k, p < 2 → k < 2 → phi_dof p > 0 → phi_dof k < 0 →
        ∃ s1, _calculate_permutation nSpace s phi_dof phi_nodes = some (0, s1) ∧
          s1.root_node = k) := by
  have htot := signCount_total nSpace phi_dof
  constructor
  · intro h23 p hp hppos hpuniq hneg
    have hn : nSpace = 1 ∨ nSpace = 2 ∨ nSpace = 3 := Or.inr h23
    have hpc : (signCount nSpace phi_dof).pcount = 1 := by
      rw [signCount_pcount]
      exact (countUpTo_eq_one_iff _ _).mpr ⟨p, hp, hppos, hpuniq⟩
    have hm : 0 < (signCount nSpace phi_dof).ncount := by
      rw [signCount_ncount]; exact (countUpTo_pos_iff _ _).mpr hneg
    have hfall : (classify nSpace s phi_dof).isFall = true := by
      rw [classify_isFall_iff]
      exact ⟨by omega, by omega, Or.inl ⟨hpc, by omega⟩⟩
    obtain ⟨s0, s1, h1, h2, _, hroot, _, hio, _⟩ := cut_spec nSpace hn s phi_dof phi_nodes hfall
    obtain ⟨_, _, _, hb⟩ := classify_fall nSpace s s0 phi_dof h1
    have hpi := signCount_p_i nSpace phi_dof (by omega)
    have h0 : s0.root_node = p ∧ s0.inside_out = true := by
      rcases hb with ⟨_, _, _, d, e⟩ | ⟨_, _, c, _⟩ | ⟨a, _⟩
      · exact ⟨by rw [d]; exact hpuniq _ hpi.1 hpi.2, e⟩
      · omega
      · exact absurd hpc a
    refine ⟨s0, s1, h1, h0.1, h0.2, h2, by rw [hroot]; exact h0.1, ?_⟩
    rw [hio, h0.2]
    simp
  · intro h1 p k hp hk hppos hkneg
    subst h1
    have hpk : p ≠ k := by
      intro e; subst e; linarith
    have hpc : (signCount 1 phi_dof).pcount = 1 := by
      rw [signCount_pcount]
      refine (countUpTo_eq_one_iff _ _).mpr ⟨p, hp, hppos, fun j hj hj0 => ?_⟩
      by_contra hjp
      have : j = k := by omega
      subst this; linarith
    have hnc : (signCount 1 phi_dof).ncount = 1 := by
      rw [signCount_ncount]
      refine (countUpTo_eq_one_iff _ _).mpr ⟨k, hk, hkneg, fun j hj hj0 => ?_⟩
      by_contra hjk
      have : j = p := by omega
      subst this; linarith
    have hfall : (classify 1 s phi_dof).isFall = true := by
      rw [classify_isFall_iff]
      exact ⟨by omega, by omega, Or.inl ⟨hpc, by omega⟩⟩
    obtain ⟨s0, s1, h1, h2, _, hroot, _⟩ :=
      cut_spec 1 (Or.inl rfl) s phi_dof phi_nodes hfall
    obtain ⟨_, _, _, hb⟩ := classify_fall 1 s s0 phi_dof h1
    have hni := signCount_n_i 1 phi_dof (by omega)
    have hnik : (signCount 1 phi_dof).n_i = k := by
      by_contra hne
      have : (signCount 1 phi_dof).n_i = p := by omega
      rw [this] at hni; linarith [hni.2]
    refine ⟨s1, h2, ?_⟩
    rw [hroot]
    rcases hb with ⟨_, _, c, _⟩ | ⟨_, _, _, d, _⟩ | ⟨_, _, d, _⟩
    · omega
    · rw [d, hnik]
    · rw [d, hnik]

/-- C11, on the triangle (0,0), (0,1), (1,0) with nodal values -1, 2, 0 (the fix-up exchange
is applied) and on a segment with nodal values 1, -1. -/
theorem lone_positive_root_witness :
    (∃ s0 s1, classify 2 Simplex.zero (arr [-1, 2, 0]) = Flow.fall s0 ∧
        s0.root_node = 1 ∧ s0.inside_out = true ∧
        _calculate_permutation 2 Simplex.zero (arr [-1, 2, 0])
          (arr [0, 0, 0, 0, 1, 0, 1, 0, 0]) = some (0, s1) ∧
        s1.root_node = 1 ∧ s1.inside_out = true) ∧
    (∃ s1, _calculate_permutation 1 Simplex.zero (arr [1, -1])
        (arr [0, 0, 0, 1, 0, 0]) = some (0, s1) ∧ s1.root_node = 1) :=
  ⟨(lone_positive_root 2 Simplex.zero (arr [-1, 2, 0]) (arr [0, 0, 0, 0, 1, 0, 1, 0, 0])).1
      (Or.inl rfl) 1 (by decide) (by decide)
      (by intro j hj hpos; interval_cases j <;> first | rfl | exact absurd hpos (by decide))
      ⟨0, by decide, by decide⟩,
   (lone_positive_root 1 Simplex.zero (arr [1, -1]) (arr [0, 0, 0, 1, 0, 0])).2
      rfl 0 1 (by decide) (by decide) (by decide) (by decide)⟩

/-! ## The crossing parameter -/

/-- C12: in exact arithmetic (any ordered field, in particular the reals), for end values
`a = phi[0]` and `b = phi[i+1]` with `a*b < 0`, the divisor `b - a` is non-zero and
`X_0 = 0.5 - 0.5*(b+a)/(b-a)` satisfies `0 < X_0 < 1` (so both assertions hold) and is the
zero of the linear interpolant, `(1 - X_0)*a + X_0*b = 0`. -/
theorem crossing_spec {F : Type} [LinearOrderedField F] (a b : F) (h : a * b < 0) :
    b - a ≠ 0 ∧ 0 < crossing a b ∧ crossing a b < 1 ∧
      crossing a b ≤ 1 ∧ crossing a b ≥ 0 ∧
      (1 - crossing a b) * a + crossing a b * b = 0 := by
  have hne : b - a ≠ 0 := by
    intro e
    have : b = a := by linear_combination e
    subst this
    nlinarith [mul_self_nonneg b]
  have hform : crossing a b = -a / (b - a) := by
    unfold crossing
    field_simp
    ring
  have hpos : 0 < crossing a b := by
    rw [hform]
    rcases lt_or_gt_of_ne hne with hlt | hgt
    · apply div_pos_of_neg_of_neg _ hlt
      by_contra hc
      push_neg at hc
      have ha : a ≤ 0 := by linarith
      have hb : b < 0 := by linarith
      nlinarith
    · apply div_pos _ hgt
      by_contra hc
      push_neg at hc
      have ha : 0 ≤ a := by linarith
      have hb : 0 < b := by linarith
      nlinarith
  have hlt1 : crossing a b < 1 := by
    have h1 : 1 - crossing a b = b / (b - a) := by
      rw [hform]; field_simp
    have : 0 < 1 - crossing a b := by
      rw [h1]
      rcases lt_or_gt_of_ne hne with hlt | hgt
      · apply div_pos_of_neg_of_neg _ hlt
        by_contra hc
        push_neg at hc
        have ha : a > 0 := by linarith
        nlinarith
      · apply div_pos _ hgt
        by_contra hc
        push_neg at hc
        have ha : a < 0 := by linarith
        nlinarith
    linarith
  refine ⟨hne, hpos, hlt1, le_of_lt hlt1, le_of_lt hpos, ?_⟩
  rw [hform]
  field_simp
  ring

/-- C12, over the reals, for the end values -1 and 3. -/
theorem crossing_spec_witness :
    (3 : ℝ) - (-1) ≠ 0 ∧ 0 < crossing (-1 : ℝ) 3 ∧ crossing (-1 : ℝ) 3 < 1 ∧
      crossing (-1 : ℝ) 3 ≤ 1 ∧ crossing (-1 : ℝ) 3 ≥ 0 ∧
      (1 - crossing (-1 : ℝ) 3) * (-1) + crossing (-1 : ℝ) 3 * 3 = 0 :=
  crossing_spec (-1 : ℝ) 3 (by norm_num)

/-! ## The regularized engine -/

/-- C17: for every `eps ≥ 0` and every `phi` (exact arithmetic, whatever `sin` and `pi`),
`Regularized::H(eps, phi)` is 1 when `phi > eps`, 0 when `phi < -eps`, 0.5 when `phi = 0`,
and `0.5*(1 + phi/eps + sin(pi*phi/eps)/pi)` for every other `phi` of the band
`-eps ≤ phi ≤ eps`. -/
theorem regularized_H_spec {F : Type} [LinearOrderedField F] (sin : F → F) (pi eps phi : F)
    (heps : 0 ≤ eps) :
    (phi > eps → Regularized.H sin pi eps phi = 1) ∧
    (phi < -eps → Regularized.H sin pi eps phi = 0) ∧
    (phi = 0 → Regularized.H sin pi eps phi = 1 / 2) ∧
    (-eps ≤ phi → phi ≤ eps → phi ≠ 0 →
      Regularized.H sin pi eps phi = 1 / 2 * (1 + phi / eps + sin (pi * phi / eps) / pi)) := by
  refine ⟨?_, ?_, ?_, ?_⟩
  · intro h
    simp [Regularized.H, h]
  · intro h
    have h1 : ¬ phi > eps := by
      intro h2; linarith
    simp [Regularized.H, h1, h]
  · intro h
    subst h
    have h1 : ¬ (0 : F) > eps := not_lt.mpr heps
    have h2 : ¬ (0 : F) < -eps := by
      intro h3; linarith
    simp [Regularized.H, h1, h2]
  · intro h1 h2 h3
    have e1 : ¬ phi > eps := not_lt.mpr h2
    have e2 : ¬ phi < -eps := not_lt.mpr h1
    simp only [Regularized.H, if_neg e1, if_neg e2, if_neg h3]

/-- C17, over the reals with the real sine and `π`, at `eps = 1`, `phi = 1/2`. -/
theorem regularized_H_spec_witness :
    ((1 / 2 : ℝ) > 1 → Regularized.H Real.sin Real.pi 1 (1 / 2) = 1) ∧
    ((1 / 2 : ℝ) < -1 → Regularized.H Real.sin Real.pi 1 (1 / 2) = 0) ∧
    ((1 / 2 : ℝ) = 0 → Regularized.H Real.sin Real.pi 1 (1 / 2) = 1 / 2) ∧
    (-1 ≤ (1 / 2 : ℝ) → (1 / 2 : ℝ) ≤ 1 → (1 / 2 : ℝ) ≠ 0 →
      Regularized.H Real.sin Real.pi 1 (1 / 2)
        = 1 / 2 * (1 + (1 / 2) / 1 + Real.sin (Real.pi * (1 / 2) / 1) / Real.pi)) :=
  regularized_H_spec Real.sin Real.pi 1 (1 / 2) (by norm_num)

/-- C18: for every `eps` and every `phi` (any sign of `eps`, inside or outside the band),
`Regularized::ImH(eps, phi) = 1 - Regularized::H(eps, phi)`, so `H + ImH = 1`. -/
theorem regularized_ImH_spec {F : Type} [LinearOrderedField F] (sin : F → F)
    (pi eps phi : F) :
    Regularized.ImH sin pi eps phi = 1 - Regularized.H sin pi eps phi ∧
    Regularized.H sin pi eps phi + Regularized.ImH sin pi eps phi = 1 := by
  constructor
  · rfl
  · unfold Regularized.ImH
    ring

/-- C20: for `phi ≠ 0` and every `eps` with `0 ≤ eps < |phi|`, the regularized triple is the
trivial-case triple of the exact engine, `(H, ImH, D) = (1, 0, 0)` for `phi > 0` and
`(0, 1, 0)` for `phi < 0`; hence below the threshold `|phi|` the regularized values no
longer depend on `eps`. -/
theorem regularized_outside_band {F : Type} [LinearOrderedField F] (sin cos : F → F)
    (pi phi : F) (hphi : phi ≠ 0) :
    (∀ eps, 0 ≤ eps → eps < |phi| →
      (phi > 0 → Regularized.H sin pi eps phi = 1 ∧ Regularized.ImH sin pi eps phi = 0 ∧
        Regularized.D cos pi eps phi = 0) ∧
      (phi < 0 → Regularized.H sin pi eps phi = 0 ∧ Regularized.ImH sin pi eps phi = 1 ∧
        Regularized.D cos pi eps phi = 0)) ∧
    (∃ delta, 0 < delta ∧ ∀ eps, 0 ≤ eps → eps < delta →
      Regularized.H sin pi eps phi = (if phi > 0 then 1 else 0) ∧
      Regularized.ImH sin pi eps phi = (if phi > 0 then 0 else 1) ∧
      Regularized.D cos pi eps phi = 0) := by
  have key : ∀ eps, 0 ≤ eps → eps < |phi| →
      (phi > 0 → Regularized.H sin pi eps phi = 1 ∧ Regularized.ImH sin pi eps phi = 0 ∧
        Regularized.D cos pi eps phi = 0) ∧
      (phi < 0 → Regularized.H sin pi eps phi = 0 ∧ Regularized.ImH sin pi eps phi = 1 ∧
        Regularized.D cos pi eps phi = 0) := by
    intro eps h0 hlt
    constructor
    · intro hpos
      rw [abs_of_pos hpos] at hlt
      have h1 : phi > eps := hlt
      simp [Regularized.H, Regularized.ImH, Regularized.D, h1]
    · intro hneg
      rw [abs_of_neg hneg] at hlt
      have h1 : ¬ phi > eps := by
        intro h2; linarith
      have h2 : phi < -eps := by linarith
      simp [Regularized.H, Regularized.ImH, Regularized.D, h1, h2]
  refine ⟨key, |phi|, abs_pos.mpr hphi, ?_⟩
  intro eps h0 hlt
  rcases lt_or_gt_of_ne hphi with hneg | hpos
  · have := (key eps h0 hlt).2 hneg
    have hn : ¬ phi > 0 := not_lt.mpr (le_of_lt hneg)
    simpa [hn] using this
  · have := (key eps h0 hlt).1 hpos
    simpa [hpos] using this

/-- C20, over the reals with the real sine and cosine, at `phi = -2`. -/
theorem regularized_outside_band_witness :
    (∀ eps : ℝ, 0 ≤ eps → eps < |(-2 : ℝ)| →
      ((-2 : ℝ) > 0 → Regularized.H Real.sin Real.pi eps (-2) = 1 ∧
        Regularized.ImH Real.sin Real.pi eps (-2) = 0 ∧
        Regularized.D Real.cos Real.pi eps (-2) = 0) ∧
      ((-2 : ℝ) < 0 → Regularized.H Real.sin Real.pi eps (-2) = 0 ∧
        Regularized.ImH Real.sin Real.pi eps (-2) = 1 ∧
        Regularized.D Real.cos Real.pi eps (-2) = 0)) ∧
    (∃ delta : ℝ, 0 < delta ∧ ∀ eps, 0 ≤ eps → eps < delta →
      Regularized.H Real.sin Real.pi eps (-2) = (if (-2 : ℝ) > 0 then 1 else 0) ∧
      Regularized.ImH Real.sin Real.pi eps (-2) = (if (-2 : ℝ) > 0 then 0 else 1) ∧
      Regularized.D Real.cos Real.pi eps (-2) = 0) :=
  regularized_outside_band Real.sin Real.cos Real.pi (-2) (by norm_num)

/-- C19: over the reals, for every `eps > 0`, `Regularized::D(eps, phi)` is 0 for
`|phi| > eps`, is `0.5*(1 + cos(π*phi/eps))/eps` for `|phi| ≤ eps`, and its integral over
`phi` from `-eps` to `eps` is 1. -/
theorem regularized_D_spec (eps : ℝ) (heps : 0 < eps) :
    (∀ phi, |phi| > eps → Regularized.D Real.cos Real.pi eps phi = 0) ∧
    (∀ phi, |phi| ≤ eps → Regularized.D Real.cos Real.pi eps phi
      = 1 / 2 * (1 + Real.cos (Real.pi * phi / eps)) / eps) ∧
    ∫ phi in (-eps)..eps, Regularized.D Real.cos Real.pi eps phi = 1 := by
  have hband : ∀ phi, |phi| ≤ eps → Regularized.D Real.cos Real.pi eps phi
      = 1 / 2 * (1 + Real.cos (Real.pi * phi / eps)) / eps := by
    intro phi h
    obtain ⟨h1, h2⟩ := abs_le.mp h
    have e1 : ¬ phi > eps := not_lt.mpr h2
    have e2 : ¬ phi < -eps := not_lt.mpr h1
    simp only [Regularized.D, if_neg e1, if_neg e2]
  refine ⟨?_, hband, ?_⟩
  · intro phi h
    rcases lt_abs.mp h with h1 | h1
    · simp [Regularized.D, h1]
    · have e1 : ¬ phi > eps := by
        intro h2; linarith
      have e2 : phi < -eps := by linarith
      simp [Regularized.D, e1, e2]
  · have hcongr : ∫ phi in (-eps)..eps, Regularized.D Real.cos Real.pi eps phi
        = ∫ phi in (-eps)..eps, 1 / 2 * (1 + Real.cos (Real.pi * phi / eps)) / eps := by
      apply intervalIntegral.integral_congr
      intro phi hphi
      rw [Set.uIcc_of_le (by linarith)] at hphi
      exact hband phi (abs_le.mpr ⟨hphi.1, hphi.2⟩)
    rw [hcongr]
    have hpi : Real.pi ≠ 0 := Real.pi_ne_zero
    have hc : Real.pi / eps ≠ 0 := div_ne_zero hpi (ne_of_gt heps)
    have hcos : ∫ phi in (-eps)..eps, Real.cos (Real.pi * phi / eps) = 0 := by
      have h1 : ∀ phi : ℝ, Real.cos (Real.pi * phi / eps) = Real.cos (Real.pi / eps * phi) := by
        intro phi; congr 1; ring
      simp only [h1]
      rw [intervalIntegral.integral_comp_mul_left (fun x => Real.cos x) hc]
      have e1 : Real.pi / eps * eps = Real.pi := by field_simp
      have e2 : Real.pi / eps * -eps = -Real.pi := by field_simp
      rw [e1, e2, integral_cos]
      simp
    have hsplit : ∀ phi : ℝ, 1 / 2 * (1 + Real.cos (Real.pi * phi / eps)) / eps
        = 1 / (2 * eps) + 1 / (2 * eps) * Real.cos (Real.pi * phi / eps) := by
      intro phi; field_simp
    simp only [hsplit]
    rw [intervalIntegral.integral_add, intervalIntegral.integral_const_mul, hcos]
    · simp
      field_simp
    · exact intervalIntegral.intervalIntegrable_const _
    · apply Continuous.intervalIntegrable
      fun_prop

/-- C19, at `eps = 2`. -/
theorem regularized_D_spec_witness :
    (∀ phi : ℝ, |phi| > 2 → Regularized.D Real.cos Real.pi 2 phi = 0) ∧
    (∀ phi : ℝ, |phi| ≤ 2 → Regularized.D Real.cos Real.pi 2 phi
      = 1 / 2 * (1 + Real.cos (Real.pi * phi / 2)) / 2) ∧
    ∫ phi in (-2 : ℝ)..2, Regularized.D Real.cos Real.pi 2 phi = 1 :=
  regularized_D_spec 2 (by norm_num)

/-! ## The cut points -/

theorem _calculate_cuts_eq (nSpace : Nat) (s : Simplex) :
    _calculate_cuts nSpace s
      = (forLoopM nSpace (cutsBody s) (s.X_0, s.phys_nodes_cut)).map
          (fun st => { s with X_0 := st.1, phys_nodes_cut := st.2 }) := rfl

theorem setAt_same {α : Type} (a : Nat → α) (i : Nat) (v : α) : setAt a i v i = v := by
  simp [setAt]

/-- The parameter written for the edge `i`. -/
theorem cutsBody_some (s : Simplex) (i : Nat) (st : (Nat → ℚ) × (Nat → ℚ))
    (h : s.phi (i + 1) * s.phi 0 < 0 ∨ s.phi (i + 1) = 0) :
    ∃ x, (if s.phi (i + 1) * s.phi 0 < 0 then x = crossing (s.phi 0) (s.phi (i + 1)) else x = 1) ∧
      cutsBody s i st = some (setAt st.1 i x,
        setAt (setAt (setAt st.2 (i * 3 + 0) ((1 - x) * s.nodes 0 + x * s.nodes ((1 + i) * 3 + 0)))
          (i * 3 + 1) ((1 - x) * s.nodes 1 + x * s.nodes ((1 + i) * 3 + 1)))
          (i * 3 + 2) ((1 - x) * s.nodes 2 + x * s.nodes ((1 + i) * 3 + 2))) := by
  by_cases hlt : s.phi (i + 1) * s.phi 0 < 0
  · have hc := crossing_spec (s.phi 0) (s.phi (i + 1))
      (by linarith [mul_comm (s.phi 0) (s.phi (i + 1))])
    refine ⟨crossing (s.phi 0) (s.phi (i + 1)), by rw [if_pos hlt], ?_⟩
    have h1 : ¬ ¬ crossing (s.phi 0) (s.phi (i + 1)) ≤ 1 := not_not.mpr hc.2.2.2.1
    have h2 : ¬ ¬ crossing (s.phi 0) (s.phi (i + 1)) ≥ 0 := not_not.mpr hc.2.2.2.2.1
    unfold cutsBody
    rw [if_pos hlt]
    simp only [setAt_same]
    unfold crossing at h1 h2 ⊢
    rw [if_neg h1, if_neg h2]
    rfl
  · have hz : s.phi (i + 1) = 0 := by
      rcases h with h | h
      · exact absurd h hlt
      · exact h
    refine ⟨1, by rw [if_neg hlt], ?_⟩
    unfold cutsBody
    rw [if_neg hlt, if_neg (not_not.mpr hz)]
    simp [forLoop, setAt]

theorem cutsBody_none (s : Simplex) (i : Nat) (st : (Nat → ℚ) × (Nat → ℚ))
    (h : ¬ (s.phi (i + 1) * s.phi 0 < 0 ∨ s.phi (i + 1) = 0)) :
    cutsBody s i st = none := by
  push_neg at h
  simp [cutsBody, h.1, h.2]

/-- The loop of `_calculate_cuts` runs through exactly when every edge has a sign change or
a zero far end, and then holds the interpolated cut points. -/
theorem cuts_loop (s : Simplex) (n : Nat) (st0 : (Nat → ℚ) × (Nat → ℚ)) :
    ((∀ i, i < n → s.phi (i + 1) * s.phi 0 < 0 ∨ s.phi (i + 1) = 0) →
      ∃ st, forLoopM n (cutsBody s) st0 = some st) ∧
    (∀ st, forLoopM n (cutsBody s) st0 = some st →
      ∀ i, i < n → (s.phi (i + 1) * s.phi 0 < 0 ∨ s.phi (i + 1) = 0) ∧
        (if s.phi (i + 1) * s.phi 0 < 0 then st.1 i = crossing (s.phi 0) (s.phi (i + 1))
          else st.1 i = 1) ∧
        ∀ I, I < 3 → st.2 (i * 3 + I)
          = (1 - st.1 i) * s.nodes I + st.1 i * s.nodes ((1 + i) * 3 + I)) := by
  induction n with
  | zero =>
    exact ⟨fun _ => ⟨st0, rfl⟩, fun st _ i hi => absurd hi (Nat.not_lt_zero i)⟩
  | succ n ih =>
    obtain ⟨ih1, ih2⟩ := ih
    constructor
    · intro h
      obtain ⟨st, hst⟩ := ih1 (fun i hi => h i (by omega))
      obtain ⟨x, _, hx⟩ := cutsBody_some s n st (h n (by omega))
      have e : forLoopM (n + 1) (cutsBody s) st0 = cutsBody s n st := by
        rw [show forLoopM (n + 1) (cutsBody s) st0
          = (forLoopM n (cutsBody s) st0).bind (cutsBody s n) from rfl, hst]
        rfl
      exact ⟨_, e.trans hx⟩
    · intro st hst i hi
      rw [show forLoopM (n + 1) (cutsBody s) st0
        = (forLoopM n (cutsBody s) st0).bind (cutsBody s n) from rfl] at hst
      cases hprev : forLoopM n (cutsBody s) st0 with
      | none => rw [hprev] at hst; simp at hst
      | some stp =>
        rw [hprev] at hst
        change cutsBody s n stp = some st at hst
        by_cases hc : s.phi (n + 1) * s.phi 0 < 0 ∨ s.phi (n + 1) = 0
        · obtain ⟨x, hx1, hx2⟩ := cutsBody_some s n stp hc
          rw [hx2] at hst
          simp only [Option.some.injEq] at hst
          subst hst
          by_cases hin : i = n
          · subst hin
            refine ⟨hc, ?_, ?_⟩
            · simp only [setAt, if_true]
              exact hx1
            · intro I hI
              interval_cases I <;> simp [setAt]
          · have hlt : i < n := by omega
            obtain ⟨a, b, c⟩ := ih2 stp hprev i hlt
            refine ⟨a, ?_, ?_⟩
            · simp only [setAt, if_neg hin]
              exact b
            · intro I hI
              have e0 : ¬ i * 3 + I = n * 3 + 0 := by omega
              have e1 : ¬ i * 3 + I = n * 3 + 1 := by omega
              have e2 : ¬ i * 3 + I = n * 3 + 2 := by omega
              simp only [setAt, if_neg hin, if_neg e0, if_neg e1, if_neg e2]
              exact c I hI
        · rw [cutsBody_none s n stp hc] at hst
          simp at hst

/-! ## Signs of the canonical nodal values -/

theorem finalPermutation_lt (nSpace root : Nat) (phi_nodes : Nat → ℚ) (p : Nat → Nat)
    (i : Nat) (hi : i < nSpace + 1) : finalPermutation nSpace root phi_nodes p i < nSpace + 1 := by
  unfold finalPermutation
  split_ifs
  · exact swapLast_lt nSpace _ (rotation_lt nSpace _ _) i hi
  · exact rotation_lt nSpace _ _ i hi

theorem finalPermutation_inj (nSpace root : Nat) (phi_nodes : Nat → ℚ) (p : Nat → Nat)
    (i j : Nat) (hi : i < nSpace + 1) (hj : j < nSpace + 1)
    (h : finalPermutation nSpace root phi_nodes p i = finalPermutation nSpace root phi_nodes p j) :
    i = j := by
  unfold finalPermutation at h
  split_ifs at h
  · exact swapLast_inj nSpace _ (rotation_inj nSpace _ _) i j hi hj h
  · exact rotation_inj nSpace _ _ i j hi hj h

theorem finalPermutation_head (nSpace root : Nat) (phi_nodes : Nat → ℚ) (p : Nat → Nat)
    (h2 : 2 ≤ nSpace) (hr : root < nSpace + 1) :
    finalPermutation nSpace root phi_nodes p 0 = root := by
  have h0 : rotation nSpace root p 0 = root := by
    simp [rotation, Nat.mod_eq_of_lt hr]
  unfold finalPermutation
  split_ifs
  · rw [swapLast_apply]
    have e1 : ¬ 0 = nSpace - 1 := by omega
    have e2 : ¬ 0 = nSpace := by omega
    rw [if_neg e1, if_neg e2, h0]
  · exact h0

theorem finalPermutation_one (root : Nat) (phi_nodes : Nat → ℚ) (p : Nat → Nat)
    (hr : root < 2) :
    (phi_nodes ((root + 1) % 2 * 3) < phi_nodes (root * 3) →
      finalPermutation 1 root phi_nodes p 0 = (root + 1) % 2 ∧
      finalPermutation 1 root phi_nodes p 1 = root) ∧
    (¬ phi_nodes ((root + 1) % 2 * 3) < phi_nodes (root * 3) →
      finalPermutation 1 root phi_nodes p 0 = root ∧
      finalPermutation 1 root phi_nodes p 1 = (root + 1) % 2) := by
  have hd : det 1 (jacOf 1 phi_nodes (rotation 1 root p))
      = phi_nodes ((root + 1) % 2 * 3) - phi_nodes (root * 3) := by
    simp [det, jacOf, rotation, Nat.mod_eq_of_lt hr]
  unfold finalPermutation
  rw [hd]
  constructor
  · intro h
    have : phi_nodes ((root + 1) % 2 * 3) - phi_nodes (root * 3) < 0 := by linarith
    rw [if_pos this]
    simp [swapLast_apply, rotation, Nat.mod_eq_of_lt hr]
  · intro h
    have : ¬ phi_nodes ((root + 1) % 2 * 3) - phi_nodes (root * 3) < 0 := by
      intro h1; exact h (by linarith)
    rw [if_neg this]
    simp [rotation, Nat.mod_eq_of_lt hr]

/-- On a cut, the root is the only vertex of its strict sign: the root value is non-zero and
every other vertex has a value of the opposite sign or zero. -/
theorem root_signs (nSpace : Nat) (s s0 : Simplex) (phi_dof : Nat → ℚ)
    (h : classify nSpace s phi_dof = Flow.fall s0) :
    s0.root_node < nSpace + 1 ∧
    ((phi_dof s0.root_node > 0 ∧ 1 < nSpace ∧
        ∀ j, j < nSpace + 1 → j ≠ s0.root_node → phi_dof j ≤ 0) ∨
     (phi_dof s0.root_node < 0 ∧
        ∀ j, j < nSpace + 1 → j ≠ s0.root_node → phi_dof j ≥ 0)) ∧
    (nSpace = 1 → (signCount nSpace phi_dof).pcount = 1 →
      ∀ j, j < 2 → j ≠ s0.root_node → phi_dof j > 0) := by
  obtain ⟨h1, h2, _, hb⟩ := classify_fall nSpace s s0 phi_dof h
  have htot := signCount_total nSpace phi_dof
  have hlt := classify_root_lt nSpace s s0 phi_dof h
  have hpu : (signCount nSpace phi_dof).pcount = 1 →
      ∀ i j, i < nSpace + 1 → j < nSpace + 1 → phi_dof i > 0 → phi_dof j > 0 → i = j := by
    intro hc i j hi hj hpi hpj
    rw [signCount_pcount] at hc
    exact countUpTo_eq_one_unique _ hc hi hj hpi hpj
  have hnu : (signCount nSpace phi_dof).ncount = 1 →
      ∀ i j, i < nSpace + 1 → j < nSpace + 1 → phi_dof i < 0 → phi_dof j < 0 → i = j := by
    intro hc i j hi hj hpi hpj
    rw [signCount_ncount] at hc
    exact countUpTo_eq_one_unique _ hc hi hj hpi hpj
  refine ⟨hlt, ?_, ?_⟩
  · rcases hb with ⟨a, _, c, d, _⟩ | ⟨a, b, c, d, _⟩ | ⟨a, b, d, _⟩
    · have hpi := signCount_p_i nSpace phi_dof (by omega)
      rw [← d] at hpi
      refine Or.inl ⟨hpi.2, c, fun j hj hjr => ?_⟩
      by_contra hc
      exact hjr (hpu a j _ hj hpi.1 (not_le.mp hc) hpi.2)
    · have hnc : (signCount nSpace phi_dof).ncount = 1 := by omega
      have hni := signCount_n_i nSpace phi_dof (by omega)
      rw [← d] at hni
      refine Or.inr ⟨hni.2, fun j hj hjr => ?_⟩
      by_contra hc
      exact hjr (hnu hnc j _ hj hni.1 (not_le.mp hc) hni.2)
    · have hni := signCount_n_i nSpace phi_dof (by omega)
      rw [← d] at hni
      refine Or.inr ⟨hni.2, fun j hj hjr => ?_⟩
      by_contra hc
      exact hjr (hnu b j _ hj hni.1 (not_le.mp hc) hni.2)
  · intro hn1 hpc j hj hjr
    subst hn1
    have hpi := signCount_p_i 1 phi_dof (by omega)
    rcases hb with ⟨_, _, c, _⟩ | ⟨a, b, c, d, _⟩ | ⟨a, _⟩
    · omega
    · have hni := signCount_n_i 1 phi_dof (by omega)
      rw [← d] at hni
      have hne : (signCount 1 phi_dof).p_i ≠ s0.root_node := by
        intro e; rw [e] at hpi; linarith [hpi.2, hni.2]
      have : j = (signCount 1 phi_dof).p_i := by omega
      rw [this]; exact hpi.2
    · exact absurd hpc a

/-- On a cut outside the one-dimensional configuration excluded by `NoZeroBeforeNegative`,
the canonical nodal values have `phi[0] ≠ 0` and every `phi[i+1]` of the opposite sign
or zero. -/
theorem canonical_signs (nSpace : Nat) (hn : nSpace = 1 ∨ nSpace = 2 ∨ nSpace = 3)
    (s : Simplex) (phi_dof phi_nodes : Nat → ℚ)
    (hcut : (classify nSpace s phi_dof).isFall = true)
    (hok : NoZeroBeforeNegative nSpace phi_dof phi_nodes) :
    ∃ s1, _calculate_permutation nSpace s phi_dof phi_nodes = some (0, s1) ∧
      s1.phi 0 ≠ 0 ∧
      ∀ i, i < nSpace → s1.phi (i + 1) * s1.phi 0 < 0 ∨ s1.phi (i + 1) = 0 := by
  obtain ⟨s0, s1, h1, h2, hr, _, hp, _, hphi, _⟩ := cut_spec nSpace hn s phi_dof phi_nodes hcut
  have hp' : s1.permutation = finalPermutation nSpace s0.root_node phi_nodes s0.permutation := hp
  obtain ⟨_, hsign, hone⟩ := root_signs nSpace s s0 phi_dof h1
  refine ⟨s1, h2, ?_⟩
  have key : ∀ a b : ℚ, ((a > 0 ∧ b ≤ 0) ∨ (a < 0 ∧ b ≥ 0)) → a ≠ 0 ∧ (b * a < 0 ∨ b = 0) := by
    intro a b hab
    rcases hab with ⟨ha, hb⟩ | ⟨ha, hb⟩
    · refine ⟨ne_of_gt ha, ?_⟩
      rcases eq_or_lt_of_le hb with e | e
      · exact Or.inr e
      · exact Or.inl (by nlinarith)
    · refine ⟨ne_of_lt ha, ?_⟩
      rcases eq_or_lt_of_le hb with e | e
      · exact Or.inr e.symm
      · exact Or.inl (by nlinarith)
  by_cases h2n : 2 ≤ nSpace
  · have hhead := finalPermutation_head nSpace s0.root_node phi_nodes s0.permutation h2n hr
    have h0 : s1.phi 0 = phi_dof s0.root_node := by
      rw [hphi 0 (by omega), hp', hhead]
    have hother : ∀ i, i < nSpace →
        s1.permutation (i + 1) < nSpace + 1 ∧ s1.permutation (i + 1) ≠ s0.root_node := by
      intro i hi
      rw [hp']
      refine ⟨finalPermutation_lt nSpace _ _ _ _ (by omega), fun e => ?_⟩
      have := finalPermutation_inj nSpace s0.root_node phi_nodes s0.permutation (i + 1) 0
        (by omega) (by omega) (e.trans hhead.symm)
      omega
    have hall : ∀ i, i < nSpace → s1.phi 0 ≠ 0 ∧ (s1.phi (i + 1) * s1.phi 0 < 0 ∨
        s1.phi (i + 1) = 0) := by
      intro i hi
      obtain ⟨hl, hne⟩ := hother i hi
      rw [h0, hphi (i + 1) (by omega)]
      apply key
      rcases hsign with ⟨a, _, b⟩ | ⟨a, b⟩
      · exact Or.inl ⟨a, b _ hl hne⟩
      · exact Or.inr ⟨a, b _ hl hne⟩
    exact ⟨(hall 0 (by omega)).1, fun i hi => (hall i hi).2⟩
  · have hn1 : nSpace = 1 := by omega
    subst hn1
    have hr2 : s0.root_node < 2 := hr
    obtain ⟨hsw, hns⟩ := finalPermutation_one s0.root_node phi_nodes s0.permutation hr2
    have hr' : (s0.root_node + 1) % 2 < 2 := Nat.mod_lt _ (by omega)
    have hne' : (s0.root_node + 1) % 2 ≠ s0.root_node := by omega
    have hneg : phi_dof s0.root_node < 0 ∧ phi_dof ((s0.root_node + 1) % 2) ≥ 0 := by
      rcases hsign with ⟨_, c, _⟩ | ⟨a, b⟩
      · omega
      · exact ⟨a, b _ hr' hne'⟩
    have hall : s1.phi 0 ≠ 0 ∧ (s1.phi 1 * s1.phi 0 < 0 ∨ s1.phi 1 = 0) := by
      rw [hphi 0 (by omega), hphi 1 (by omega), hp']
      by_cases hswap : phi_nodes ((s0.root_node + 1) % 2 * 3) < phi_nodes (s0.root_node * 3)
      · obtain ⟨e0, e1⟩ := hsw hswap
        rw [e0, e1]
        have hpos : phi_dof ((s0.root_node + 1) % 2) > 0 := by
          rcases eq_or_lt_of_le hneg.2 with e | e
          · exact absurd hswap (hok rfl _ _ hr' hr2 e.symm hneg.1)
          · exact e
        exact ⟨ne_of_gt hpos, Or.inl (by nlinarith [hneg.1])⟩
      · obtain ⟨e0, e1⟩ := hns hswap
        rw [e0, e1]
        exact key _ _ (Or.inr hneg)
    refine ⟨hall.1, fun i hi => ?_⟩
    have : i = 0 := by omega
    subst this
    exact hall.2

/-- C13: for `nSpace` 1, 2 or 3 and every input classified as cut, on every canonical edge
`i` the cut point left by `_calculate_cuts` is the affine interpolation
`phys_nodes_cut[i] = (1 - X_0[i])*nodes[0] + X_0[i]*nodes[i+1]` in all three stored
components, with `X_0[i] = 1` when `phi[i+1]` is exactly zero, `X_0[i]` the crossing
parameter (strictly between 0 and 1) otherwise, and `X_0[i] = 1/2` when
`phi[i+1] = -phi[0] ≠ 0`. `_calculate_cuts` returns on every such input outside the
one-dimensional configuration excluded by `NoZeroBeforeNegative`. -/
theorem cut_points (nSpace : Nat) (hn : nSpace = 1 ∨ nSpace = 2 ∨ nSpace = 3)
    (s : Simplex) (phi_dof phi_nodes : Nat → ℚ)
    (hcut : (classify nSpace s phi_dof).isFall = true) :
    ∃ s1, _calculate_permutation nSpace s phi_dof phi_nodes = some (0, s1) ∧
      (NoZeroBeforeNegative nSpace phi_dof phi_nodes →
        ∃ s2, _calculate_cuts nSpace s1 = some s2) ∧
      ∀ s2, _calculate_cuts nSpace s1 = some s2 → ∀ i, i < nSpace →
        (s1.phi (i + 1) = 0 → s2.X_0 i = 1) ∧
        (s1.phi (i + 1) ≠ 0 → s2.X_0 i = crossing (s1.phi 0) (s1.phi (i + 1)) ∧
          0 < s2.X_0 i ∧ s2.X_0 i < 1) ∧
        (s1.phi (i + 1) = - s1.phi 0 → s1.phi 0 ≠ 0 → s2.X_0 i = 1 / 2) ∧
        ∀ I, I < 3 → s2.phys_nodes_cut (i * 3 + I)
          = (1 - s2.X_0 i) * s1.nodes I + s2.X_0 i * s1.nodes ((1 + i) * 3 + I) := by
  obtain ⟨_, s1, _, h2, _⟩ := cut_spec nSpace hn s phi_dof phi_nodes hcut
  refine ⟨s1, h2, ?_, ?_⟩
  · intro hok
    obtain ⟨s1', h2', _, hs⟩ := canonical_signs nSpace hn s phi_dof phi_nodes hcut hok
    have e : s1' = s1 := by
      have := h2'.symm.trans h2
      simpa using this
    subst e
    obtain ⟨st, hst⟩ := (cuts_loop s1' nSpace (s1'.X_0, s1'.phys_nodes_cut)).1 hs
    exact ⟨_, by rw [_calculate_cuts_eq, hst]; rfl⟩
  · intro s2 hs2 i hi
    rw [_calculate_cuts_eq] at hs2
    cases hl : forLoopM nSpace (cutsBody s1) (s1.X_0, s1.phys_nodes_cut) with
    | none => rw [hl] at hs2; simp at hs2
    | some st =>
      rw [hl] at hs2
      simp only [Option.map_some', Option.some.injEq] at hs2
      subst hs2
      obtain ⟨hc, hx, hp⟩ := (cuts_loop s1 nSpace (s1.X_0, s1.phys_nodes_cut)).2 st hl i hi
      have hXpos : s1.phi (i + 1) * s1.phi 0 < 0 → st.1 i = crossing (s1.phi 0) (s1.phi (i + 1)) := by
        intro hlt; rw [if_pos hlt] at hx; exact hx
      refine ⟨?_, ?_, ?_, hp⟩
      · intro hz
        have : ¬ s1.phi (i + 1) * s1.phi 0 < 0 := by rw [hz]; simp
        rw [if_neg this] at hx
        exact hx
      · intro hnz
        have hlt : s1.phi (i + 1) * s1.phi 0 < 0 := by
          rcases hc with h | h
          · exact h
          · exact absurd h hnz
        have hcs := crossing_spec (s1.phi 0) (s1.phi (i + 1))
          (by linarith [mul_comm (s1.phi 0) (s1.phi (i + 1))])
        have hX := hXpos hlt
        exact ⟨hX, by show 0 < st.1 i; rw [hX]; exact hcs.2.1,
          by show st.1 i < 1; rw [hX]; exact hcs.2.2.1⟩
      · intro hopp hne
        have hlt : s1.phi (i + 1) * s1.phi 0 < 0 := by
          rw [hopp]
          have : 0 < s1.phi 0 * s1.phi 0 := mul_self_pos.mpr hne
          linarith
        show st.1 i = 1 / 2
        rw [hXpos hlt, hopp]
        unfold crossing
        simp

/-- C13, on the triangle (0,0), (1,0), (0,1) with nodal values -1, 1, 1: the cut points are
the midpoints (0.5, 0, 0) and (0, 0.5, 0) of the two edges leaving the negative vertex. -/
theorem cut_points_witness :
    (∃ s1, _calculate_permutation 2 Simplex.zero (arr [-1, 1, 1])
        (arr [0, 0, 0, 1, 0, 0, 0, 1, 0]) = some (0, s1) ∧
      (NoZeroBeforeNegative 2 (arr [-1, 1, 1]) (arr [0, 0, 0, 1, 0, 0, 0, 1, 0]) →
        ∃ s2, _calculate_cuts 2 s1 = some s2) ∧
      ∀ s2, _calculate_cuts 2 s1 = some s2 → ∀ i, i < 2 →
        (s1.phi (i + 1) = 0 → s2.X_0 i = 1) ∧
        (s1.phi (i + 1) ≠ 0 → s2.X_0 i = crossing (s1.phi 0) (s1.phi (i + 1)) ∧
          0 < s2.X_0 i ∧ s2.X_0 i < 1) ∧
        (s1.phi (i + 1) = - s1.phi 0 → s1.phi 0 ≠ 0 → s2.X_0 i = 1 / 2) ∧
        ∀ I, I < 3 → s2.phys_nodes_cut (i * 3 + I)
          = (1 - s2.X_0 i) * s1.nodes I + s2.X_0 i * s1.nodes ((1 + i) * 3 + I)) ∧
    ((_calculate_permutation 2 Simplex.zero (arr [-1, 1, 1])
        (arr [0, 0, 0, 1, 0, 0, 0, 1, 0])).bind (fun r => _calculate_cuts 2 r.2)).map
      (fun s2 => (s2.X_0 0, s2.X_0 1, (List.range 6).map s2.phys_nodes_cut))
      = some (1 / 2, 1 / 2, [1 / 2, 0, 0, 0, 1 / 2, 0]) :=
  ⟨cut_points 2 (Or.inr (Or.inl rfl)) Simplex.zero (arr [-1, 1, 1])
    (arr [0, 0, 0, 1, 0, 0, 0, 1, 0]) (by decide), by decide!⟩

/-! ## The corrected nodal values -/

theorem _correct_phi_eq (nSpace : Nat) (s : Simplex) (phi_dof phi_nodes : Nat → ℚ) :
    _correct_phi nSpace s phi_dof phi_nodes
      = { s with phi_dof_corrected :=
            forLoop (nSpace + 1) (correctBody nSpace s phi_dof phi_nodes) s.phi_dof_corrected } :=
  rfl

theorem accumulate_other (m k j : Nat) (f : Nat → ℚ) (q : Nat → ℚ) (h : j ≠ k) :
    forLoop m (fun I pc => setAt pc k (pc k + f I)) q j = q j := by
  induction m with
  | zero => rfl
  | succ m ih => simp only [forLoop, setAt, if_neg h, ih]

theorem correctBody_other (nSpace : Nat) (s : Simplex) (phi_dof phi_nodes : Nat → ℚ)
    (i j : Nat) (pc : Nat → ℚ) (h : j ≠ i) :
    correctBody nSpace s phi_dof phi_nodes i pc j = pc j := by
  unfold correctBody
  split_ifs
  · simp only [setAt, if_neg h]
    rw [accumulate_other _ _ _ _ _ h]
    simp [setAt, h]
  · rw [accumulate_other _ _ _ _ _ h]
    simp [setAt, h]

theorem correctBody_same (nSpace : Nat) (s : Simplex) (phi_dof phi_nodes : Nat → ℚ)
    (i : Nat) (pc : Nat → ℚ) :
    ∃ v, correctBody nSpace s phi_dof phi_nodes i pc i
      = if v * phi_dof i < 0 then v * (-1) else v := by
  refine ⟨forLoop nSpace (fun I pc =>
      setAt pc i (pc i + s.level_set_normal I * (phi_nodes (i * 3 + I) - cutBarycenter nSpace s I)))
    (setAt pc i 0) i, ?_⟩
  unfold correctBody
  split_ifs
  · simp [setAt]
  · rfl

/-- After the vertex loop of `_correct_phi`, every entry is a value `v`, negated when
`v * phi_dof[i] < 0`. -/
theorem correct_loop (nSpace : Nat) (s : Simplex) (phi_dof phi_nodes : Nat → ℚ) (n : Nat)
    (pc0 : Nat → ℚ) (i : Nat) (hi : i < n) :
    ∃ v, forLoop n (correctBody nSpace s phi_dof phi_nodes) pc0 i
      = if v * phi_dof i < 0 then v * (-1) else v := by
  induction n with
  | zero => exact absurd hi (Nat.not_lt_zero i)
  | succ n ih =>
    simp only [forLoop]
    by_cases h : i = n
    · subst h
      exact correctBody_same nSpace s phi_dof phi_nodes i _
    · rw [correctBody_other _ _ _ _ _ _ _ h]
      exact ih (by omega)

theorem flipped_sign (v p : ℚ) :
    (if v * p < 0 then v * (-1) else v) * p ≥ 0 := by
  split_ifs with h
  · nlinarith
  · linarith [not_lt.mp h]

/-- The cut branch of `calculate`. -/
theorem calculate_cut (K : Kernels) (nSpace nP nQ : Nat) (s s1 : Simplex)
    (phi_dof phi_nodes xi_r : Nat → ℚ)
    (h : _calculate_permutation nSpace
      { s with phi_dof_corrected :=
          forLoop (nSpace + 1) (fun i pc => setAt pc i (phi_dof i)) s.phi_dof_corrected }
      phi_dof phi_nodes = some (0, s1)) :
    calculate K nSpace nP nQ s phi_dof phi_nodes xi_r
      = (_calculate_cuts nSpace s1).bind (fun s2 =>
          set_quad nQ (evalQuadrature K nSpace nP nQ
            (_correct_phi nSpace
              (_calculate_C K nSpace nP
                { s2 with level_set_normal := K._calculate_normal nSpace s2.phys_nodes_cut })
              phi_dof phi_nodes) phi_nodes xi_r) 0) := by
  unfold calculate
  simp only [h]
  cases _calculate_cuts nSpace s1 <;> simp

theorem isFall_state (nSpace : Nat) (s t : Simplex) (phi_dof : Nat → ℚ) :
    (classify nSpace s phi_dof).isFall = (classify nSpace t phi_dof).isFall := by
  rw [Bool.eq_iff_iff, classify_isFall_iff nSpace s phi_dof, classify_isFall_iff nSpace t phi_dof]

/-- What `calculate` leaves on a cut: it returns whenever `_calculate_cuts` does and
`nQ > 0`, and then `phi_dof_corrected` is the one written by `_correct_phi`; the flag and
the canonical data are those of `_calculate_permutation`. -/
theorem calculate_cut_result (K : Kernels) (nSpace : Nat)
    (hn : nSpace = 1 ∨ nSpace = 2 ∨ nSpace = 3) (nP nQ : Nat) (s : Simplex)
    (phi_dof phi_nodes xi_r : Nat → ℚ)
    (hcut : (classify nSpace s phi_dof).isFall = true) :
    (NoZeroBeforeNegative nSpace phi_dof phi_nodes → 0 < nQ →
      ∃ s3, calculate K nSpace nP nQ s phi_dof phi_nodes xi_r = some s3) ∧
    ∀ s3, calculate K nSpace nP nQ s phi_dof phi_nodes xi_r = some s3 →
      ∃ t : Simplex, s3.phi_dof_corrected
        = forLoop (nSpace + 1) (correctBody nSpace t phi_dof phi_nodes) t.phi_dof_corrected := by
  have hcut' : (classify nSpace
      { s with phi_dof_corrected :=
          forLoop (nSpace + 1) (fun i pc => setAt pc i (phi_dof i)) s.phi_dof_corrected }
      phi_dof).isFall = true := by
    rw [← hcut]; exact isFall_state nSpace _ _ phi_dof
  constructor
  · intro hok hq
    obtain ⟨s1, h1, _, hs⟩ := canonical_signs nSpace hn _ phi_dof phi_nodes hcut' hok
    obtain ⟨st, hst⟩ := (cuts_loop s1 nSpace (s1.X_0, s1.phys_nodes_cut)).1 hs
    rw [calculate_cut K nSpace nP nQ s s1 phi_dof phi_nodes xi_r h1, _calculate_cuts_eq, hst]
    simp only [Option.map_some', Option.some_bind]
    exact ⟨_, set_quad_some nQ _ 0 hq⟩
  · intro s3 hs3
    obtain ⟨_, s1, _, h1, _⟩ := cut_spec nSpace hn _ phi_dof phi_nodes hcut'
    rw [calculate_cut K nSpace nP nQ s s1 phi_dof phi_nodes xi_r h1] at hs3
    cases hc : _calculate_cuts nSpace s1 with
    | none => rw [hc] at hs3; simp at hs3
    | some s2 =>
      rw [hc] at hs3
      simp only [Option.some_bind] at hs3
      by_cases hq : 0 < nQ
      · rw [set_quad_some nQ _ 0 hq] at hs3
        simp only [Option.some.injEq] at hs3
        subst hs3
        exact ⟨_calculate_C K nSpace nP
          { s2 with level_set_normal := K._calculate_normal nSpace s2.phys_nodes_cut }, rfl⟩
      · simp [set_quad, hq] at hs3

/-! ## The canonical quadrature coordinate -/

theorem evalQuadrature_eq (K : Kernels) (nSpace nP nQ : Nat) (s : Simplex)
    (phi_nodes xi_r : Nat → ℚ) :
    evalQuadrature K nSpace nP nQ s phi_nodes xi_r
      = { s with
          _H := (forLoop nQ (quadratureBody K nSpace nP s phi_nodes xi_r)
            (s._H, s._ImH, s._D)).1,
          _ImH := (forLoop nQ (quadratureBody K nSpace nP s phi_nodes xi_r)
            (s._H, s._ImH, s._D)).2.1,
          _D := (forLoop nQ (quadratureBody K nSpace nP s phi_nodes xi_r)
            (s._H, s._ImH, s._D)).2.2 } := rfl

theorem accumulate_same (m k : Nat) (f : Nat → ℚ) (q : Nat → ℚ) :
    forLoop m (fun I pc => setAt pc k (pc k + f I)) q k
      = q k + ∑ J in Finset.range m, f J := by
  induction m with
  | zero => simp [forLoop]
  | succ m ih =>
    simp only [forLoop, setAt_same, ih, Finset.sum_range_succ]
    ring

/-- The matrix-vector loops of `calculate`: entry `I` is `c I + Σ_J A[I*n+J] * b J`. -/
theorem matvec_loop (n m : Nat) (A b c x0 : Nat → ℚ) (I : Nat) (hI : I < m) :
    forLoop m (fun I (x : Nat → ℚ) =>
        forLoop n (fun J x => setAt x I (x I + A (I * n + J) * b J)) (setAt x I (c I))) x0 I
      = c I + ∑ J in Finset.range n, A (I * n + J) * b J := by
  induction m with
  | zero => exact absurd hI (Nat.not_lt_zero I)
  | succ m ih =>
    simp only [forLoop]
    by_cases h : I = m
    · subst h
      rw [accumulate_same]
      simp [setAt]
    · rw [accumulate_other _ _ _ _ _ h]
      simp only [setAt, if_neg h]
      exact ih (by omega)

theorem Jac_0_eq (nSpace : Nat) (hn : nSpace = 1 ∨ nSpace = 2 ∨ nSpace = 3)
    (phi_nodes : Nat → ℚ) (i I : Nat) (hi : i < nSpace) (hI : I < nSpace) :
    Jac_0 nSpace phi_nodes (I * nSpace + i) = phi_nodes ((i + 1) * 3 + I) - phi_nodes I := by
  rw [Nat.add_comm i 1]
  exact jac_loop nSpace hn phi_nodes _ i I hi hI

theorem physPoint_eq (nSpace : Nat) (phi_nodes xi_r : Nat → ℚ) (q I : Nat) (hI : I < nSpace) :
    physPoint nSpace phi_nodes xi_r q I
      = phi_nodes I + ∑ J in Finset.range nSpace,
          Jac_0 nSpace phi_nodes (I * nSpace + J) * xi_r (q * 3 + J) :=
  matvec_loop nSpace nSpace (Jac_0 nSpace phi_nodes) (fun J => xi_r (q * 3 + J)) phi_nodes _ I hI

theorem xiOf_eq (nSpace : Nat) (s : Simplex) (phi_nodes xi_r : Nat → ℚ) (q I : Nat)
    (hI : I < nSpace) :
    xiOf nSpace s phi_nodes xi_r q I
      = ∑ J in Finset.range nSpace, s.inv_Jac (I * nSpace + J)
          * (physPoint nSpace phi_nodes xi_r q J - s.nodes J) := by
  have := matvec_loop nSpace nSpace s.inv_Jac
    (fun J => physPoint nSpace phi_nodes xi_r q J - s.nodes J) (fun _ => 0) (fun _ => 0) I hI
  simpa using this

theorem inv_entries_three (A o : Nat → ℚ) :
    inv 3 A o 0 = (A 4 * A 8 - A 5 * A 7) / det 3 A ∧
    inv 3 A o 1 = (A 2 * A 7 - A 1 * A 8) / det 3 A ∧
    inv 3 A o 2 = (A 1 * A 5 - A 2 * A 4) / det 3 A ∧
    inv 3 A o 3 = (A 5 * A 6 - A 3 * A 8) / det 3 A ∧
    inv 3 A o 4 = (A 0 * A 8 - A 2 * A 6) / det 3 A ∧
    inv 3 A o 5 = (A 2 * A 3 - A 0 * A 5) / det 3 A ∧
    inv 3 A o 6 = (A 3 * A 7 - A 4 * A 6) / det 3 A ∧
    inv 3 A o 7 = (A 1 * A 6 - A 0 * A 7) / det 3 A ∧
    inv 3 A o 8 = (A 0 * A 4 - A 1 * A 3) / det 3 A := by
  refine ⟨?_, ?_, ?_, ?_, ?_, ?_, ?_, ?_, ?_⟩ <;> simp [inv, setAt]

theorem inv_entries_two (A o : Nat → ℚ) :
    inv 2 A o 0 = A 3 / det 2 A ∧ inv 2 A o 1 = -A 1 / det 2 A ∧
    inv 2 A o 2 = -A 2 / det 2 A ∧ inv 2 A o 3 = A 0 / det 2 A := by
  refine ⟨?_, ?_, ?_, ?_⟩ <;> simp [inv, setAt]

theorem inv_entries_one (A o : Nat → ℚ) : inv 1 A o 0 = 1 / det 1 A := by
  simp [inv, setAt]

/-- The modelled `inv` is a two-sided inverse when the determinant is not zero. -/
theorem inv_spec (nSpace : Nat) (hn : nSpace = 1 ∨ nSpace = 2 ∨ nSpace = 3)
    (A o : Nat → ℚ) (hd : det nSpace A ≠ 0) (I L : Nat) (hI : I < nSpace) (hL : L < nSpace) :
    (∑ J in Finset.range nSpace, A (I * nSpace + J) * inv nSpace A o (J * nSpace + L)
      = if I = L then 1 else 0) ∧
    (∑ J in Finset.range nSpace, inv nSpace A o (I * nSpace + J) * A (J * nSpace + L)
      = if I = L then 1 else 0) := by
  rcases hn with h | h | h <;> subst h
  · have e := inv_entries_one A o
    interval_cases I
    interval_cases L
    norm_num [Finset.sum_range_succ]
    rw [e]
    simp only [det] at hd ⊢
    field_simp
  · obtain ⟨e0, e1, e2, e3⟩ := inv_entries_two A o
    interval_cases I <;> interval_cases L <;> norm_num [Finset.sum_range_succ] <;>
      simp only [e0, e1, e2, e3] <;> constructor <;> field_simp <;>
      (try simp only [det]) <;> ring
  · obtain ⟨e0, e1, e2, e3, e4, e5, e6, e7, e8⟩ := inv_entries_three A o
    interval_cases I <;> interval_cases L <;> norm_num [Finset.sum_range_succ] <;>
      simp only [e0, e1, e2, e3, e4, e5, e6, e7, e8] <;> constructor <;> field_simp <;>
      (try simp only [det]) <;> ring

theorem mat_cancel (n : Nat) (P Q d : Nat → ℚ) (I : Nat) (hI : I < n)
    (h : ∀ L, L < n → ∑ J in Finset.range n, P (I * n + J) * Q (J * n + L)
      = if I = L then 1 else 0) :
    ∑ J in Finset.range n, P (I * n + J) * (∑ L in Finset.range n, Q (J * n + L) * d L)
      = d I := by
  have h1 : ∀ J, J ∈ Finset.range n →
      P (I * n + J) * (∑ L in Finset.range n, Q (J * n + L) * d L)
        = ∑ L in Finset.range n, P (I * n + J) * Q (J * n + L) * d L := by
    intro J _
    rw [Finset.mul_sum]
    exact Finset.sum_congr rfl (fun L _ => by ring)
  rw [Finset.sum_congr rfl h1, Finset.sum_comm]
  have h2 : ∀ L, L ∈ Finset.range n →
      ∑ J in Finset.range n, P (I * n + J) * Q (J * n + L) * d L
        = (if I = L then 1 else 0) * d L := by
    intro L hL
    rw [← Finset.sum_mul, h L (Finset.mem_range.mp hL)]
  rw [Finset.sum_congr rfl h2]
  simp [Finset.sum_ite_eq, hI]

theorem canonicalize_inv (nSpace : Nat) (s : Simplex) (phi_dof phi_nodes : Nat → ℚ)
    (v : Int) (s1 : Simplex) (h : canonicalize nSpace s phi_dof phi_nodes = some (v, s1)) :
    ∃ o, s1.inv_Jac = inv nSpace s1.Jac o := by
  rw [canonicalize_eq] at h
  split_ifs at h <;> simp only [Option.some.injEq, Prod.mk.injEq] at h <;>
    obtain ⟨_, h⟩ := h <;> subst h <;> exact ⟨_, rfl⟩

/-- On a cut with affinely independent vertices the Jacobian left by
`_calculate_permutation` has positive determinant and `inv_Jac` is its inverse. -/
theorem cut_jacobian (nSpace : Nat) (hn : nSpace = 1 ∨ nSpace = 2 ∨ nSpace = 3)
    (s : Simplex) (phi_dof phi_nodes : Nat → ℚ)
    (hcut : (classify nSpace s phi_dof).isFall = true)
    (haff : AffinelyIndependent nSpace phi_nodes) :
    ∃ s1, _calculate_permutation nSpace s phi_dof phi_nodes = some (0, s1) ∧
      0 < det nSpace s1.Jac ∧ (∃ o, s1.inv_Jac = inv nSpace s1.Jac o) ∧
      (∀ i I, i < nSpace + 1 → I < 3 →
        s1.nodes (i * 3 + I) = phi_nodes (s1.permutation i * 3 + I)) ∧
      (∀ i I, i < nSpace → I < nSpace → s1.Jac (I * nSpace + i)
        = phi_nodes (s1.permutation (i + 1) * 3 + I) - phi_nodes (s1.permutation 0 * 3 + I)) := by
  obtain ⟨s0, s1, h1, h2, hr, _, hp, _, _, hnodes, hJ, hdet, h0⟩ :=
    cut_spec nSpace hn s phi_dof phi_nodes hcut
  have hcan : canonicalize nSpace s0 phi_dof phi_nodes = some (0, s1) := by
    simpa [_calculate_permutation, h1] using h2
  refine ⟨s1, h2, ?_, canonicalize_inv nSpace s0 phi_dof phi_nodes 0 s1 hcan, hnodes, hJ⟩
  have hid := det_ne_zero_of_affinelyIndependent nSpace hn phi_nodes haff
  have hrot : det nSpace (jacOf nSpace phi_nodes
      (rotation nSpace s0.root_node s0.permutation)) ≠ 0 := by
    rcases det_rotation nSpace hn phi_nodes s0.root_node hr s0.permutation with e | e
    · rw [e]; exact hid
    · rw [e]; exact neg_ne_zero.mpr hid
  have hne : det nSpace s1.Jac ≠ 0 := by
    rw [hdet, hp]
    split_ifs
    · rw [det_jacOf_swapLast nSpace hn]; exact neg_ne_zero.mpr hrot
    · exact hrot
  exact lt_of_le_of_ne h0 (Ne.symm hne)

/-- C15: for `nSpace` 1, 2 or 3, every input classified as cut with affinely independent
vertices and every quadrature index `q`, the canonical coordinate `xi` that `calculate`
hands to the polynomial evaluator denotes the caller's physical point,
`nodes[0] + Jac*xi = phi_nodes[0] + Jac_0*xi_r[q]`; `xi = xi_r[q]` when the final
permutation is the identity; and the steps of `calculate` between
`_calculate_permutation` and the quadrature loop do not change that `xi`. -/
theorem canonical_point (K : Kernels) (nSpace : Nat)
    (hn : nSpace = 1 ∨ nSpace = 2 ∨ nSpace = 3) (nP : Nat) (s : Simplex)
    (phi_dof phi_nodes xi_r : Nat → ℚ)
    (hcut : (classify nSpace s phi_dof).isFall = true)
    (haff : AffinelyIndependent nSpace phi_nodes) :
    ∃ s1, _calculate_permutation nSpace s phi_dof phi_nodes = some (0, s1) ∧
      (∀ q I, I < nSpace →
        s1.nodes I + ∑ J in Finset.range nSpace,
            s1.Jac (I * nSpace + J) * xiOf nSpace s1 phi_nodes xi_r q J
          = phi_nodes I + ∑ J in Finset.range nSpace,
            Jac_0 nSpace phi_nodes (I * nSpace + J) * xi_r (q * 3 + J)) ∧
      ((∀ i, i < nSpace + 1 → s1.permutation i = i) →
        ∀ q J, J < nSpace → xiOf nSpace s1 phi_nodes xi_r q J = xi_r (q * 3 + J)) ∧
      (∀ s2, _calculate_cuts nSpace s1 = some s2 → ∀ q,
        xiOf nSpace
            (_correct_phi nSpace
              (_calculate_C K nSpace nP
                { s2 with level_set_normal := K._calculate_normal nSpace s2.phys_nodes_cut })
              phi_dof phi_nodes) phi_nodes xi_r q
          = xiOf nSpace s1 phi_nodes xi_r q) := by
  obtain ⟨s1, h2, hpos, ⟨o, hinv⟩, hnodes, hJ⟩ :=
    cut_jacobian nSpace hn s phi_dof phi_nodes hcut haff
  have hd : det nSpace s1.Jac ≠ 0 := ne_of_gt hpos
  have hxi : ∀ q J, J < nSpace → xiOf nSpace s1 phi_nodes xi_r q J
      = ∑ L in Finset.range nSpace, inv nSpace s1.Jac o (J * nSpace + L)
          * (physPoint nSpace phi_nodes xi_r q L - s1.nodes L) := by
    intro q J hJ'
    rw [xiOf_eq nSpace s1 phi_nodes xi_r q J hJ', hinv]
  refine ⟨s1, h2, ?_, ?_, ?_⟩
  · intro q I hI
    rw [← physPoint_eq nSpace phi_nodes xi_r q I hI]
    have h1 : ∑ J in Finset.range nSpace,
        s1.Jac (I * nSpace + J) * xiOf nSpace s1 phi_nodes xi_r q J
        = ∑ J in Finset.range nSpace, s1.Jac (I * nSpace + J)
            * (∑ L in Finset.range nSpace, inv nSpace s1.Jac o (J * nSpace + L)
                * (physPoint nSpace phi_nodes xi_r q L - s1.nodes L)) :=
      Finset.sum_congr rfl (fun J hJ' => by rw [hxi q J (Finset.mem_range.mp hJ')])
    rw [h1, mat_cancel nSpace s1.Jac (inv nSpace s1.Jac o)
      (fun L => physPoint nSpace phi_nodes xi_r q L - s1.nodes L) I hI
      (fun L hL => (inv_spec nSpace hn s1.Jac o hd I L hI hL).1)]
    ring
  · intro hid q J hJ'
    have hJac : ∀ L M, L < nSpace → M < nSpace →
        Jac_0 nSpace phi_nodes (L * nSpace + M) = s1.Jac (L * nSpace + M) := by
      intro L M hL hM
      rw [Jac_0_eq nSpace hn phi_nodes M L hM hL, hJ M L hM hL, hid (M + 1) (by omega),
        hid 0 (by omega)]
      simp
    have hnd : ∀ L, L < nSpace → s1.nodes L = phi_nodes L := by
      intro L hL
      have := hnodes 0 L (by omega) (by omega)
      rw [hid 0 (by omega)] at this
      simpa using this
    have hdiff : ∀ L, L ∈ Finset.range nSpace →
        inv nSpace s1.Jac o (J * nSpace + L)
            * (physPoint nSpace phi_nodes xi_r q L - s1.nodes L)
          = inv nSpace s1.Jac o (J * nSpace + L)
            * (∑ M in Finset.range nSpace, s1.Jac (L * nSpace + M) * xi_r (q * 3 + M)) := by
      intro L hL
      have hL' := Finset.mem_range.mp hL
      rw [physPoint_eq nSpace phi_nodes xi_r q L hL', hnd L hL']
      congr 1
      rw [add_sub_cancel_left]
      exact Finset.sum_congr rfl (fun M hM => by rw [hJac L M hL' (Finset.mem_range.mp hM)])
    rw [hxi q J hJ', Finset.sum_congr rfl hdiff]
    exact mat_cancel nSpace (inv nSpace s1.Jac o) s1.Jac (fun M => xi_r (q * 3 + M)) J hJ'
      (fun L hL => (inv_spec nSpace hn s1.Jac o hd J L hJ' hL).2)
  · intro s2 hs2 q
    rw [_calculate_cuts_eq] at hs2
    cases hl : forLoopM nSpace (cutsBody s1) (s1.X_0, s1.phys_nodes_cut) with
    | none => rw [hl] at hs2; simp at hs2
    | some st =>
      rw [hl] at hs2
      simp only [Option.map_some', Option.some.injEq] at hs2
      subst hs2
      rfl

/-- C15, on the triangle (0,0), (0,1), (1,0) with nodal values 1, -1, 1 (final permutation
1, 0, 2) and the reference point (1/3, 1/3): the canonical coordinate is (1/3, 1/3). -/
theorem canonical_point_witness :
    (∃ s1, _calculate_permutation 2 Simplex.zero (arr [1, -1, 1])
        (arr [0, 0, 0, 0, 1, 0, 1, 0, 0]) = some (0, s1) ∧
      (∀ q I, I < 2 →
        s1.nodes I + ∑ J in Finset.range 2,
            s1.Jac (I * 2 + J)
              * xiOf 2 s1 (arr [0, 0, 0, 0, 1, 0, 1, 0, 0]) (arr [1 / 3, 1 / 3, 0]) q J
          = arr [0, 0, 0, 0, 1, 0, 1, 0, 0] I + ∑ J in Finset.range 2,
            Jac_0 2 (arr [0, 0, 0, 0, 1, 0, 1, 0, 0]) (I * 2 + J)
              * arr [1 / 3, 1 / 3, 0] (q * 3 + J)) ∧
      ((∀ i, i < 2 + 1 → s1.permutation i = i) →
        ∀ q J, J < 2 →
          xiOf 2 s1 (arr [0, 0, 0, 0, 1, 0, 1, 0, 0]) (arr [1 / 3, 1 / 3, 0]) q J
            = arr [1 / 3, 1 / 3, 0] (q * 3 + J)) ∧
      (∀ s2, _calculate_cuts 2 s1 = some s2 → ∀ q,
        xiOf 2
            (_correct_phi 2
              (_calculate_C Kernels.zero 2 1
                { s2 with
                  level_set_normal := Kernels.zero._calculate_normal 2 s2.phys_nodes_cut })
              (arr [1, -1, 1]) (arr [0, 0, 0, 0, 1, 0, 1, 0, 0]))
            (arr [0, 0, 0, 0, 1, 0, 1, 0, 0]) (arr [1 / 3, 1 / 3, 0]) q
          = xiOf 2 s1 (arr [0, 0, 0, 0, 1, 0, 1, 0, 0]) (arr [1 / 3, 1 / 3, 0]) q)) ∧
    (_calculate_permutation 2 Simplex.zero (arr [1, -1, 1])
        (arr [0, 0, 0, 0, 1, 0, 1, 0, 0])).map
      (fun r => (r.2.permutation 0, r.2.permutation 1, r.2.permutation 2,
        xiOf 2 r.2 (arr [0, 0, 0, 0, 1, 0, 1, 0, 0]) (arr [1 / 3, 1 / 3, 0]) 0 0,
        xiOf 2 r.2 (arr [0, 0, 0, 0, 1, 0, 1, 0, 0]) (arr [1 / 3, 1 / 3, 0]) 0 1))
      = some (1, 0, 2, 1 / 3, 1 / 3) :=
  ⟨canonical_point Kernels.zero 2 (Or.inr (Or.inl rfl)) 1 Simplex.zero (arr [1, -1, 1])
    (arr [0, 0, 0, 0, 1, 0, 1, 0, 0]) (arr [1 / 3, 1 / 3, 0]) (by decide)
    (by
      intro w h0 h1 i hi
      have a := h1 0 (by omega)
      have b := h1 1 (by omega)
      simp [Finset.sum_range_succ, arr] at a b h0
      interval_cases i <;> linarith),
   by decide!⟩

/-- Relabelling a segment changes the canonical coordinate handed to the evaluator: with
nodal values -1, 1 at x = 0, 1 and the reference point 1/4 the coordinate is 1/4; with the
two vertices exchanged (values 1, -1 at x = 1, 0) the canonical nodal values and nodes are
the same and the coordinate is 3/4. -/
theorem relabelled_segment_xi :
    (_calculate_permutation 1 Simplex.zero (arr [-1, 1]) (arr [0, 0, 0, 1, 0, 0])).map
      (fun r => (r.2.phi 0, r.2.phi 1, r.2.nodes 0, r.2.nodes 3, r.2.inside_out,
        xiOf 1 r.2 (arr [0, 0, 0, 1, 0, 0]) (arr [1 / 4, 0, 0]) 0 0))
      = some (-1, 1, 0, 1, false, 1 / 4) ∧
    (_calculate_permutation 1 Simplex.zero (arr [1, -1]) (arr [1, 0, 0, 0, 0, 0])).map
      (fun r => (r.2.phi 0, r.2.phi 1, r.2.nodes 0, r.2.nodes 3, r.2.inside_out,
        xiOf 1 r.2 (arr [1, 0, 0, 0, 0, 0]) (arr [1 / 4, 0, 0]) 0 0))
      = some (-1, 1, 0, 1, false, 3 / 4) :=
  ⟨by decide!, by decide!⟩

/-! ## The dispatcher -/

/-- C21: for `GeneralizedFunctions_mix`, when `useExact` is false the accessors `H`, `ImH`,
`D` are those of `Regularized` for every `eps` and `phi`, whatever the state of the exact
engine (so also after any `calculate` or `set_quad`), and `set_quad(q)` changes no state;
when `useExact` is true `set_quad(q)` is `exact.set_quad(q)` and the accessors return the
active values of the exact engine. -/
theorem mix_dispatch (sin cos : ℚ → ℚ) (pi : ℚ) (nQ : Nat) (g : GeneralizedFunctions_mix)
    (q : Nat) :
    (g.useExact = false →
      (∀ eps phi, g.H sin pi eps phi = Regularized.H sin pi eps phi ∧
        g.ImH sin pi eps phi = Regularized.ImH sin pi eps phi ∧
        g.D cos pi eps phi = Regularized.D cos pi eps phi) ∧
      g.set_quad nQ q = some g ∧
      (∀ K nSpace nP phi_dof phi_nodes xi_r g1,
        g.calculate K nSpace nP nQ phi_dof phi_nodes xi_r = some g1 →
        g1.useExact = false ∧
        ∀ eps phi, g1.H sin pi eps phi = Regularized.H sin pi eps phi ∧
          g1.ImH sin pi eps phi = Regularized.ImH sin pi eps phi ∧
          g1.D cos pi eps phi = Regularized.D cos pi eps phi)) ∧
    (g.useExact = true →
      g.set_quad nQ q
        = (equivalent_polynomials.set_quad nQ g.exact q).map (fun e => { g with exact := e }) ∧
      ∀ eps phi, g.H sin pi eps phi = g.exact._H_q ∧ g.ImH sin pi eps phi = g.exact._ImH_q ∧
        g.D cos pi eps phi = g.exact._D_q) := by
  constructor
  · intro h
    refine ⟨?_, ?_, ?_⟩
    · intro eps phi
      simp [GeneralizedFunctions_mix.H, GeneralizedFunctions_mix.ImH,
        GeneralizedFunctions_mix.D, h]
    · simp [GeneralizedFunctions_mix.set_quad, h]
    · intro K nSpace nP phi_dof phi_nodes xi_r g1 hg1
      unfold GeneralizedFunctions_mix.calculate at hg1
      cases hc : equivalent_polynomials.calculate K nSpace nP nQ g.exact phi_dof phi_nodes xi_r with
      | none => rw [hc] at hg1; simp at hg1
      | some e =>
        rw [hc] at hg1
        simp only [Option.map_some', Option.some.injEq] at hg1
        subst hg1
        refine ⟨h, ?_⟩
        intro eps phi
        simp [GeneralizedFunctions_mix.H, GeneralizedFunctions_mix.ImH,
          GeneralizedFunctions_mix.D, h]
  · intro h
    refine ⟨by simp [GeneralizedFunctions_mix.set_quad, h], ?_⟩
    intro eps phi
    simp [GeneralizedFunctions_mix.H, GeneralizedFunctions_mix.ImH,
      GeneralizedFunctions_mix.D, h, Simplex.H, Simplex.ImH, Simplex.D]

/-- C21, on a dispatcher with `useExact` false (stand-ins for `sin`, `cos`, `M_PI`) and on
one with `useExact` true after `_H[1] = 7`. -/
theorem mix_dispatch_witness :
    ((∀ eps phi : ℚ,
        GeneralizedFunctions_mix.H (fun x => x) 3 ⟨Simplex.zero, false⟩ eps phi
          = Regularized.H (fun x => x) 3 eps phi ∧
        GeneralizedFunctions_mix.ImH (fun x => x) 3 ⟨Simplex.zero, false⟩ eps phi
          = Regularized.ImH (fun x => x) 3 eps phi ∧
        GeneralizedFunctions_mix.D (fun x => x) 3 ⟨Simplex.zero, false⟩ eps phi
          = Regularized.D (fun x => x) 3 eps phi) ∧
      GeneralizedFunctions_mix.set_quad 2 ⟨Simplex.zero, false⟩ 1
        = some ⟨Simplex.zero, false⟩) ∧
    GeneralizedFunctions_mix.set_quad 2 ⟨{ Simplex.zero with _H := arr [5, 7] }, true⟩ 1
      = (equivalent_polynomials.set_quad 2 { Simplex.zero with _H := arr [5, 7] } 1).map
          (fun e => { (⟨{ Simplex.zero with _H := arr [5, 7] }, true⟩ :
            GeneralizedFunctions_mix) with exact := e }) :=
  ⟨⟨((mix_dispatch (fun x => x) (fun x => x) 3 2 ⟨Simplex.zero, false⟩ 1).1 rfl).1,
    ((mix_dispatch (fun x => x) (fun x => x) 3 2 ⟨Simplex.zero, false⟩ 1).1 rfl).2.1⟩,
   ((mix_dispatch (fun x => x) (fun x => x) 3 2
      ⟨{ Simplex.zero with _H := arr [5, 7] }, true⟩ 1).2 rfl).1⟩

/-! ## The basis size -/

theorem six_mul_choose_three (n : Nat) :
    6 * Nat.choose (n + 3) 3 = (n + 1) * (n + 2) * (n + 3) := by
  induction n with
  | zero => decide
  | succ n ih =>
    have h2 : 2 * Nat.choose (n + 3) 2 = (n + 3) * (n + 2) := by
      rw [Nat.choose_two_right]
      have : 2 ∣ (n + 3) * (n + 3 - 1) := by
        have := Nat.even_mul_pred_self (n + 3)
        exact even_iff_two_dvd.mp this
      rw [Nat.mul_div_cancel' this]
      simp
    have h3 : Nat.choose (n + 1 + 3) 3 = Nat.choose (n + 3) 2 + Nat.choose (n + 3) 3 := by
      rw [show n + 1 + 3 = (n + 3) + 1 from rfl, Nat.choose_succ_succ]
    rw [h3]
    nlinarith

theorem two_mul_choose_two (n : Nat) : 2 * Nat.choose (n + 2) 2 = (n + 1) * (n + 2) := by
  rw [Nat.choose_two_right]
  have : 2 ∣ (n + 2) * (n + 2 - 1) := even_iff_two_dvd.mp (Nat.even_mul_pred_self (n + 2))
  rw [Nat.mul_div_cancel' this]
  simp [Nat.mul_comm]

/-- C22: for every degree `nP ≥ 0`, the integer expression of `nDOF` (truncating division)
is `nP+1` for `nSpace = 1`, `(nP+1)(nP+2)/2` for `nSpace = 2` and `(nP+1)(nP+2)(nP+3)/6` for
`nSpace = 3`, which is `binomial(nP+nSpace, nSpace)` in each case, so the constructor passes
its assertions; for every other `nSpace` the constructor stops at `assert(false)`. -/
theorem nDOF_spec (K : Kernels) (nP : Nat) (s : Simplex) :
    nDOF 1 nP = nP + 1 ∧
    nDOF 2 nP = Int.tdiv (((nP : Int) + 1) * (nP + 2)) 2 ∧
    nDOF 3 nP = Int.tdiv (((nP : Int) + 1) * (nP + 2) * (nP + 3)) 6 ∧
    nDOF 1 nP = Nat.choose (nP + 1) 1 ∧
    nDOF 2 nP = Nat.choose (nP + 2) 2 ∧
    nDOF 3 nP = Nat.choose (nP + 3) 3 ∧
    (∀ nSpace : Int, nSpace = 1 ∨ nSpace = 2 ∨ nSpace = 3 →
      ∃ s1, Simplex.construct K nSpace nP s = some s1) ∧
    (∀ nSpace nP1 : Int, ¬ (nSpace = 1 ∨ nSpace = 2 ∨ nSpace = 3) →
      Simplex.construct K nSpace nP1 s = none) := by
  have h1 : nDOF 1 nP = nP + 1 := by
    simp [nDOF]
  have h2 : nDOF 2 nP = Int.tdiv (((nP : Int) + 1) * (nP + 2)) 2 := by
    simp [nDOF]
  have h3 : nDOF 3 nP = Int.tdiv (((nP : Int) + 1) * (nP + 2) * (nP + 3)) 6 := by
    simp [nDOF]
  have c2 : Int.tdiv (((nP : Int) + 1) * (nP + 2)) 2 = Nat.choose (nP + 2) 2 := by
    have := two_mul_choose_two nP
    have e : ((nP : Int) + 1) * (nP + 2) = 2 * (Nat.choose (nP + 2) 2 : Int) := by
      exact_mod_cast this.symm
    rw [e, Int.mul_tdiv_cancel_left _ (by norm_num)]
  have c3 : Int.tdiv (((nP : Int) + 1) * (nP + 2) * (nP + 3)) 6 = Nat.choose (nP + 3) 3 := by
    have := six_mul_choose_three nP
    have e : ((nP : Int) + 1) * (nP + 2) * (nP + 3) = 6 * (Nat.choose (nP + 3) 3 : Int) := by
      exact_mod_cast this.symm
    rw [e, Int.mul_tdiv_cancel_left _ (by norm_num)]
  refine ⟨h1, h2, h3, ?_, ?_, ?_, ?_, ?_⟩
  · rw [h1]; simp
  · rw [h2, c2]
  · rw [h3, c3]
  · intro nSpace hn
    rcases hn with h | h | h <;> subst h
    · exact ⟨{ s with Ainv := K._set_Ainv 1 nP }, by simp [Simplex.construct, h1]⟩
    · exact ⟨{ s with Ainv := K._set_Ainv 2 nP }, by simp [Simplex.construct, h2]⟩
    · exact ⟨{ s with Ainv := K._set_Ainv 3 nP }, by simp [Simplex.construct, h3]⟩
  · intro nSpace nP1 hn
    push_neg at hn
    simp [Simplex.construct, hn.1, hn.2.1, hn.2.2]

/-- C22, for the quadratic tetrahedron (`nSpace = 3`, `nP = 2`, ten basis functions) and for
`nSpace = 4`. -/
theorem nDOF_spec_witness :
    nDOF 3 (2 : Nat) = Nat.choose (2 + 3) 3 ∧
    (∃ s1, Simplex.construct Kernels.zero 3 (2 : Nat) Simplex.zero = some s1) ∧
    Simplex.construct Kernels.zero 4 2 Simplex.zero = none :=
  ⟨(nDOF_spec Kernels.zero 2 Simplex.zero).2.2.2.2.2.1,
   (nDOF_spec Kernels.zero 2 Simplex.zero).2.2.2.2.2.2.1 3 (Or.inr (Or.inr rfl)),
   (nDOF_spec Kernels.zero 2 Simplex.zero).2.2.2.2.2.2.2 4 2 (by decide)⟩

/-! ## Assertions of the classifier -/

theorem signCount_all_zero (nSpace : Nat) (phi_dof : Nat → ℚ) :
    (signCount nSpace phi_dof).zcount = nSpace + 1 ↔ ∀ i, i < nSpace + 1 → phi_dof i = 0 := by
  rw [signCount_zcount]; exact countUpTo_eq_self_iff _ _

/-- The case analysis stops at an assertion exactly on the all-zero input. -/
theorem classify_abort_iff (nSpace : Nat) (hn : 1 ≤ nSpace) (s : Simplex) (phi_dof : Nat → ℚ) :
    classify nSpace s phi_dof = Flow.abort ↔ ∀ i, i < nSpace + 1 → phi_dof i = 0 := by
  rw [← signCount_all_zero]
  have htot := signCount_total nSpace phi_dof
  unfold classify
  simp only []
  split_ifs with h1 h2 h3 h4 h5 h6 h7 h8 h9 <;> simp <;> omega

/-- C24: for `nSpace` 1, 2 or 3 and every nodal input, an assertion of
`_calculate_permutation` fails if and only if all `nN` nodal values are exactly zero (it is
then one of the two assertions of the final branch of the case analysis); on every other
input `_calculate_permutation` returns -1, 0 or +1. -/
theorem classifier_assertions (nSpace : Nat) (hn : nSpace = 1 ∨ nSpace = 2 ∨ nSpace = 3)
    (s : Simplex) (phi_dof phi_nodes : Nat → ℚ) :
    (_calculate_permutation nSpace s phi_dof phi_nodes = none ↔
      ∀ i, i < nSpace + 1 → phi_dof i = 0) ∧
    (classify nSpace s phi_dof = Flow.abort ↔ ∀ i, i < nSpace + 1 → phi_dof i = 0) ∧
    (¬ (∀ i, i < nSpace + 1 → phi_dof i = 0) →
      ∃ v s1, _calculate_permutation nSpace s phi_dof phi_nodes = some (v, s1) ∧
        (v = -1 ∨ v = 0 ∨ v = 1)) := by
  have h1n : 1 ≤ nSpace := by omega
  have habort := classify_abort_iff nSpace h1n s phi_dof
  have hsome : ¬ classify nSpace s phi_dof = Flow.abort →
      ∃ v s1, _calculate_permutation nSpace s phi_dof phi_nodes = some (v, s1) ∧
        (v = -1 ∨ v = 0 ∨ v = 1) := by
    intro hna
    cases hc : classify nSpace s phi_dof with
    | ret icase s1 =>
      refine ⟨icase, s1, by simp [_calculate_permutation, hc], ?_⟩
      unfold classify at hc
      simp only [] at hc
      split_ifs at hc <;> simp at hc <;> omega
    | abort => exact absurd hc hna
    | fall s0 =>
      obtain ⟨s1, hs1, _⟩ := canonicalize_spec nSpace hn s0 phi_dof phi_nodes
      exact ⟨0, s1, by simp [_calculate_permutation, hc, hs1], Or.inr (Or.inl rfl)⟩
  refine ⟨?_, habort, fun hnz => hsome (fun h => hnz (habort.mp h))⟩
  constructor
  · intro hnone
    by_contra hnz
    obtain ⟨v, s1, h, _⟩ := hsome (fun h => hnz (habort.mp h))
    rw [h] at hnone
    simp at hnone
  · intro hz
    have := habort.mpr hz
    simp [_calculate_permutation, this]

/-- C24, on the all-zero triangle and on the triangle with nodal values 0, 0, 3. -/
theorem classifier_assertions_witness :
    _calculate_permutation 2 Simplex.zero (arr [0, 0, 0]) (arr [0, 0, 0, 1, 0, 0, 0, 1, 0])
      = none ∧
    ∃ v s1, _calculate_permutation 2 Simplex.zero (arr [0, 0, 3])
        (arr [0, 0, 0, 1, 0, 0, 0, 1, 0]) = some (v, s1) ∧ (v = -1 ∨ v = 0 ∨ v = 1) :=
  ⟨(classifier_assertions 2 (Or.inr (Or.inl rfl)) Simplex.zero (arr [0, 0, 0])
      (arr [0, 0, 0, 1, 0, 0, 0, 1, 0])).1.mpr
      (by intro i hi; interval_cases i <;> decide),
   (classifier_assertions 2 (Or.inr (Or.inl rfl)) Simplex.zero (arr [0, 0, 3])
      (arr [0, 0, 0, 1, 0, 0, 0, 1, 0])).2.2
      (by intro h; exact absurd (h 2 (by decide)) (by decide))⟩

/-! ## The one-dimensional cut with a zero vertex before the negative one -/

/-- C25, at the failing input: on the segment from 1 to 0 with nodal values -1, 0 the
classifier returns 0 with canonical values `phi = [0, -1]`, so `phi[0] = 0` and
`phi[1]*phi[0]` is not negative although `phi[1] ≠ 0`; `_calculate_cuts` then stops at
`assert(phi[i+1] == 0.0)`. -/
theorem cuts_assertion_fails :
    (_calculate_permutation 1 Simplex.zero (arr [-1, 0]) (arr [1, 0, 0, 0, 0, 0])).map
      (fun r => (r.1, r.2.phi 0, r.2.phi 1, (_calculate_cuts 1 r.2).isSome))
      = some (0, 0, -1, false) := by
  decide!

/-- C26, at the failing input: on the segment from 1 to 0 with nodal values -1, 0 the
classifier returns 0 with `inside_out = true` although the canonical first value is
`phi[0] = 0`, not positive. -/
theorem inside_out_on_zero :
    (_calculate_permutation 1 Simplex.zero (arr [-1, 0]) (arr [1, 0, 0, 0, 0, 0])).map
      (fun r => (r.1, r.2.inside_out, r.2.phi 0, decide (r.2.phi 0 > 0)))
      = some (0, true, 0, false) := by
  decide!

/-- Outside the one-dimensional configuration excluded by `NoZeroBeforeNegative`, after
`_calculate_permutation` on a cut the flag `inside_out` is true exactly when the canonical
first value is positive. -/
theorem inside_out_iff (nSpace : Nat) (hn : nSpace = 1 ∨ nSpace = 2 ∨ nSpace = 3)
    (s : Simplex) (phi_dof phi_nodes : Nat → ℚ)
    (hcut : (classify nSpace s phi_dof).isFall = true)
    (hok : NoZeroBeforeNegative nSpace phi_dof phi_nodes) :
    ∃ s1, _calculate_permutation nSpace s phi_dof phi_nodes = some (0, s1) ∧
      (s1.inside_out = true ↔ s1.phi 0 > 0) := by
  obtain ⟨s0, s1, h1, h2, hr, _, hp, hio, hphi, _⟩ := cut_spec nSpace hn s phi_dof phi_nodes hcut
  have hp' : s1.permutation = finalPermutation nSpace s0.root_node phi_nodes s0.permutation := hp
  obtain ⟨_, _, _, hb⟩ := classify_fall nSpace s s0 phi_dof h1
  obtain ⟨_, hsign, _⟩ := root_signs nSpace s s0 phi_dof h1
  refine ⟨s1, h2, ?_⟩
  by_cases h2n : 2 ≤ nSpace
  · have hhead := finalPermutation_head nSpace s0.root_node phi_nodes s0.permutation h2n hr
    have h0 : s1.phi 0 = phi_dof s0.root_node := by
      rw [hphi 0 (by omega), hp', hhead]
    have hio' : s1.inside_out = s0.inside_out := by
      rw [hio]
      have : ¬ (det nSpace (jacOf nSpace phi_nodes
          (rotation nSpace s0.root_node s0.permutation)) < 0 ∧ nSpace = 1) := by
        intro h; omega
      rw [if_neg this]
    rw [hio', h0]
    have htot := signCount_total nSpace phi_dof
    rcases hb with ⟨a, _, _, d, e⟩ | ⟨_, _, c, _⟩ | ⟨a, b, d, e⟩
    · have hpi := signCount_p_i nSpace phi_dof (by omega)
      rw [d, e]
      exact ⟨fun _ => hpi.2, fun _ => rfl⟩
    · omega
    · have hni := signCount_n_i nSpace phi_dof (by omega)
      rw [d, e]
      constructor
      · intro h; exact absurd h (by decide)
      · intro h; linarith [hni.2]
  · have hn1 : nSpace = 1 := by omega
    subst hn1
    have hr2 : s0.root_node < 2 := hr
    obtain ⟨hsw, hns⟩ := finalPermutation_one s0.root_node phi_nodes s0.permutation hr2
    have hr' : (s0.root_node + 1) % 2 < 2 := Nat.mod_lt _ (by omega)
    have hne' : (s0.root_node + 1) % 2 ≠ s0.root_node := by omega
    have hneg : phi_dof s0.root_node < 0 ∧ phi_dof ((s0.root_node + 1) % 2) ≥ 0 := by
      rcases hsign with ⟨_, c, _⟩ | ⟨a, b⟩
      · omega
      · exact ⟨a, b _ hr' hne'⟩
    have hio0 : s0.inside_out = false := by
      rcases hb with ⟨_, _, c, _⟩ | ⟨_, _, _, _, e⟩ | ⟨_, _, _, e⟩
      · omega
      · exact e
      · exact e
    have hd : det 1 (jacOf 1 phi_nodes (rotation 1 s0.root_node s0.permutation))
        = phi_nodes ((s0.root_node + 1) % 2 * 3) - phi_nodes (s0.root_node * 3) := by
      simp [det, jacOf, rotation, Nat.mod_eq_of_lt hr2]
    rw [hio, hd, hphi 0 (by omega), hp']
    by_cases hswap : phi_nodes ((s0.root_node + 1) % 2 * 3) < phi_nodes (s0.root_node * 3)
    · obtain ⟨e0, _⟩ := hsw hswap
      have hlt : phi_nodes ((s0.root_node + 1) % 2 * 3) - phi_nodes (s0.root_node * 3) < 0 := by
        linarith
      rw [e0, if_pos ⟨hlt, rfl⟩]
      have hpos : phi_dof ((s0.root_node + 1) % 2) > 0 := by
        rcases eq_or_lt_of_le hneg.2 with e | e
        · exact absurd hswap (hok rfl _ _ hr' hr2 e.symm hneg.1)
        · exact e
      exact ⟨fun _ => hpos, fun _ => rfl⟩
    · obtain ⟨e0, _⟩ := hns hswap
      have hlt : ¬ (phi_nodes ((s0.root_node + 1) % 2 * 3) - phi_nodes (s0.root_node * 3) < 0
          ∧ 1 = 1) := by
        intro h; exact hswap (by linarith [h.1])
      rw [e0, if_neg hlt, hio0]
      constructor
      · intro h; exact absurd h (by decide)
      · intro h; linarith [hneg.1]

/-! ## The corrected values on every input -/

theorem classify_ret_code (nSpace : Nat) (s s1 : Simplex) (phi_dof : Nat → ℚ) (v : Int)
    (h : classify nSpace s phi_dof = Flow.ret v s1) :
    (v = 1 ∨ v = -1) ∧ s1.phi_dof_corrected = s.phi_dof_corrected := by
  unfold classify at h
  simp only [] at h
  split_ifs at h <;> simp only [Flow.ret.injEq, reduceCtorEq] at h <;>
    obtain ⟨h1, h2⟩ := h <;> subst h1 <;> subst h2 <;> simp

theorem classify_fall_frame (nSpace : Nat) (s s0 : Simplex) (phi_dof : Nat → ℚ)
    (h : classify nSpace s phi_dof = Flow.fall s0) :
    s0.phi_dof_corrected = s.phi_dof_corrected := by
  unfold classify at h
  simp only [] at h
  split_ifs at h <;> simp only [Flow.fall.injEq, reduceCtorEq] at h <;> subst h <;> rfl

theorem canonicalize_frame (nSpace : Nat) (s s1 : Simplex) (phi_dof phi_nodes : Nat → ℚ)
    (v : Int) (h : canonicalize nSpace s phi_dof phi_nodes = some (v, s1)) :
    s1.phi_dof_corrected = s.phi_dof_corrected := by
  rw [canonicalize_eq] at h
  split_ifs at h <;> simp only [Option.some.injEq, Prod.mk.injEq, reduceCtorEq] at h <;>
    obtain ⟨_, h⟩ := h <;> subst h <;> rfl

/-- `_calculate_permutation` does not touch `phi_dof_corrected`, and a non-zero return value
is +1 or -1. -/
theorem calculate_permutation_frame (nSpace : Nat) (s s1 : Simplex)
    (phi_dof phi_nodes : Nat → ℚ) (v : Int)
    (h : _calculate_permutation nSpace s phi_dof phi_nodes = some (v, s1)) :
    s1.phi_dof_corrected = s.phi_dof_corrected ∧ (v = 1 ∨ v = -1 ∨ v = 0) := by
  unfold _calculate_permutation at h
  cases hc : classify nSpace s phi_dof with
  | ret icase s2 =>
    rw [hc] at h
    simp only [Option.some.injEq, Prod.mk.injEq] at h
    obtain ⟨h1, h2⟩ := h
    subst h1; subst h2
    obtain ⟨a, b⟩ := classify_ret_code nSpace s s2 phi_dof icase hc
    exact ⟨b, by rcases a with a | a <;> simp [a]⟩
  | abort => rw [hc] at h; simp at h
  | fall s0 =>
    rw [hc] at h
    simp only [] at h
    have hv := canonicalize_code nSpace s0 phi_dof phi_nodes v s1 h
    exact ⟨(canonicalize_frame nSpace s0 s1 phi_dof phi_nodes v h).trans
      (classify_fall_frame nSpace s s0 phi_dof hc), Or.inr (Or.inr hv)⟩

/-- After `calculate`, `phi_dof_corrected` is either the copy of `phi_dof` (trivial cases) or
what the vertex loop of `_correct_phi` wrote (cut). -/
theorem calculate_corrected (K : Kernels) (nSpace nP nQ : Nat) (s s3 : Simplex)
    (phi_dof phi_nodes xi_r : Nat → ℚ)
    (h : calculate K nSpace nP nQ s phi_dof phi_nodes xi_r = some s3) :
    (∀ i, i < nSpace + 1 → s3.phi_dof_corrected i = phi_dof i) ∨
    ∃ t : Simplex, s3.phi_dof_corrected
      = forLoop (nSpace + 1) (correctBody nSpace t phi_dof phi_nodes) t.phi_dof_corrected := by
  unfold calculate at h
  simp only [] at h
  cases hp : _calculate_permutation nSpace
      { s with phi_dof_corrected :=
          forLoop (nSpace + 1) (fun i pc => setAt pc i (phi_dof i)) s.phi_dof_corrected }
      phi_dof phi_nodes with
  | none => rw [hp] at h; simp at h
  | some r =>
    obtain ⟨icase, s1⟩ := r
    rw [hp] at h
    simp only [] at h
    obtain ⟨hfr, _⟩ := calculate_permutation_frame nSpace _ s1 phi_dof phi_nodes icase hp
    have hcopy : ∀ i, i < nSpace + 1 → s1.phi_dof_corrected i = phi_dof i := by
      intro i hi
      rw [hfr]
      show forLoop (nSpace + 1) (fun i pc => setAt pc i (phi_dof i)) s.phi_dof_corrected i = _
      rw [forLoop_setAt, if_pos hi]
    by_cases h1 : icase = 1
    · rw [if_pos h1] at h
      simp only [Option.some.injEq] at h
      subst h
      exact Or.inl hcopy
    · rw [if_neg h1] at h
      by_cases h2 : icase = -1
      · rw [if_pos h2] at h
        simp only [Option.some.injEq] at h
        subst h
        exact Or.inl hcopy
      · rw [if_neg h2] at h
        cases hc : _calculate_cuts nSpace s1 with
        | none => rw [hc] at h; simp at h
        | some s2 =>
          rw [hc] at h
          simp only [] at h
          by_cases hq : 0 < nQ
          · rw [set_quad_some nQ _ 0 hq] at h
            simp only [Option.some.injEq] at h
            subst h
            exact Or.inr ⟨_calculate_C K nSpace nP
              { s2 with level_set_normal := K._calculate_normal nSpace s2.phys_nodes_cut }, rfl⟩
          · simp [set_quad, hq] at h

/-- C27: for every input and every vertex `i < nN`, after `calculate` the corrected value is
never strictly opposite in sign to the nodal value,
`phi_dof_corrected[i]*phi_dof[i] ≥ 0` (trivial or cut, whatever the kernels). `calculate`
returns, for `nSpace` 1, 2 or 3 and `nQ > 0`, on every input that is not all zero and is
outside the one-dimensional configuration excluded by `NoZeroBeforeNegative`. -/
theorem corrected_never_opposite (K : Kernels) (nSpace nP nQ : Nat) (s : Simplex)
    (phi_dof phi_nodes xi_r : Nat → ℚ) :
    (∀ s3, calculate K nSpace nP nQ s phi_dof phi_nodes xi_r = some s3 →
      ∀ i, i < nSpace + 1 → s3.phi_dof_corrected i * phi_dof i ≥ 0) ∧
    (nSpace = 1 ∨ nSpace = 2 ∨ nSpace = 3 →
      ¬ (∀ i, i < nSpace + 1 → phi_dof i = 0) →
      NoZeroBeforeNegative nSpace phi_dof phi_nodes → 0 < nQ →
      ∃ s3, calculate K nSpace nP nQ s phi_dof phi_nodes xi_r = some s3) := by
  constructor
  · intro s3 hs3 i hi
    rcases calculate_corrected K nSpace nP nQ s s3 phi_dof phi_nodes xi_r hs3 with h | ⟨t, ht⟩
    · rw [h i hi]
      exact mul_self_nonneg _
    · obtain ⟨v, hv⟩ := correct_loop nSpace t phi_dof phi_nodes (nSpace + 1)
        t.phi_dof_corrected i hi
      rw [ht, hv]
      exact flipped_sign v (phi_dof i)
  · intro hn hnz hok hq
    cases hc : classify nSpace
        { s with phi_dof_corrected :=
            forLoop (nSpace + 1) (fun i pc => setAt pc i (phi_dof i)) s.phi_dof_corrected }
        phi_dof with
    | ret icase s1 =>
      obtain ⟨hcode, _⟩ := classify_ret_code nSpace _ s1 phi_dof icase hc
      obtain ⟨s2, h2, _⟩ := calculate_of_ret K nSpace nP nQ s phi_dof phi_nodes xi_r icase s1
        hc hcode
      exact ⟨s2, h2⟩
    | abort =>
      exact absurd ((classify_abort_iff nSpace (by omega) _ phi_dof).mp hc) hnz
    | fall s0 =>
      have hcut : (classify nSpace s phi_dof).isFall = true := by
        rw [isFall_state nSpace s _ phi_dof, hc]
        rfl
      exact (calculate_cut_result K nSpace hn nP nQ s phi_dof phi_nodes xi_r hcut).1 hok hq

/-- C27, on a triangle with nodal values 2, 0, 3 (trivial) with one quadrature point. -/
theorem corrected_never_opposite_witness :
    ∃ s3, calculate Kernels.zero 2 1 1 Simplex.zero (arr [2, 0, 3])
      (arr [0, 0, 0, 1, 0, 0, 0, 1, 0]) (arr [1 / 3, 1 / 3, 0]) = some s3 :=
  (corrected_never_opposite Kernels.zero 2 1 1 Simplex.zero (arr [2, 0, 3])
    (arr [0, 0, 0, 1, 0, 0, 0, 1, 0]) (arr [1 / 3, 1 / 3, 0])).2 (Or.inr (Or.inl rfl))
    (by intro h; exact absurd (h 0 (by decide)) (by decide))
    (fun h => absurd h (by decide)) (by decide)

/-! ## The analytic box -/

/-- C29, at the failing run: the face-creation loop of `makeBox3D` runs its index up to
`edgeMap.size() = 12` while `faceMap`, `faceEntities` and `g_face` have 6 entries; the
index 6 is used and is not smaller than the number of faces, so the loop leaves the arrays
(the first six iterations register the six faces). -/
theorem face_loop_out_of_bounds :
    makeBox3D.edgeMap.length = 12 ∧ makeBox3D.faceMap.length = 6 ∧
    makeBox3D.faceEntities.length = 6 ∧
    (6 < makeBox3D.edgeMap.length ∧ ¬ 6 < makeBox3D.faceMap.length) ∧
    makeBox3D.faceMap[6]? = none ∧
    makeBox3D.faceLoop.isSome = false ∧
    (makeBox3D.faceLoopTo makeBox3D.faceMap.length).map (fun g => g.map Prod.fst)
      = some makeBox3D.faceMap := by
  refine ⟨rfl, rfl, rfl, ⟨by decide, by decide⟩, rfl, rfl, rfl⟩

/-- C30: for the 3-D box, for all box dimensions and every parameter `p`: on each of the 6
faces `f` and each of its 4 edges (tag `edgeLoop[f][j]`, reparameterisation
`edgeFaceFunction[edgeReparamLoop[f][j]]`), the face map after the reparameterisation is the
edge map, `face_f(reparamREdge_k(p)) = edge_e(p)`; and on each of the 12 edges the edge map
at the parameter assigned to an end vertex (`reparamVert_zero` or `reparamVert_one`) is that
vertex's point. -/
theorem box3D_reparam_commute (b : Box) (p : ℚ × ℚ) :
    (∀ f j, f < 6 → j < 4 →
      ∃ face edge tag k rep,
        makeBox3D.faceEntities[f]? = some face ∧
        (makeBox3D.edgeLoop[f]?).bind (fun l => l[j]?) = some tag ∧
        makeBox3D.find makeBox3D.edgeMap makeBox3D.edgeEntities tag = some edge ∧
        (makeBox3D.edgeReparamLoop[f]?).bind (fun l => l[j]?) = some k ∧
        makeBox3D.edgeFaceFunction[k]? = some rep ∧
        face b (rep p) = edge b p) ∧
    (∀ e, e < 12 →
      ∃ u edge v0 v1,
        makeBox3D.edgeVertexUses[e]? = some u ∧ u.1 = e ∧
        makeBox3D.edgeEntities[e]? = some edge ∧
        (makeBox3D.vertexMap[u.2.1.1]?).bind
          (makeBox3D.find makeBox3D.vertexMap makeBox3D.vertexPoints) = some v0 ∧
        (makeBox3D.vertexMap[u.2.2.1]?).bind
          (makeBox3D.find makeBox3D.vertexMap makeBox3D.vertexPoints) = some v1 ∧
        edge b (u.2.1.2 p) = v0 b p ∧ edge b (u.2.2.2 p) = v1 b p) := by
  constructor
  · intro f j hf hj
    interval_cases f <;> interval_cases j
    · exact ⟨face0, edge0, 50, 0, reparamREdge_0, rfl, rfl, rfl, rfl, rfl,
        by simp [face0, edge0, reparamREdge_0]⟩
    · exact ⟨face0, edge9, 72, 3, reparamREdge_3, rfl, rfl, rfl, rfl, rfl,
        by simp [face0, edge9, reparamREdge_3]⟩
    · exact ⟨face0, edge4, 11, 2, reparamREdge_2, rfl, rfl, rfl, rfl, rfl,
        by simp [face0, edge4, reparamREdge_2]⟩
    · exact ⟨face0, edge8, 73, 1, reparamREdge_1, rfl, rfl, rfl, rfl, rfl,
        by simp [face0, edge8, reparamREdge_1]⟩
    · exact ⟨face1, edge9, 72, 1, reparamREdge_1, rfl, rfl, rfl, rfl, rfl,
        by simp [face1, edge9, reparamREdge_1]⟩
    · exact ⟨face1, edge1, 48, 0, reparamREdge_0, rfl, rfl, rfl, rfl, rfl,
        by simp [face1, edge1, reparamREdge_0]⟩
    · exact ⟨face1, edge10, 71, 3, reparamREdge_3, rfl, rfl, rfl, rfl, rfl,
        by simp [face1, edge10, reparamREdge_3]⟩
    · exact ⟨face1, edge5, 16, 2, reparamREdge_2, rfl, rfl, rfl, rfl, rfl,
        by simp [face1, edge5, reparamREdge_2]⟩
    · exact ⟨face2, edge2, 46, 0, reparamREdge_0, rfl, rfl, rfl, rfl, rfl,
        by simp [face2, edge2, reparamREdge_0]⟩
    · exact ⟨face2, edge11, 74, 1, reparamREdge_1, rfl, rfl, rfl, rfl, rfl,
        by simp [face2, edge11, reparamREdge_1]⟩
    · exact ⟨face2, edge6, 20, 2, reparamREdge_2, rfl, rfl, rfl, rfl, rfl,
        by simp [face2, edge6, reparamREdge_2]⟩
    · exact ⟨face2, edge10, 71, 3, reparamREdge_3, rfl, rfl, rfl, rfl, rfl,
        by simp [face2, edge10, reparamREdge_3]⟩
    · exact ⟨face3, edge3, 52, 0, reparamREdge_0, rfl, rfl, rfl, rfl, rfl,
        by simp [face3, edge3, reparamREdge_0]⟩
    · exact ⟨face3, edge8, 73, 1, reparamREdge_1, rfl, rfl, rfl, rfl, rfl,
        by simp [face3, edge8, reparamREdge_1]⟩
    · exact ⟨face3, edge7, 6, 2, reparamREdge_2, rfl, rfl, rfl, rfl, rfl,
        by simp [face3, edge7, reparamREdge_2]⟩
    · exact ⟨face3, edge11, 74, 3, reparamREdge_3, rfl, rfl, rfl, rfl, rfl,
        by simp [face3, edge11, reparamREdge_3]⟩
    · exact ⟨face4, edge0, 50, 0, reparamREdge_0, rfl, rfl, rfl, rfl, rfl,
        by simp [face4, edge0, reparamREdge_0]⟩
    · exact ⟨face4, edge3, 52, 1, reparamREdge_1, rfl, rfl, rfl, rfl, rfl,
        by simp [face4, edge3, reparamREdge_1]⟩
    · exact ⟨face4, edge2, 46, 2, reparamREdge_2, rfl, rfl, rfl, rfl, rfl,
        by simp [face4, edge2, reparamREdge_2]⟩
    · exact ⟨face4, edge1, 48, 3, reparamREdge_3, rfl, rfl, rfl, rfl, rfl,
        by simp [face4, edge1, reparamREdge_3]⟩
    · exact ⟨face5, edge4, 11, 0, reparamREdge_0, rfl, rfl, rfl, rfl, rfl,
        by simp [face5, edge4, reparamREdge_0]⟩
    · exact ⟨face5, edge5, 16, 3, reparamREdge_3, rfl, rfl, rfl, rfl, rfl,
        by simp [face5, edge5, reparamREdge_3]⟩
    · exact ⟨face5, edge6, 20, 2, reparamREdge_2, rfl, rfl, rfl, rfl, rfl,
        by simp [face5, edge6, reparamREdge_2]⟩
    · exact ⟨face5, edge7, 6, 1, reparamREdge_1, rfl, rfl, rfl, rfl, rfl,
        by simp [face5, edge7, reparamREdge_1]⟩
  · intro e he
    interval_cases e
    · exact ⟨(0, (0, reparamVert_zero), (1, reparamVert_one)), edge0, vert0, vert1,
        rfl, rfl, rfl, rfl, rfl, by simp [edge0, vert0, reparamVert_zero],
        by simp [edge0, vert1, reparamVert_one]⟩
    · exact ⟨(1, (1, reparamVert_zero), (2, reparamVert_one)), edge1, vert1, vert2,
        rfl, rfl, rfl, rfl, rfl, by simp [edge1, vert1, reparamVert_zero],
        by simp [edge1, vert2, reparamVert_one]⟩
    · exact ⟨(2, (2, reparamVert_one), (3, reparamVert_zero)), edge2, vert2, vert3,
        rfl, rfl, rfl, rfl, rfl, by simp [edge2, vert2, reparamVert_one],
        by simp [edge2, vert3, reparamVert_zero]⟩
    · exact ⟨(3, (3, reparamVert_one), (0, reparamVert_zero)), edge3, vert3, vert0,
        rfl, rfl, rfl, rfl, rfl, by simp [edge3, vert3, reparamVert_one],
        by simp [edge3, vert0, reparamVert_zero]⟩
    · exact ⟨(4, (4, reparamVert_zero), (5, reparamVert_one)), edge4, vert4, vert5,
        rfl, rfl, rfl, rfl, rfl, by simp [edge4, vert4, reparamVert_zero],
        by simp [edge4, vert5, reparamVert_one]⟩
    · exact ⟨(5, (5, reparamVert_zero), (6, reparamVert_one)), edge5, vert5, vert6,
        rfl, rfl, rfl, rfl, rfl, by simp [edge5, vert5, reparamVert_zero],
        by simp [edge5, vert6, reparamVert_one]⟩
    · exact ⟨(6, (6, reparamVert_one), (7, reparamVert_zero)), edge6, vert6, vert7,
        rfl, rfl, rfl, rfl, rfl, by simp [edge6, vert6, reparamVert_one],
        by simp [edge6, vert7, reparamVert_zero]⟩
    · exact ⟨(7, (7, reparamVert_one), (4, reparamVert_zero)), edge7, vert7, vert4,
        rfl, rfl, rfl, rfl, rfl, by simp [edge7, vert7, reparamVert_one],
        by simp [edge7, vert4, reparamVert_zero]⟩
    · exact ⟨(8, (0, reparamVert_zero), (4, reparamVert_one)), edge8, vert0, vert4,
        rfl, rfl, rfl, rfl, rfl, by simp [edge8, vert0, reparamVert_zero],
        by simp [edge8, vert4, reparamVert_one]⟩
    · exact ⟨(9, (1, reparamVert_zero), (5, reparamVert_one)), edge9, vert1, vert5,
        rfl, rfl, rfl, rfl, rfl, by simp [edge9, vert1, reparamVert_zero],
        by simp [edge9, vert5, reparamVert_one]⟩
    · exact ⟨(10, (2, reparamVert_zero), (6, reparamVert_one)), edge10, vert2, vert6,
        rfl, rfl, rfl, rfl, rfl, by simp [edge10, vert2, reparamVert_zero],
        by simp [edge10, vert6, reparamVert_one]⟩
    · exact ⟨(11, (3, reparamVert_zero), (7, reparamVert_one)), edge11, vert3, vert7,
        rfl, rfl, rfl, rfl, rfl, by simp [edge11, vert3, reparamVert_zero],
        by simp [edge11, vert7, reparamVert_one]⟩

/-! ## Monotonicity of the regularized Heaviside function -/

/-- The derivative of the band formula of `Regularized::H` in the scaled variable
`u = phi/eps`. -/
theorem band_hasDerivAt (u : ℝ) :
    HasDerivAt (fun u : ℝ => 1 / 2 * (1 + u + Real.sin (Real.pi * u) / Real.pi))
      (1 / 2 * (1 + Real.cos (Real.pi * u))) u := by
  have hpi : Real.pi ≠ 0 := Real.pi_ne_zero
  have h1 : HasDerivAt (fun u : ℝ => Real.pi * u) Real.pi u := by
    simpa using (hasDerivAt_id u).const_mul Real.pi
  have h2 : HasDerivAt (fun u : ℝ => Real.sin (Real.pi * u))
      (Real.cos (Real.pi * u) * Real.pi) u := (Real.hasDerivAt_sin _).comp u h1
  have h3 := h2.div_const Real.pi
  have h4 := (((hasDerivAt_const u (1 : ℝ)).add (hasDerivAt_id u)).add h3).const_mul (1 / 2 : ℝ)
  convert h4 using 1
  field_simp

/-- The band formula is non-decreasing: its derivative is `(1 + cos (π u))/2 ≥ 0`. -/
theorem band_monotone :
    Monotone (fun u : ℝ => 1 / 2 * (1 + u + Real.sin (Real.pi * u) / Real.pi)) := by
  apply monotone_of_deriv_nonneg
  · intro u
    exact (band_hasDerivAt u).differentiableAt
  · intro u
    rw [(band_hasDerivAt u).deriv]
    have := Real.neg_one_le_cos (Real.pi * u)
    linarith

/-- Inside the band `-eps ≤ phi ≤ eps` the value of `Regularized::H` is the band formula at
`phi/eps`, the test `phi == 0.0` included. -/
theorem regularized_H_band (eps phi : ℝ) (h1 : -eps ≤ phi) (h2 : phi ≤ eps) :
    Regularized.H Real.sin Real.pi eps phi
      = (fun u : ℝ => 1 / 2 * (1 + u + Real.sin (Real.pi * u) / Real.pi)) (phi / eps) := by
  unfold Regularized.H
  rw [if_neg (not_lt.mpr h2), if_neg (not_lt.mpr h1)]
  by_cases h0 : phi = 0
  · rw [if_pos h0, h0]
    simp
  · rw [if_neg h0]
    simp only [mul_div_assoc]

/-- The values of `Regularized::H` lie in `[0, 1]`. -/
theorem regularized_H_range (eps phi : ℝ) (heps : 0 < eps) :
    0 ≤ Regularized.H Real.sin Real.pi eps phi ∧ Regularized.H Real.sin Real.pi eps phi ≤ 1 := by
  by_cases h2 : phi > eps
  · simp [Regularized.H, h2]
  by_cases h1 : phi < -eps
  · simp [Regularized.H, h1, h2]
  rw [regularized_H_band eps phi (not_lt.mp h1) (not_lt.mp h2)]
  have ha : (-1 : ℝ) ≤ phi / eps := by
    rw [le_div_iff₀ heps]; linarith [not_lt.mp h1]
  have hb : phi / eps ≤ 1 := by
    rw [div_le_iff₀ heps]; linarith [not_lt.mp h2]
  have la := band_monotone ha
  have lb := band_monotone hb
  simp only [mul_neg, mul_one, Real.sin_neg, Real.sin_pi, neg_zero, zero_div] at la lb
  constructor
  · linarith
  · linarith

/-- C28: for every `eps > 0`, over the reals with the real sine and `π`, `Regularized::H(eps, .)`
takes the value 0 at `-eps` and 1 at `eps`, has all its values in `[0, 1]`, and is monotonically
non-decreasing: `phi1 ≤ phi2` implies `H(eps, phi1) ≤ H(eps, phi2)`. -/
theorem regularized_H_monotone (eps : ℝ) (heps : 0 < eps) :
    Regularized.H Real.sin Real.pi eps (-eps) = 0 ∧
    Regularized.H Real.sin Real.pi eps eps = 1 ∧
    (∀ phi, 0 ≤ Regularized.H Real.sin Real.pi eps phi ∧
      Regularized.H Real.sin Real.pi eps phi ≤ 1) ∧
    (∀ phi1 phi2, phi1 ≤ phi2 →
      Regularized.H Real.sin Real.pi eps phi1 ≤ Regularized.H Real.sin Real.pi eps phi2) := by
  have hne : eps ≠ 0 := ne_of_gt heps
  refine ⟨?_, ?_, fun phi => regularized_H_range eps phi heps, ?_⟩
  · rw [regularized_H_band eps (-eps) (le_refl _) (by linarith)]
    simp [neg_div, div_self hne]
  · rw [regularized_H_band eps eps (by linarith) (le_refl _)]
    simp [div_self hne]
    norm_num
  · intro phi1 phi2 h
    by_cases h2 : phi2 > eps
    · have e : Regularized.H Real.sin Real.pi eps phi2 = 1 := by simp [Regularized.H, h2]
      rw [e]
      exact (regularized_H_range eps phi1 heps).2
    by_cases h1 : phi1 < -eps
    · have e : Regularized.H Real.sin Real.pi eps phi1 = 0 := by
        have h3 : ¬ phi1 > eps := by intro h4; linarith
        simp [Regularized.H, h1, h3]
      rw [e]
      exact (regularized_H_range eps phi2 heps).1
    have a1 : -eps ≤ phi1 := not_lt.mp h1
    have b2 : phi2 ≤ eps := not_lt.mp h2
    rw [regularized_H_band eps phi1 a1 (le_trans h b2),
      regularized_H_band eps phi2 (le_trans a1 h) b2]
    exact band_monotone (div_le_div_of_nonneg_right h (le_of_lt heps))

/-- C28 at `eps = 1`: the edge values, the range and the order between `-1/2` and `1/2`. -/
theorem regularized_H_monotone_witness :
    (0 : ℝ) < 1 ∧
    Regularized.H Real.sin Real.pi (1 : ℝ) (-1) = 0 ∧
    Regularized.H Real.sin Real.pi (1 : ℝ) 1 = 1 ∧
    Regularized.H Real.sin Real.pi (1 : ℝ) (-1 / 2) ≤ Regularized.H Real.sin Real.pi 1 (1 / 2) :=
  ⟨one_pos, (regularized_H_monotone 1 one_pos).1, (regularized_H_monotone 1 one_pos).2.1,
    (regularized_H_monotone 1 one_pos).2.2.2 _ _ (by norm_num)⟩

/-! ## History independence of `calculate` -/

theorem forLoop_congr {σ : Type} (n : Nat) (f g : Nat → σ → σ) (x : σ)
    (h : ∀ i, i < n → ∀ y, f i y = g i y) : forLoop n f x = forLoop n g x := by
  induction n with
  | zero => rfl
  | succ n ih =>
    simp only [forLoop]
    rw [ih (fun i hi => h i (by omega)), h n (by omega)]

/-- A relation indexed by the loop counter that every iteration carries one step further
holds between the results of two loops. -/
theorem forLoop_rel {σ τ : Type} (R : Nat → σ → τ → Prop) (n : Nat) (f : Nat → σ → σ)
    (g : Nat → τ → τ) (x : σ) (y : τ) (h0 : R 0 x y)
    (hstep : ∀ i, i < n → ∀ a b, R i a b → R (i + 1) (f i a) (g i b)) :
    R n (forLoop n f x) (forLoop n g y) := by
  induction n with
  | zero => exact h0
  | succ n ih => exact hstep n (by omega) _ _ (ih (fun i hi => hstep i (by omega)))

theorem forLoop_inv {σ : Type} (P : σ → Prop) (n : Nat) (f : Nat → σ → σ) (x : σ) (h0 : P x)
    (hstep : ∀ i, i < n → ∀ a, P a → P (f i a)) : P (forLoop n f x) := by
  induction n with
  | zero => exact h0
  | succ n ih => exact hstep n (by omega) _ (ih (fun i hi => hstep i (by omega)))

/-- The modelled `inv` reads the matrix inside its bounds and writes every entry inside the
bounds of the result. -/
theorem inv_agree (nSpace : Nat) (hn : nSpace = 1 ∨ nSpace = 2 ∨ nSpace = 3)
    (A B o o' : Nat → ℚ) (h : AgreeBelow (nSpace * nSpace) A B) :
    AgreeBelow (nSpace * nSpace) (inv nSpace A o) (inv nSpace B o') := by
  have hd := det_congr nSpace A B h
  rcases hn with rfl | rfl | rfl
  · intro i hi
    have hi : i < 1 := hi
    interval_cases i
    rw [inv_entries_one, inv_entries_one, hd]
  · obtain ⟨a0, a1, a2, a3⟩ := inv_entries_two A o
    obtain ⟨b0, b1, b2, b3⟩ := inv_entries_two B o'
    have h0 := h 0 (by norm_num)
    have h1 := h 1 (by norm_num)
    have h2 := h 2 (by norm_num)
    have h3 := h 3 (by norm_num)
    intro i hi
    have hi : i < 4 := hi
    interval_cases i
    · rw [a0, b0, hd, h3]
    · rw [a1, b1, hd, h1]
    · rw [a2, b2, hd, h2]
    · rw [a3, b3, hd, h0]
  · obtain ⟨a0, a1, a2, a3, a4, a5, a6, a7, a8⟩ := inv_entries_three A o
    obtain ⟨b0, b1, b2, b3, b4, b5, b6, b7, b8⟩ := inv_entries_three B o'
    have h0 := h 0 (by norm_num)
    have h1 := h 1 (by norm_num)
    have h2 := h 2 (by norm_num)
    have h3 := h 3 (by norm_num)
    have h4 := h 4 (by norm_num)
    have h5 := h 5 (by norm_num)
    have h6 := h 6 (by norm_num)
    have h7 := h 7 (by norm_num)
    have h8 := h 8 (by norm_num)
    intro i hi
    have hi : i < 9 := hi
    interval_cases i
    · rw [a0, b0, hd, h4, h5, h7, h8]
    · rw [a1, b1, hd, h1, h2, h7, h8]
    · rw [a2, b2, hd, h1, h2, h4, h5]
    · rw [a3, b3, hd, h3, h5, h6, h8]
    · rw [a4, b4, hd, h0, h2, h6, h8]
    · rw [a5, b5, hd, h0, h2, h3, h5]
    · rw [a6, b6, hd, h3, h4, h6, h7]
    · rw [a7, b7, hd, h0, h1, h6, h7]
    · rw [a8, b8, hd, h0, h1, h3, h4]

/-- The case analysis of `_calculate_permutation` reads the nodal values only: on another
object it leaves the same way, with the same root and flag, and it leaves `Ainv` alone. -/
theorem classify_state (nSpace : Nat) (s t : Simplex) (phi_dof : Nat → ℚ) (s1 : Simplex)
    (h : classify nSpace s phi_dof = Flow.fall s1) :
    s1.Ainv = s.Ainv ∧
    ∃ t1, classify nSpace t phi_dof = Flow.fall t1 ∧ t1.Ainv = t.Ainv ∧
      s1.root_node = t1.root_node ∧ s1.inside_out = t1.inside_out := by
  unfold classify at h ⊢
  simp only [] at h ⊢
  split_ifs at h ⊢ <;> simp only [Flow.fall.injEq, reduceCtorEq] at h ⊢ <;> subst h <;>
    exact ⟨rfl, _, rfl, rfl, rfl, rfl⟩

theorem canonicalize_Ainv (nSpace : Nat) (s s1 : Simplex) (phi_dof phi_nodes : Nat → ℚ)
    (v : Int) (h : canonicalize nSpace s phi_dof phi_nodes = some (v, s1)) :
    s1.Ainv = s.Ainv := by
  rw [canonicalize_eq] at h
  split_ifs at h <;> simp only [Option.some.injEq, Prod.mk.injEq, reduceCtorEq] at h <;>
    obtain ⟨_, h⟩ := h <;> subst h <;> rfl

/-- The canonicalisation on two objects that enter it with the same root and flag leaves the
same flag and the same canonical data inside the array bounds. -/
theorem canonicalize_agree (nSpace : Nat) (hn : nSpace = 1 ∨ nSpace = 2 ∨ nSpace = 3)
    (s t : Simplex) (phi_dof phi_nodes : Nat → ℚ)
    (hr : s.root_node = t.root_node) (hio : s.inside_out = t.inside_out) :
    ∃ s1 t1, canonicalize nSpace s phi_dof phi_nodes = some (0, s1) ∧
      canonicalize nSpace t phi_dof phi_nodes = some (0, t1) ∧
      s1.inside_out = t1.inside_out ∧
      AgreeBelow (nSpace + 1) s1.phi t1.phi ∧
      AgreeBelow ((nSpace + 1) * 3) s1.nodes t1.nodes ∧
      AgreeBelow (nSpace * nSpace) s1.Jac t1.Jac ∧
      AgreeBelow (nSpace * nSpace) s1.inv_Jac t1.inv_Jac := by
  have hpos : 0 < nSpace := by omega
  obtain ⟨s1, hs1, -, hsp, hsio, hsphi, hsnodes, hsJ, -, -⟩ :=
    canonicalize_spec nSpace hn s phi_dof phi_nodes
  obtain ⟨t1, ht1, -, htp, htio, htphi, htnodes, htJ, -, -⟩ :=
    canonicalize_spec nSpace hn t phi_dof phi_nodes
  have hrot : AgreeBelow (nSpace + 1) (rotation nSpace s.root_node s.permutation)
      (rotation nSpace t.root_node t.permutation) := by
    intro i hi
    simp only [rotation, if_pos hi, hr]
  have hdet : det nSpace (jacOf nSpace phi_nodes (rotation nSpace s.root_node s.permutation))
      = det nSpace (jacOf nSpace phi_nodes (rotation nSpace t.root_node t.permutation)) := by
    apply det_congr
    intro k _
    have hm : 1 + k % nSpace < nSpace + 1 := by
      have := Nat.mod_lt k hpos
      omega
    simp only [jacOf, hrot _ hm, hrot 0 (by omega)]
  have hperm : AgreeBelow (nSpace + 1) s1.permutation t1.permutation := by
    intro i hi
    rw [hsp, htp, hdet]
    split_ifs
    · rw [swapLast_apply, swapLast_apply]
      split_ifs
      · exact hrot _ (by omega)
      · exact hrot _ (by omega)
      · exact hrot _ hi
    · exact hrot _ hi
  have hJac : AgreeBelow (nSpace * nSpace) s1.Jac t1.Jac := by
    intro k hk
    have hI : k / nSpace < nSpace := (Nat.div_lt_iff_lt_mul hpos).mpr hk
    have hi : k % nSpace < nSpace := Nat.mod_lt k hpos
    have e : k / nSpace * nSpace + k % nSpace = k := Nat.div_add_mod' k nSpace
    rw [← e, hsJ _ _ hi hI, htJ _ _ hi hI, hperm _ (by omega), hperm 0 (by omega)]
  refine ⟨s1, t1, hs1, ht1, ?_, ?_, ?_, hJac, ?_⟩
  · rw [hsio, htio, hdet, hio]
  · intro i hi
    rw [hsphi i hi, htphi i hi, hperm i hi]
  · intro k hk
    have hi : k / 3 < nSpace + 1 := (Nat.div_lt_iff_lt_mul (by norm_num)).mpr hk
    have hI : k % 3 < 3 := Nat.mod_lt k (by norm_num)
    have e : k / 3 * 3 + k % 3 = k := Nat.div_add_mod' k 3
    rw [← e, hsnodes _ _ hi hI, htnodes _ _ hi hI, hperm _ hi]
  · obtain ⟨o, ho⟩ := canonicalize_inv nSpace s phi_dof phi_nodes 0 s1 hs1
    obtain ⟨o', ho'⟩ := canonicalize_inv nSpace t phi_dof phi_nodes 0 t1 ht1
    rw [ho, ho']
    exact inv_agree nSpace hn _ _ _ _ hJac

/-- `_calculate_cuts` reads `phi` and `nodes` inside their bounds: on two objects that agree
there it fails on both or returns on both, with the same cut parameters and cut points. -/
theorem cuts_agree (nSpace : Nat) (s t : Simplex)
    (hphi : AgreeBelow (nSpace + 1) s.phi t.phi)
    (hnodes : AgreeBelow ((nSpace + 1) * 3) s.nodes t.nodes) (s2 : Simplex)
    (h : _calculate_cuts nSpace s = some s2) :
    ∃ X P X' P', s2 = { s with X_0 := X, phys_nodes_cut := P } ∧
      _calculate_cuts nSpace t = some { t with X_0 := X', phys_nodes_cut := P' } ∧
      AgreeBelow nSpace X X' ∧ AgreeBelow (nSpace * 3) P P' := by
  rw [_calculate_cuts_eq] at h ⊢
  cases hs : forLoopM nSpace (cutsBody s) (s.X_0, s.phys_nodes_cut) with
  | none => rw [hs] at h; simp at h
  | some st =>
    rw [hs] at h
    simp only [Option.map_some', Option.some.injEq] at h
    have hS := (cuts_loop s nSpace (s.X_0, s.phys_nodes_cut)).2 st hs
    have hcond : ∀ i, i < nSpace → t.phi (i + 1) * t.phi 0 < 0 ∨ t.phi (i + 1) = 0 := by
      intro i hi
      rw [← hphi (i + 1) (by omega), ← hphi 0 (by omega)]
      exact (hS i hi).1
    obtain ⟨st', ht⟩ := (cuts_loop t nSpace (t.X_0, t.phys_nodes_cut)).1 hcond
    have hT := (cuts_loop t nSpace (t.X_0, t.phys_nodes_cut)).2 st' ht
    have hX : AgreeBelow nSpace st.1 st'.1 := by
      intro i hi
      have a := (hS i hi).2.1
      have b := (hT i hi).2.1
      rw [← hphi (i + 1) (by omega), ← hphi 0 (by omega)] at b
      split_ifs at a b
      · rw [a, b]
      · rw [a, b]
    refine ⟨st.1, st.2, st'.1, st'.2, h.symm, by rw [ht]; rfl, hX, ?_⟩
    intro k hk
    have hi : k / 3 < nSpace := (Nat.div_lt_iff_lt_mul (by norm_num)).mpr hk
    have hI : k % 3 < 3 := Nat.mod_lt k (by norm_num)
    have e : k / 3 * 3 + k % 3 = k := Nat.div_add_mod' k 3
    rw [← e, (hS _ hi).2.2 _ hI, (hT _ hi).2.2 _ hI, hX _ hi,
      hnodes (k % 3) (by omega), hnodes ((1 + k / 3) * 3 + k % 3) (by omega)]

theorem _calculate_C_eq (K : Kernels) (nSpace nP : Nat) (s : Simplex) :
    _calculate_C K nSpace nP s
      = { s with
          C_H := (forLoop (nDOF nSpace nP).toNat
            (coeffBody nSpace (nDOF nSpace nP).toNat s.Ainv (K._calculate_b nSpace nP s.X_0).1
              (K._calculate_b nSpace nP s.X_0).2.1 (K._calculate_b nSpace nP s.X_0).2.2
              (Jt_dphi_dx nSpace s)) (s.C_H, s.C_ImH, s.C_D)).1,
          C_ImH := (forLoop (nDOF nSpace nP).toNat
            (coeffBody nSpace (nDOF nSpace nP).toNat s.Ainv (K._calculate_b nSpace nP s.X_0).1
              (K._calculate_b nSpace nP s.X_0).2.1 (K._calculate_b nSpace nP s.X_0).2.2
              (Jt_dphi_dx nSpace s)) (s.C_H, s.C_ImH, s.C_D)).2.1,
          C_D := (forLoop (nDOF nSpace nP).toNat
            (coeffBody nSpace (nDOF nSpace nP).toNat s.Ainv (K._calculate_b nSpace nP s.X_0).1
              (K._calculate_b nSpace nP s.X_0).2.1 (K._calculate_b nSpace nP s.X_0).2.2
              (Jt_dphi_dx nSpace s)) (s.C_H, s.C_ImH, s.C_D)).2.2 } := rfl

/-- The column loop of `_calculate_C` for the row `i` leaves every other row as it was. -/
theorem coeffInner_other (nSpace nD : Nat) (A bH bI bD Jt : Nat → ℚ) (i m : Nat) (hm : m ≠ i)
    (n : Nat) (c : (Nat → ℚ) × (Nat → ℚ) × (Nat → ℚ)) :
    (forLoop n (coeffInner nSpace nD A bH bI bD Jt i) c).1 m = c.1 m ∧
    (forLoop n (coeffInner nSpace nD A bH bI bD Jt i) c).2.1 m = c.2.1 m ∧
    (forLoop n (coeffInner nSpace nD A bH bI bD Jt i) c).2.2 m = c.2.2 m := by
  apply forLoop_inv (fun d : (Nat → ℚ) × (Nat → ℚ) × (Nat → ℚ) =>
    d.1 m = c.1 m ∧ d.2.1 m = c.2.1 m ∧ d.2.2 m = c.2.2 m)
  · exact ⟨rfl, rfl, rfl⟩
  · intro j _ d hd
    refine ⟨?_, ?_, ?_⟩
    · simp only [coeffInner, setAt, if_neg hm, hd.1]
    · simp only [coeffInner, setAt, if_neg hm, hd.2.1]
    · simp only [coeffInner]
      rw [← hd.2.2]
      apply forLoop_inv (fun e : Nat → ℚ => e m = d.2.2 m)
      · rfl
      · intro I _ e he
        split_ifs
        · simp only [setAt, if_neg hm, he]
        · exact he

/-- The values that the column loop of `_calculate_C` leaves in the row `i` are fixed by the
values it finds there and by the entries of `Ainv` in that row. -/
theorem coeffInner_same (nSpace nD : Nat) (A A' bH bI bD Jt : Nat → ℚ) (i n : Nat)
    (hA : ∀ j, j < n → A (i * nD + j) = A' (i * nD + j))
    (c c' : (Nat → ℚ) × (Nat → ℚ) × (Nat → ℚ))
    (h1 : c.1 i = c'.1 i) (h2 : c.2.1 i = c'.2.1 i) (h3 : c.2.2 i = c'.2.2 i) :
    (forLoop n (coeffInner nSpace nD A bH bI bD Jt i) c).1 i
      = (forLoop n (coeffInner nSpace nD A' bH bI bD Jt i) c').1 i ∧
    (forLoop n (coeffInner nSpace nD A bH bI bD Jt i) c).2.1 i
      = (forLoop n (coeffInner nSpace nD A' bH bI bD Jt i) c').2.1 i ∧
    (forLoop n (coeffInner nSpace nD A bH bI bD Jt i) c).2.2 i
      = (forLoop n (coeffInner nSpace nD A' bH bI bD Jt i) c').2.2 i := by
  apply forLoop_rel (fun _ (d d' : (Nat → ℚ) × (Nat → ℚ) × (Nat → ℚ)) =>
    d.1 i = d'.1 i ∧ d.2.1 i = d'.2.1 i ∧ d.2.2 i = d'.2.2 i)
  · exact ⟨h1, h2, h3⟩
  · intro j hj d d' hd
    refine ⟨?_, ?_, ?_⟩
    · simp only [coeffInner, setAt_same, hd.1, hA j hj]
    · simp only [coeffInner, setAt_same, hd.2.1, hA j hj]
    · simp only [coeffInner]
      apply forLoop_rel (fun _ (e e' : Nat → ℚ) => e i = e' i)
      · exact hd.2.2
      · intro I _ e e' he
        split_ifs
        · simp only [setAt_same, he, hA j hj]
        · exact he

/-- The row loop of `_calculate_C` overwrites the first `nD` entries of `C_H`, `C_ImH`, `C_D`
with values that do not depend on what these arrays held, and reads `Ainv` inside its
bounds. -/
theorem coeff_loop_agree (nSpace nD : Nat) (A A' bH bI bD Jt : Nat → ℚ)
    (hA : AgreeBelow (nD * nD) A A') (c c' : (Nat → ℚ) × (Nat → ℚ) × (Nat → ℚ)) :
    AgreeBelow nD (forLoop nD (coeffBody nSpace nD A bH bI bD Jt) c).1
      (forLoop nD (coeffBody nSpace nD A' bH bI bD Jt) c').1 ∧
    AgreeBelow nD (forLoop nD (coeffBody nSpace nD A bH bI bD Jt) c).2.1
      (forLoop nD (coeffBody nSpace nD A' bH bI bD Jt) c').2.1 ∧
    AgreeBelow nD (forLoop nD (coeffBody nSpace nD A bH bI bD Jt) c).2.2
      (forLoop nD (coeffBody nSpace nD A' bH bI bD Jt) c').2.2 := by
  apply forLoop_rel (fun k (d d' : (Nat → ℚ) × (Nat → ℚ) × (Nat → ℚ)) =>
    AgreeBelow k d.1 d'.1 ∧ AgreeBelow k d.2.1 d'.2.1 ∧ AgreeBelow k d.2.2 d'.2.2)
  · exact ⟨fun i hi => absurd hi (Nat.not_lt_zero i), fun i hi => absurd hi (Nat.not_lt_zero i),
      fun i hi => absurd hi (Nat.not_lt_zero i)⟩
  · intro i hi d d' hd
    have hrow : ∀ j, j < nD → A (i * nD + j) = A' (i * nD + j) := by
      intro j hj
      apply hA
      calc i * nD + j < i * nD + nD := by omega
        _ = (i + 1) * nD := by ring
        _ ≤ nD * nD := Nat.mul_le_mul_right nD hi
    have hsame := coeffInner_same nSpace nD A A' bH bI bD Jt i nD hrow
      (setAt d.1 i 0, setAt d.2.1 i 0, setAt d.2.2 i 0)
      (setAt d'.1 i 0, setAt d'.2.1 i 0, setAt d'.2.2 i 0)
      (by simp only [setAt_same]) (by simp only [setAt_same]) (by simp only [setAt_same])
    have key : ∀ m, m < i + 1 →
        (coeffBody nSpace nD A bH bI bD Jt i d).1 m
          = (coeffBody nSpace nD A' bH bI bD Jt i d').1 m ∧
        (coeffBody nSpace nD A bH bI bD Jt i d).2.1 m
          = (coeffBody nSpace nD A' bH bI bD Jt i d').2.1 m ∧
        (coeffBody nSpace nD A bH bI bD Jt i d).2.2 m
          = (coeffBody nSpace nD A' bH bI bD Jt i d').2.2 m := by
      intro m hm
      by_cases e : m = i
      · subst e
        exact hsame
      · have hlt : m < i := by omega
        have a := coeffInner_other nSpace nD A bH bI bD Jt i m e nD
          (setAt d.1 i 0, setAt d.2.1 i 0, setAt d.2.2 i 0)
        have b := coeffInner_other nSpace nD A' bH bI bD Jt i m e nD
          (setAt d'.1 i 0, setAt d'.2.1 i 0, setAt d'.2.2 i 0)
        simp only [setAt, if_neg e] at a b
        unfold coeffBody
        exact ⟨by rw [a.1, b.1]; exact hd.1 m hlt, by rw [a.2.1, b.2.1]; exact hd.2.1 m hlt,
          by rw [a.2.2, b.2.2]; exact hd.2.2 m hlt⟩
    exact ⟨fun m hm => (key m hm).1, fun m hm => (key m hm).2.1, fun m hm => (key m hm).2.2⟩

theorem Jt_dphi_dx_agree (nSpace : Nat) (s t : Simplex)
    (hJ : AgreeBelow (nSpace * nSpace) s.Jac t.Jac)
    (hl : s.level_set_normal = t.level_set_normal) :
    Jt_dphi_dx nSpace s = Jt_dphi_dx nSpace t := by
  unfold Jt_dphi_dx
  apply forLoop_congr
  intro I hI y
  apply forLoop_congr
  intro J hJ' z
  have hb : J * nSpace + I < nSpace * nSpace := by
    calc J * nSpace + I < J * nSpace + nSpace := by omega
      _ = (J + 1) * nSpace := by ring
      _ ≤ nSpace * nSpace := Nat.mul_le_mul_right nSpace hJ'
  rw [hJ _ hb, hl]

/-- `_calculate_C` on two objects that agree, inside the bounds, on `X_0`, `Jac` and `Ainv`
and have the same normal leaves the same coefficients in `C_H`, `C_ImH`, `C_D`. -/
theorem calculate_C_agree (K : Kernels) (nSpace nP : Nat) (hK : K.Local nSpace nP)
    (s t : Simplex) (hX : AgreeBelow nSpace s.X_0 t.X_0)
    (hJ : AgreeBelow (nSpace * nSpace) s.Jac t.Jac)
    (hl : s.level_set_normal = t.level_set_normal)
    (hA : AgreeBelow ((nDOF nSpace nP).toNat * (nDOF nSpace nP).toNat) s.Ainv t.Ainv) :
    AgreeBelow (nDOF nSpace nP).toNat (_calculate_C K nSpace nP s).C_H
      (_calculate_C K nSpace nP t).C_H ∧
    AgreeBelow (nDOF nSpace nP).toNat (_calculate_C K nSpace nP s).C_ImH
      (_calculate_C K nSpace nP t).C_ImH ∧
    AgreeBelow (nDOF nSpace nP).toNat (_calculate_C K nSpace nP s).C_D
      (_calculate_C K nSpace nP t).C_D := by
  rw [_calculate_C_eq, _calculate_C_eq]
  simp only []
  rw [← hK.2.1 _ _ hX, ← Jt_dphi_dx_agree nSpace s t hJ hl]
  exact coeff_loop_agree nSpace _ _ _ _ _ _ _ hA _ _

theorem cutBarycenter_agree (nSpace : Nat) (hn : nSpace ≤ 3) (s t : Simplex)
    (hP : AgreeBelow (nSpace * 3) s.phys_nodes_cut t.phys_nodes_cut) :
    cutBarycenter nSpace s = cutBarycenter nSpace t := by
  unfold cutBarycenter
  apply forLoop_congr
  intro i hi y
  apply forLoop_congr
  intro I hI z
  rw [hP (i * 3 + I) (by omega)]

/-- The value that the vertex loop of `_correct_phi` writes for the vertex `i` does not
depend on what `phi_dof_corrected` held. -/
theorem correctBody_value (nSpace : Nat) (s : Simplex) (phi_dof phi_nodes : Nat → ℚ)
    (i : Nat) (pc pc' : Nat → ℚ) :
    correctBody nSpace s phi_dof phi_nodes i pc i
      = correctBody nSpace s phi_dof phi_nodes i pc' i := by
  have e : ∀ q : Nat → ℚ, forLoop nSpace (fun I pc =>
      setAt pc i (pc i + s.level_set_normal I
        * (phi_nodes (i * 3 + I) - cutBarycenter nSpace s I))) (setAt q i 0) i
      = 0 + ∑ J in Finset.range nSpace, s.level_set_normal J
        * (phi_nodes (i * 3 + J) - cutBarycenter nSpace s J) := by
    intro q
    rw [accumulate_same nSpace i (fun I => s.level_set_normal I
      * (phi_nodes (i * 3 + I) - cutBarycenter nSpace s I)) (setAt q i 0), setAt_same]
  unfold correctBody
  simp only [e]
  split_ifs <;> simp only [setAt_same, e]

/-- `_correct_phi` on two objects with the same normal and, inside the bounds, the same cut
points leaves the same corrected values. -/
theorem correct_phi_agree (nSpace : Nat) (hn : nSpace ≤ 3) (s t : Simplex)
    (phi_dof phi_nodes : Nat → ℚ) (hl : s.level_set_normal = t.level_set_normal)
    (hP : AgreeBelow (nSpace * 3) s.phys_nodes_cut t.phys_nodes_cut) :
    AgreeBelow (nSpace + 1) (_correct_phi nSpace s phi_dof phi_nodes).phi_dof_corrected
      (_correct_phi nSpace t phi_dof phi_nodes).phi_dof_corrected := by
  have hbody : correctBody nSpace s phi_dof phi_nodes = correctBody nSpace t phi_dof phi_nodes := by
    funext i pc
    unfold correctBody
    rw [hl, cutBarycenter_agree nSpace hn s t hP]
  rw [_correct_phi_eq, _correct_phi_eq]
  simp only []
  rw [hbody]
  apply forLoop_rel (fun k (a b : Nat → ℚ) => AgreeBelow k a b)
  · exact fun i hi => absurd hi (Nat.not_lt_zero i)
  · intro i _ a b hab m hm
    by_cases e : m = i
    · subst e
      exact correctBody_value nSpace t phi_dof phi_nodes m a b
    · rw [correctBody_other _ _ _ _ _ _ _ e, correctBody_other _ _ _ _ _ _ _ e]
      exact hab m (by omega)

theorem xiOf_agree (nSpace : Nat) (s t : Simplex) (phi_nodes xi_r : Nat → ℚ) (q : Nat)
    (hi : AgreeBelow (nSpace * nSpace) s.inv_Jac t.inv_Jac)
    (hnodes : AgreeBelow ((nSpace + 1) * 3) s.nodes t.nodes) :
    xiOf nSpace s phi_nodes xi_r q = xiOf nSpace t phi_nodes xi_r q := by
  unfold xiOf
  apply forLoop_congr
  intro I hI y
  apply forLoop_congr
  intro J hJ z
  have hb : I * nSpace + J < nSpace * nSpace := by
    calc I * nSpace + J < I * nSpace + nSpace := by omega
      _ = (I + 1) * nSpace := by ring
      _ ≤ nSpace * nSpace := Nat.mul_le_mul_right nSpace hI
  rw [hi _ hb, hnodes J (by omega)]

/-- The quadrature loop of `calculate` on two objects that agree, inside the bounds, on the
inverse Jacobian, the canonical nodes and the coefficients fills the same values into the
first `nQ` entries of `_H`, `_ImH`, `_D`. -/
theorem evalQuadrature_agree (K : Kernels) (nSpace nP nQ : Nat)
    (hn : nSpace = 1 ∨ nSpace = 2 ∨ nSpace = 3) (hK : K.Local nSpace nP) (s t : Simplex) (phi_nodes xi_r : Nat → ℚ)
    (hi : AgreeBelow (nSpace * nSpace) s.inv_Jac t.inv_Jac)
    (hnodes : AgreeBelow ((nSpace + 1) * 3) s.nodes t.nodes)
    (h1 : AgreeBelow (nDOF nSpace nP).toNat s.C_H t.C_H)
    (h2 : AgreeBelow (nDOF nSpace nP).toNat s.C_ImH t.C_ImH)
    (h3 : AgreeBelow (nDOF nSpace nP).toNat s.C_D t.C_D) :
    AgreeBelow nQ (evalQuadrature K nSpace nP nQ s phi_nodes xi_r)._H
      (evalQuadrature K nSpace nP nQ t phi_nodes xi_r)._H ∧
    AgreeBelow nQ (evalQuadrature K nSpace nP nQ s phi_nodes xi_r)._ImH
      (evalQuadrature K nSpace nP nQ t phi_nodes xi_r)._ImH ∧
    AgreeBelow nQ (evalQuadrature K nSpace nP nQ s phi_nodes xi_r)._D
      (evalQuadrature K nSpace nP nQ t phi_nodes xi_r)._D := by
  rw [evalQuadrature_eq, evalQuadrature_eq]
  simp only []
  apply forLoop_rel (fun k (d d' : (Nat → ℚ) × (Nat → ℚ) × (Nat → ℚ)) =>
    AgreeBelow k d.1 d'.1 ∧ AgreeBelow k d.2.1 d'.2.1 ∧ AgreeBelow k d.2.2 d'.2.2)
  · exact ⟨fun i hi => absurd hi (Nat.not_lt_zero i), fun i hi => absurd hi (Nat.not_lt_zero i),
      fun i hi => absurd hi (Nat.not_lt_zero i)⟩
  · intro q _ d d' hd
    obtain ⟨p1, p2, p3⟩ := hK.2.2 (xiOf nSpace t phi_nodes xi_r q) _ _ _ _ _ _ h1 h2 h3
    have hx := xiOf_agree nSpace s t phi_nodes xi_r q hi hnodes
    unfold quadratureBody
    simp only [hx, p1, p2, p3]
    have step : ∀ (a b : Nat → ℚ) (v : ℚ), AgreeBelow q a b →
        AgreeBelow (q + 1) (setAt a q v) (setAt b q v) := by
      intro a b v hab m hm
      by_cases e : m = q
      · simp only [setAt, if_pos e]
      · simp only [setAt, if_neg e]
        exact hab m (by omega)
    split_ifs
    · exact ⟨step _ _ _ hd.1, step _ _ _ hd.2.1, step _ _ _ hd.2.2⟩
    · exact ⟨step _ _ _ hd.1, step _ _ _ hd.2.1, step _ _ _ hd.2.2⟩
    · exact ⟨step _ _ _ hd.1, step _ _ _ hd.2.1, step _ _ _ hd.2.2⟩
    · omega

theorem set_quad_frame (nQ : Nat) (s s1 : Simplex) (q : Nat)
    (h : set_quad nQ s q = some s1) :
    q < nQ ∧ s1._H = s._H ∧ s1._ImH = s._ImH ∧ s1._D = s._D ∧
      s1.inside_out = s.inside_out ∧ s1.phi_dof_corrected = s.phi_dof_corrected := by
  unfold set_quad at h
  simp only [] at h
  split_ifs at h with h1 h2 <;> simp only [Option.some.injEq, reduceCtorEq] at h <;>
    subst h <;> exact ⟨h1, rfl, rfl, rfl, rfl, rfl⟩

/-- The state that a trivial `calculate` returns is the one left by the case analysis with
`_H`, `_ImH`, `_D` refilled. -/
theorem calculate_ret_form (K : Kernels) (nSpace nP nQ : Nat) (s : Simplex)
    (phi_dof phi_nodes xi_r : Nat → ℚ) (icase : Int) (s1 : Simplex)
    (hc : classify nSpace
      { s with phi_dof_corrected :=
          forLoop (nSpace + 1) (fun i pc => setAt pc i (phi_dof i)) s.phi_dof_corrected }
      phi_dof = Flow.ret icase s1) :
    ∃ o : (Nat → ℚ) × (Nat → ℚ) × (Nat → ℚ),
      calculate K nSpace nP nQ s phi_dof phi_nodes xi_r
        = some { s1 with _H := o.1, _ImH := o.2.1, _D := o.2.2 } := by
  rcases (classify_ret_code nSpace _ s1 phi_dof icase hc).1 with hi | hi
  · subst hi
    exact ⟨forLoop nQ (fun q (o : (Nat → ℚ) × (Nat → ℚ) × (Nat → ℚ)) =>
        (setAt o.1 q 1, setAt o.2.1 q 0, setAt o.2.2 q 0)) (s1._H, s1._ImH, s1._D),
      by simp [calculate, _calculate_permutation, hc]⟩
  · subst hi
    exact ⟨forLoop nQ (fun q (o : (Nat → ℚ) × (Nat → ℚ) × (Nat → ℚ)) =>
        (setAt o.1 q 0, setAt o.2.1 q 1, setAt o.2.2 q 0)) (s1._H, s1._ImH, s1._D),
      by simp [calculate, _calculate_permutation, hc]⟩

/-- What a trivial `calculate` leaves: the flag is false, `phi_dof_corrected` is the copy of
`phi_dof`, and the arrays hold the constants of the case. -/
theorem calculate_ret_full (K : Kernels) (nSpace nP nQ : Nat) (s : Simplex)
    (phi_dof phi_nodes xi_r : Nat → ℚ) (icase : Int) (s1 : Simplex)
    (hc : classify nSpace
      { s with phi_dof_corrected :=
          forLoop (nSpace + 1) (fun i pc => setAt pc i (phi_dof i)) s.phi_dof_corrected }
      phi_dof = Flow.ret icase s1) :
    ∃ s2, calculate K nSpace nP nQ s phi_dof phi_nodes xi_r = some s2 ∧
      s2.inside_out = false ∧
      (∀ i, i < nSpace + 1 → s2.phi_dof_corrected i = phi_dof i) ∧
      ∀ q, q < nQ → s2._H q = (if icase = 1 then 1 else 0) ∧
        s2._ImH q = (if icase = 1 then 0 else 1) ∧ s2._D q = 0 := by
  obtain ⟨hi, hpdc⟩ := classify_ret_code nSpace _ s1 phi_dof icase hc
  obtain ⟨s2, h2, hio, hval⟩ :=
    calculate_of_ret K nSpace nP nQ s phi_dof phi_nodes xi_r icase s1 hc hi
  obtain ⟨o, ho⟩ := calculate_ret_form K nSpace nP nQ s phi_dof phi_nodes xi_r icase s1 hc
  have e : s2 = { s1 with _H := o.1, _ImH := o.2.1, _D := o.2.2 } :=
    Option.some.inj (h2.symm.trans ho)
  have hst := classify_ret_state nSpace
    { s with phi_dof_corrected :=
        forLoop (nSpace + 1) (fun i pc => setAt pc i (phi_dof i)) s.phi_dof_corrected }
    _ phi_dof icase s1 hc
  rw [hc] at hst
  simp only [Flow.ret.injEq, true_and] at hst
  refine ⟨s2, h2, ?_, ?_, hval⟩
  · rw [hio, hst]
  · intro i hi'
    rw [e]
    show s1.phi_dof_corrected i = phi_dof i
    rw [hpdc]
    show forLoop (nSpace + 1) (fun i pc => setAt pc i (phi_dof i)) s.phi_dof_corrected i
      = phi_dof i
    rw [forLoop_setAt, if_pos hi']

/-- One direction of the history independence: whatever `calculate` returns on one object,
it returns on any other object with the same `Ainv` a state with the same outputs. -/
theorem calculate_agree (K : Kernels) (nSpace nP nQ : Nat)
    (hn : nSpace = 1 ∨ nSpace = 2 ∨ nSpace = 3) (hK : K.Local nSpace nP) (s t : Simplex)
    (hA : AgreeBelow ((nDOF nSpace nP).toNat * (nDOF nSpace nP).toNat) s.Ainv t.Ainv)
    (phi_dof phi_nodes xi_r : Nat → ℚ) (s3 : Simplex)
    (h : calculate K nSpace nP nQ s phi_dof phi_nodes xi_r = some s3) :
    ∃ t3, calculate K nSpace nP nQ t phi_dof phi_nodes xi_r = some t3 ∧
      (∀ q, q < nQ → s3._H q = t3._H q ∧ s3._ImH q = t3._ImH q ∧ s3._D q = t3._D q) ∧
      s3.inside_out = t3.inside_out ∧
      ∀ i, i < nSpace + 1 → s3.phi_dof_corrected i = t3.phi_dof_corrected i := by
  cases hc : classify nSpace
      { s with phi_dof_corrected :=
          forLoop (nSpace + 1) (fun i pc => setAt pc i (phi_dof i)) s.phi_dof_corrected }
      phi_dof with
  | ret v s1 =>
    have hct := classify_ret_state nSpace
      { t with phi_dof_corrected :=
          forLoop (nSpace + 1) (fun i pc => setAt pc i (phi_dof i)) t.phi_dof_corrected }
      _ phi_dof v s1 hc
    obtain ⟨s2, hs2, sio, spdc, sval⟩ :=
      calculate_ret_full K nSpace nP nQ s phi_dof phi_nodes xi_r v s1 hc
    obtain ⟨t2, ht2, tio, tpdc, tval⟩ :=
      calculate_ret_full K nSpace nP nQ t phi_dof phi_nodes xi_r v _ hct
    have e : s3 = s2 := Option.some.inj (h.symm.trans hs2)
    subst e
    refine ⟨t2, ht2, ?_, by rw [sio, tio], fun i hi => by rw [spdc i hi, tpdc i hi]⟩
    intro q hq
    obtain ⟨a1, a2, a3⟩ := sval q hq
    obtain ⟨b1, b2, b3⟩ := tval q hq
    exact ⟨by rw [a1, b1], by rw [a2, b2], by rw [a3, b3]⟩
  | abort =>
    unfold calculate at h
    simp [_calculate_permutation, hc] at h
  | fall s1 =>
    obtain ⟨hs1, t1, hct, ht1, hr, hio1⟩ := classify_state nSpace _
      { t with phi_dof_corrected :=
          forLoop (nSpace + 1) (fun i pc => setAt pc i (phi_dof i)) t.phi_dof_corrected }
      phi_dof s1 hc
    obtain ⟨s2, t2, hs2, ht2, hio, hphi, hnodes, hJ, hiJ⟩ :=
      canonicalize_agree nSpace hn s1 t1 phi_dof phi_nodes hr hio1
    have hsA : s2.Ainv = s.Ainv := by
      rw [canonicalize_Ainv nSpace s1 s2 phi_dof phi_nodes 0 hs2, hs1]
    have htA : t2.Ainv = t.Ainv := by
      rw [canonicalize_Ainv nSpace t1 t2 phi_dof phi_nodes 0 ht2, ht1]
    have hps : _calculate_permutation nSpace
        { s with phi_dof_corrected :=
            forLoop (nSpace + 1) (fun i pc => setAt pc i (phi_dof i)) s.phi_dof_corrected }
        phi_dof phi_nodes = some (0, s2) := by
      simp only [_calculate_permutation, hc, hs2]
    have hpt : _calculate_permutation nSpace
        { t with phi_dof_corrected :=
            forLoop (nSpace + 1) (fun i pc => setAt pc i (phi_dof i)) t.phi_dof_corrected }
        phi_dof phi_nodes = some (0, t2) := by
      simp only [_calculate_permutation, hct, ht2]
    rw [calculate_cut K nSpace nP nQ s s2 phi_dof phi_nodes xi_r hps] at h
    rw [calculate_cut K nSpace nP nQ t t2 phi_dof phi_nodes xi_r hpt]
    cases hcs : _calculate_cuts nSpace s2 with
    | none => rw [hcs] at h; simp at h
    | some s2c =>
      rw [hcs] at h
      simp only [Option.some_bind] at h
      obtain ⟨X, P, X', P', e, hct2, hX, hP⟩ := cuts_agree nSpace s2 t2 hphi hnodes s2c hcs
      subst e
      rw [hct2]
      simp only [Option.some_bind]
      obtain ⟨hq, f1, f2, f3, f4, f5⟩ := set_quad_frame nQ _ s3 0 h
      have hl : K._calculate_normal nSpace P = K._calculate_normal nSpace P' := hK.1 P P' hP
      have hC := calculate_C_agree K nSpace nP hK
        { ({ s2 with X_0 := X, phys_nodes_cut := P } : Simplex) with
          level_set_normal := K._calculate_normal nSpace P }
        { ({ t2 with X_0 := X', phys_nodes_cut := P' } : Simplex) with
          level_set_normal := K._calculate_normal nSpace P' }
        hX hJ hl (by
          intro k hk
          show s2.Ainv k = t2.Ainv k
          rw [hsA, htA]
          exact hA k hk)
      have hcp := correct_phi_agree nSpace (by omega)
        (_calculate_C K nSpace nP
          { ({ s2 with X_0 := X, phys_nodes_cut := P } : Simplex) with
            level_set_normal := K._calculate_normal nSpace P })
        (_calculate_C K nSpace nP
          { ({ t2 with X_0 := X', phys_nodes_cut := P' } : Simplex) with
            level_set_normal := K._calculate_normal nSpace P' })
        phi_dof phi_nodes hl hP
      have hQ := evalQuadrature_agree K nSpace nP nQ hn hK
        (_correct_phi nSpace (_calculate_C K nSpace nP
          { ({ s2 with X_0 := X, phys_nodes_cut := P } : Simplex) with
            level_set_normal := K._calculate_normal nSpace P }) phi_dof phi_nodes)
        (_correct_phi nSpace (_calculate_C K nSpace nP
          { ({ t2 with X_0 := X', phys_nodes_cut := P' } : Simplex) with
            level_set_normal := K._calculate_normal nSpace P' }) phi_dof phi_nodes)
        phi_nodes xi_r hiJ hnodes hC.1 hC.2.1 hC.2.2
      obtain ⟨t3, ht3⟩ : ∃ t3, set_quad nQ (evalQuadrature K nSpace nP nQ
          (_correct_phi nSpace (_calculate_C K nSpace nP
            { ({ t2 with X_0 := X', phys_nodes_cut := P' } : Simplex) with
              level_set_normal := K._calculate_normal nSpace P' }) phi_dof phi_nodes)
          phi_nodes xi_r) 0 = some t3 := by
        unfold set_quad
        simp only [hq, not_true_eq_false, if_false]
        split_ifs
        · exact ⟨_, rfl⟩
        · exact ⟨_, rfl⟩
      obtain ⟨-, g1, g2, g3, g4, g5⟩ := set_quad_frame nQ _ t3 0 ht3
      refine ⟨t3, ht3, ?_, ?_, ?_⟩
      · intro q hq'
        rw [f1, f2, f3, g1, g2, g3]
        exact ⟨hQ.1 q hq', hQ.2.1 q hq', hQ.2.2 q hq'⟩
      · rw [f4, g4]
        exact hio
      · intro i hi
        rw [f5, g5]
        exact hcp i hi

/-- C23: history independence of `calculate`. For `nSpace` 1, 2 or 3, kernels that read their
array arguments inside the declared bounds, and any two objects `s` and `t` in arbitrary
prior states whose `Ainv` hold the same `nDOF*nDOF` entries: `calculate` with the same
`phi_dof`, `phi_nodes`, `xi_r` stops at a failing `assert` on both or returns on both, and
then the arrays `_H`, `_ImH`, `_D` (entries below `nQ`), the flag `inside_out` and
`phi_dof_corrected` (entries below `nN`) are the same; no other member of the prior states
is assumed equal. -/
theorem calculate_history_independent (K : Kernels) (nSpace nP nQ : Nat)
    (hn : nSpace = 1 ∨ nSpace = 2 ∨ nSpace = 3) (hK : K.Local nSpace nP) (s t : Simplex)
    (hA : AgreeBelow ((nDOF nSpace nP).toNat * (nDOF nSpace nP).toNat) s.Ainv t.Ainv)
    (phi_dof phi_nodes xi_r : Nat → ℚ) :
    (calculate K nSpace nP nQ s phi_dof phi_nodes xi_r = none ↔
      calculate K nSpace nP nQ t phi_dof phi_nodes xi_r = none) ∧
    ∀ s3 t3, calculate K nSpace nP nQ s phi_dof phi_nodes xi_r = some s3 →
      calculate K nSpace nP nQ t phi_dof phi_nodes xi_r = some t3 →
      (∀ q, q < nQ → s3._H q = t3._H q ∧ s3._ImH q = t3._ImH q ∧ s3._D q = t3._D q) ∧
      s3.inside_out = t3.inside_out ∧
      ∀ i, i < nSpace + 1 → s3.phi_dof_corrected i = t3.phi_dof_corrected i := by
  have hA' : AgreeBelow ((nDOF nSpace nP).toNat * (nDOF nSpace nP).toNat) t.Ainv s.Ainv :=
    fun k hk => (hA k hk).symm
  refine ⟨⟨?_, ?_⟩, ?_⟩
  · intro hs
    cases ht : calculate K nSpace nP nQ t phi_dof phi_nodes xi_r with
    | none => rfl
    | some t3 =>
      obtain ⟨s3, h3, -⟩ :=
        calculate_agree K nSpace nP nQ hn hK t s hA' phi_dof phi_nodes xi_r t3 ht
      rw [hs] at h3
      exact absurd h3 (by simp)
  · intro ht
    cases hs : calculate K nSpace nP nQ s phi_dof phi_nodes xi_r with
    | none => rfl
    | some s3 =>
      obtain ⟨t3, h3, -⟩ :=
        calculate_agree K nSpace nP nQ hn hK s t hA phi_dof phi_nodes xi_r s3 hs
      rw [ht] at h3
      exact absurd h3 (by simp)
  · intro s3 t3 hs ht
    obtain ⟨t4, h4, hrest⟩ :=
      calculate_agree K nSpace nP nQ hn hK s t hA phi_dof phi_nodes xi_r s3 hs
    have e : t3 = t4 := Option.some.inj (ht.symm.trans h4)
    subst e
    exact hrest

/-- C23 on the unit segment with nodal values -1, 1 and one quadrature point: a fresh object
and one left in a foreign state give the same outputs. -/
theorem calculate_history_independent_witness :
    Kernels.Local Kernels.zero 1 1 ∧
    AgreeBelow ((nDOF 1 1).toNat * (nDOF 1 1).toNat) Simplex.zero.Ainv staleState.Ainv ∧
    (calculate Kernels.zero 1 1 1 Simplex.zero (arr [-1, 1]) (arr [0, 0, 0, 1, 0, 0])
        (arr [1 / 2, 0, 0]) = none ↔
      calculate Kernels.zero 1 1 1 staleState (arr [-1, 1]) (arr [0, 0, 0, 1, 0, 0])
        (arr [1 / 2, 0, 0]) = none) ∧
    ∀ s3 t3,
      calculate Kernels.zero 1 1 1 Simplex.zero (arr [-1, 1]) (arr [0, 0, 0, 1, 0, 0])
        (arr [1 / 2, 0, 0]) = some s3 →
      calculate Kernels.zero 1 1 1 staleState (arr [-1, 1]) (arr [0, 0, 0, 1, 0, 0])
        (arr [1 / 2, 0, 0]) = some t3 →
      (∀ q, q < 1 → s3._H q = t3._H q ∧ s3._ImH q = t3._ImH q ∧ s3._D q = t3._D q) ∧
      s3.inside_out = t3.inside_out ∧
      ∀ i, i < 1 + 1 → s3.phi_dof_corrected i = t3.phi_dof_corrected i :=
  ⟨⟨fun _ _ _ => rfl, fun _ _ _ => rfl, fun _ _ _ _ _ _ _ _ _ _ => ⟨rfl, rfl, rfl⟩⟩,
    fun _ _ => rfl,
    calculate_history_independent Kernels.zero 1 1 1 (Or.inl rfl)
      ⟨fun _ _ _ => rfl, fun _ _ _ => rfl, fun _ _ _ _ _ _ _ _ _ _ => ⟨rfl, rfl, rfl⟩⟩
      Simplex.zero staleState (fun _ _ => rfl) _ _ _⟩

/-! ## The two-dimensional box -/

/-- What the data of `makeBox2D` satisfies for all box dimensions and every parameter: the
edges 0 and 1 commute with their reparameterisations onto `face4` and meet their end
vertices at the parameters 0 and 1; for the edges 2 and 3 the registered
reparameterisation gives the edge map at the reversed parameter `1 - p`, and the vertex
registered with parameter 0 is met at parameter 1 and the other way round. -/
theorem box2D_reparam_reversed (b : Box) (p : ℚ × ℚ) :
    makeBox2D.edgeOf 0 = some edge0 ∧ makeBox2D.edgeOf 1 = some edge1 ∧
    makeBox2D.edgeOf 2 = some edge2 ∧ makeBox2D.edgeOf 3 = some edge3 ∧
    makeBox2D.verticesOf 0 = some (vert0, vert1) ∧
    makeBox2D.verticesOf 1 = some (vert1, vert2) ∧
    makeBox2D.verticesOf 2 = some (vert2, vert3) ∧
    makeBox2D.verticesOf 3 = some (vert3, vert0) ∧
    makeBox2D.edgeFaceFunction
      = [reparamEdge_0, reparamEdge_3, reparamEdge_2, reparamEdge_1] ∧
    face4 b (reparamEdge_0 p) = edge0 b p ∧
    face4 b (reparamEdge_3 p) = edge1 b p ∧
    face4 b (reparamEdge_2 p) = edge2 b (1 - p.1, p.2) ∧
    face4 b (reparamEdge_1 p) = edge3 b (1 - p.1, p.2) ∧
    edge0 b (reparamVert_zero p) = vert0 b p ∧ edge0 b (reparamVert_one p) = vert1 b p ∧
    edge1 b (reparamVert_zero p) = vert1 b p ∧ edge1 b (reparamVert_one p) = vert2 b p ∧
    edge2 b (reparamVert_one p) = vert2 b p ∧ edge2 b (reparamVert_zero p) = vert3 b p ∧
    edge3 b (reparamVert_one p) = vert3 b p ∧ edge3 b (reparamVert_zero p) = vert0 b p := by
  refine ⟨rfl, rfl, rfl, rfl, rfl, rfl, rfl, rfl, rfl, ?_, ?_, ?_, ?_, ?_, ?_, ?_, ?_, ?_, ?_,
    ?_, ?_⟩ <;>
  simp [face4, edge0, edge1, edge2, edge3, vert0, vert1, vert2, vert3, reparamEdge_0,
    reparamEdge_1, reparamEdge_2, reparamEdge_3, reparamVert_zero, reparamVert_one]

/-- C31, at the failing input: for the box of length 2 and width 3 and the parameter 0, the
edge of index 2 of `makeBox2D` (entity map `edge2`, reparameterisation `reparamEdge_2`, end
vertices `vertexMap[2]` with `reparamVert_zero` and `vertexMap[3]` with
`reparamVert_one`): `face4(reparamEdge_2(p))` is the point (2, 3, 0) while `edge2(p)` is
(0, 3, 0), and the edge at the parameter of its first vertex is (0, 3, 0) while that vertex
is at (2, 3, 0); at its second vertex it is (2, 3, 0) while the vertex is at (0, 3, 0). The
edge of index 3 is off in the same way. -/
theorem box2D_reparam_mismatch :
    makeBox2D.edgeOf 2 = some edge2 ∧
    makeBox2D.edgeFaceFunction[2]? = some reparamEdge_2 ∧
    makeBox2D.verticesOf 2 = some (vert2, vert3) ∧
    face4 ⟨2, 3, 1⟩ (reparamEdge_2 (0, 0)) = (2, 3, 0) ∧
    edge2 ⟨2, 3, 1⟩ (0, 0) = (0, 3, 0) ∧
    face4 ⟨2, 3, 1⟩ (reparamEdge_2 (0, 0)) ≠ edge2 ⟨2, 3, 1⟩ (0, 0) ∧
    edge2 ⟨2, 3, 1⟩ (reparamVert_zero (0, 0)) = (0, 3, 0) ∧
    vert2 ⟨2, 3, 1⟩ (0, 0) = (2, 3, 0) ∧
    edge2 ⟨2, 3, 1⟩ (reparamVert_zero (0, 0)) ≠ vert2 ⟨2, 3, 1⟩ (0, 0) ∧
    edge2 ⟨2, 3, 1⟩ (reparamVert_one (0, 0)) ≠ vert3 ⟨2, 3, 1⟩ (0, 0) ∧
    makeBox2D.edgeOf 3 = some edge3 ∧
    makeBox2D.edgeFaceFunction[3]? = some reparamEdge_1 ∧
    makeBox2D.verticesOf 3 = some (vert3, vert0) ∧
    face4 ⟨2, 3, 1⟩ (reparamEdge_1 (0, 0)) ≠ edge3 ⟨2, 3, 1⟩ (0, 0) ∧
    edge3 ⟨2, 3, 1⟩ (reparamVert_zero (0, 0)) ≠ vert3 ⟨2, 3, 1⟩ (0, 0) ∧
    edge3 ⟨2, 3, 1⟩ (reparamVert_one (0, 0)) ≠ vert0 ⟨2, 3, 1⟩ (0, 0) := by
  refine ⟨rfl, rfl, rfl, ?_, ?_, ?_, ?_, ?_, ?_, ?_, rfl, rfl, rfl, ?_, ?_, ?_⟩ <;>
  simp [face4, edge2, edge3, vert0, vert2, vert3, reparamEdge_1, reparamEdge_2,
    reparamVert_zero, reparamVert_one, Prod.ext_iff]

/-! ## Sign preservation of the corrected values -/

/-- The run behind the example of C14: on the triangle (0,0), (1,0), (0,1) with nodal values
-1, 1, 1 the cut points are (1/2, 0) and (0, 1/2), the perpendicular of their segment is
(1/2, 1/2), and `calculate` leaves `phi_dof_corrected = [-1/4, 1/4, 1/4]`. -/
theorem corrected_sign_triangle :
    (calculate Kernels.perp 2 1 1 Simplex.zero (arr [-1, 1, 1])
        (arr [0, 0, 0, 1, 0, 0, 0, 1, 0]) (arr [1 / 3, 1 / 3, 0])).map
      (fun s3 => ((List.range 6).map s3.phys_nodes_cut, (List.range 2).map s3.level_set_normal,
        (List.range 3).map s3.phi_dof_corrected))
      = some ([1 / 2, 0, 0, 0, 1 / 2, 0], [1 / 2, 1 / 2], [-1 / 4, 1 / 4, 1 / 4]) := by
  decide!

end equivalent_polynomials
